import Mathlib

/-!
# QObject ownership tree and QPointer weak references

A shallow embedding of `qobject.hpp`.  Addresses are natural numbers and the memory is split
by field: every field of the three structs of the header (`QObject` with its
`QObjectPrivate`, `QWeakPointerData`, `QPointer`) is a map from addresses to values.

* Objects have the addresses `0 .. nobjs - 1`; `objFreed n` records that the storage of `n`
  was released.  Reading or writing a field of an object that is not live is undefined
  behaviour in C++ and makes the embedded operation return `none`.
* Weak cells (`QWeakPointerData`) have the addresses `0 .. nslots - 1`, with `slotFreed`.
* Handles (`QPointer`) are numbered `0 .. nptrs - 1`; `d h` is the field `d` of handle `h`.
* Addresses are never reused.  `q_ptr` is the address of the object itself and is not stored.
* `deleted` is a ghost trace: the objects whose destructor body has started, in order.

Loops and the recursive destructor take a fuel argument; `none` is also the result when the
fuel runs out.
-/

/-- Point update of a field map. -/
def upd {α : Type} (f : Nat → α) (a : Nat) (v : α) : Nat → α :=
  fun b => if b = a then v else f b

/-- The memory of the program, split by field. -/
structure Heap where
  nobjs : Nat
  objFreed : Nat → Bool
  parent : Nat → Option Nat
  childrenHead : Nat → Option Nat
  weak_pointers : Nat → Option Nat
  nextSibling : Nat → Option Nat
  prevSibling : Nat → Option Nat
  nslots : Nat
  slotFreed : Nat → Bool
  object : Nat → Option Nat
  next : Nat → Option Nat
  prev : Nat → Option Nat
  nptrs : Nat
  d : Nat → Option Nat
  deleted : List Nat

namespace Heap

/-- The empty memory. -/
def empty : Heap :=
  { nobjs := 0, objFreed := fun _ => false, parent := fun _ => none,
    childrenHead := fun _ => none, weak_pointers := fun _ => none,
    nextSibling := fun _ => none, prevSibling := fun _ => none,
    nslots := 0, slotFreed := fun _ => false, object := fun _ => none,
    next := fun _ => none, prev := fun _ => none,
    nptrs := 0, d := fun _ => none, deleted := [] }

/-- The object at `n` is allocated and not released. -/
def live (s : Heap) (n : Nat) : Bool := decide (n < s.nobjs) && !s.objFreed n

/-- The weak cell at `k` is allocated and not released. -/
def cell (s : Heap) (k : Nat) : Bool := decide (k < s.nslots) && !s.slotFreed k

/-- Read the field `f` of the object `n`. -/
def rd (s : Heap) (f : Nat → Option Nat) (n : Nat) : Option (Option Nat) :=
  if s.live n then some (f n) else none

/-- Read the field `f` of the weak cell `k`. -/
def rdc (s : Heap) (f : Nat → Option Nat) (k : Nat) : Option (Option Nat) :=
  if s.cell k then some (f k) else none

/-- Read the field `d` of the handle `h`. -/
def rdd (s : Heap) (h : Nat) : Option (Option Nat) :=
  if h < s.nptrs then some (s.d h) else none

/-- The assignment `n->d_ptr->parent = v`. -/
def wrParent (s : Heap) (n : Nat) (v : Option Nat) : Option Heap :=
  if s.live n then some { s with parent := upd s.parent n v } else none

/-- The assignment `n->d_ptr->childrenHead = v`. -/
def wrHead (s : Heap) (n : Nat) (v : Option Nat) : Option Heap :=
  if s.live n then some { s with childrenHead := upd s.childrenHead n v } else none

/-- The assignment `n->d_ptr->weak_pointers = v`. -/
def wrWeak (s : Heap) (n : Nat) (v : Option Nat) : Option Heap :=
  if s.live n then some { s with weak_pointers := upd s.weak_pointers n v } else none

/-- The assignment `n->nextSibling = v`. -/
def wrNext (s : Heap) (n : Nat) (v : Option Nat) : Option Heap :=
  if s.live n then some { s with nextSibling := upd s.nextSibling n v } else none

/-- The assignment `n->prevSibling = v`. -/
def wrPrev (s : Heap) (n : Nat) (v : Option Nat) : Option Heap :=
  if s.live n then some { s with prevSibling := upd s.prevSibling n v } else none

/-- The assignment `k->object = v`. -/
def wrObject (s : Heap) (k : Nat) (v : Option Nat) : Option Heap :=
  if s.cell k then some { s with object := upd s.object k v } else none

/-- The assignment `k->next = v`. -/
def wrWNext (s : Heap) (k : Nat) (v : Option Nat) : Option Heap :=
  if s.cell k then some { s with next := upd s.next k v } else none

/-- The assignment `k->prev = v`. -/
def wrWPrev (s : Heap) (k : Nat) (v : Option Nat) : Option Heap :=
  if s.cell k then some { s with prev := upd s.prev k v } else none

/-- The assignment `h.d = v`. -/
def wrD (s : Heap) (h : Nat) (v : Option Nat) : Option Heap :=
  if h < s.nptrs then some { s with d := upd s.d h v } else none

/-- Storage for a new `QObject` with its `QObjectPrivate`, all pointer fields null (the
default member initialisers); returns the new heap and the address. -/
def newObj (s : Heap) : Heap × Nat :=
  ({ s with
      nobjs := s.nobjs + 1
      objFreed := upd s.objFreed s.nobjs false
      parent := upd s.parent s.nobjs none
      childrenHead := upd s.childrenHead s.nobjs none
      weak_pointers := upd s.weak_pointers s.nobjs none
      nextSibling := upd s.nextSibling s.nobjs none
      prevSibling := upd s.prevSibling s.nobjs none }, s.nobjs)

/-- The expression `new QWeakPointerData`; returns the new heap and the address. -/
def newSlot (s : Heap) : Heap × Nat :=
  ({ s with
      nslots := s.nslots + 1
      slotFreed := upd s.slotFreed s.nslots false
      object := upd s.object s.nslots none
      next := upd s.next s.nslots none
      prev := upd s.prev s.nslots none }, s.nslots)

/-- Storage for a new `QPointer` with `d = nullptr`; returns the new heap and the handle. -/
def newPtr (s : Heap) : Heap × Nat :=
  ({ s with nptrs := s.nptrs + 1, d := upd s.d s.nptrs none }, s.nptrs)

/-- Release the storage of the object `n`. -/
def freeObj (s : Heap) (n : Nat) : Option Heap :=
  if s.live n then some { s with objFreed := upd s.objFreed n true } else none

/-- The expression `delete k` for a weak cell. -/
def freeSlot (s : Heap) (k : Nat) : Option Heap :=
  if s.cell k then some { s with slotFreed := upd s.slotFreed k true } else none

end Heap

/-! ## QObject -/

/-- The method `QObject::parent()`. -/
def QObject.parentFn (s : Heap) (this : Nat) : Option (Option Nat) :=
  s.rd s.parent this

/-- The method `QObject::hasChildren()`. -/
def QObject.hasChildren (s : Heap) (this : Nat) : Option Bool := do
  let h ← s.rd s.childrenHead this
  some (decide (h ≠ none))

/-- The method `QObject::addChild(child)`.  A failed `Q_ASSERT` aborts. -/
def QObject.addChild (s : Heap) (this child : Nat) : Option Heap := do
  -- Q_ASSERT(child->d_ptr->parent == this);
  let cp ← s.rd s.parent child
  if cp ≠ some this then none else
  -- child->nextSibling = d_ptr->childrenHead;
  let h ← s.rd s.childrenHead this
  let s ← s.wrNext child h
  -- if (d_ptr->childrenHead) d_ptr->childrenHead->prevSibling = child;
  let h ← s.rd s.childrenHead this
  let s ← (match h with
    | some q => s.wrPrev q (some child)
    | none => some s)
  -- d_ptr->childrenHead = child;
  s.wrHead this (some child)

/-- The method `QObject::removeChild(child)`. -/
def QObject.removeChild (s : Heap) (this child : Nat) : Option Heap := do
  -- if (d_ptr->childrenHead == child) d_ptr->childrenHead = child->nextSibling;
  let h ← s.rd s.childrenHead this
  let cn ← s.rd s.nextSibling child
  let s ← (if h = some child then s.wrHead this cn else some s)
  -- if (child->prevSibling) child->prevSibling->nextSibling = child->nextSibling;
  let cp ← s.rd s.prevSibling child
  let cn ← s.rd s.nextSibling child
  let s ← (match cp with
    | some q => s.wrNext q cn
    | none => some s)
  -- if (child->nextSibling) child->nextSibling->prevSibling = child->prevSibling;
  let cn ← s.rd s.nextSibling child
  let cp ← s.rd s.prevSibling child
  let s ← (match cn with
    | some q => s.wrPrev q cp
    | none => some s)
  -- child->prevSibling = child->nextSibling = nullptr;
  let s ← s.wrNext child none
  s.wrPrev child none

/-- The method `QObject::setParent(newParent)`. -/
def QObject.setParent (s : Heap) (this : Nat) (newParent : Option Nat) : Option Heap := do
  -- if (d_ptr->parent == newParent) return;
  let p ← s.rd s.parent this
  if p = newParent then some s else
  -- if (d_ptr->parent) d_ptr->parent->removeChild(this);
  let s ← (match p with
    | some q => QObject.removeChild s q this
    | none => some s)
  -- d_ptr->parent = newParent;
  let s ← s.wrParent this newParent
  -- if (newParent) newParent->addChild(this);
  match newParent with
  | some q => QObject.addChild s q this
  | none => some s

/-- The expression `new QObject(parent)`: fresh storage, then the constructor
`QObject::QObject(parent)`; returns the new heap and the address of the new object. -/
def QObject.new (s : Heap) (parent : Option Nat) : Option (Heap × Nat) := do
  let (s, this) := s.newObj
  -- setParent(parent);
  let s ← QObject.setParent s this parent
  some (s, this)

/-- The `while (current)` loop of `QObject::~QObject` that clears every weak cell of `this`. -/
def QObject.invalidate : Nat → Heap → Nat → Option Nat → Option Heap
  | _, s, _, none => some s
  | 0, _, _, some _ => none
  | f + 1, s, this, some current => do
    -- QWeakPointerData *next = current->next;
    let next ← s.rdc s.next current
    -- current->object = nullptr;
    let s ← s.wrObject current none
    -- if (current->prev) current->prev->next = current->next;
    -- else d_ptr->weak_pointers = current->next;
    let cp ← s.rdc s.prev current
    let cn ← s.rdc s.next current
    let s ← (match cp with
      | some q => s.wrWNext q cn
      | none => s.wrWeak this cn)
    -- if (current->next) current->next->prev = current->prev;
    let cn ← s.rdc s.next current
    let cp ← s.rdc s.prev current
    let s ← (match cn with
      | some q => s.wrWPrev q cp
      | none => some s)
    -- current->prev = current->next = nullptr;
    let s ← s.wrWNext current none
    let s ← s.wrWPrev current none
    -- current = next;
    QObject.invalidate f s this next

mutual
/-- The expression `delete this`: the destructor `QObject::~QObject`, with the body of
`cleanupChildren` in place of the call, followed by the release of the storage. -/
def QObject.destroy : Nat → Heap → Nat → Option Heap
  | 0, _, _ => none
  | f + 1, s, this => do
    let s : Heap := { s with deleted := s.deleted ++ [this] }
    -- if (d_ptr->parent) d_ptr->parent->removeChild(this);
    let p ← s.rd s.parent this
    let s ← (match p with
      | some q => QObject.removeChild s q this
      | none => some s)
    -- QWeakPointerData *current = d_ptr->weak_pointers; while (current) ...
    let w ← s.rd s.weak_pointers this
    let s ← QObject.invalidate f s this w
    -- cleanupChildren();
    let h ← s.rd s.childrenHead this
    let s ← QObject.cleanupLoop f s h
    let s ← s.wrHead this none
    -- delete d_ptr;
    s.freeObj this
/-- The `while (child)` loop of `QObject::cleanupChildren`. -/
def QObject.cleanupLoop : Nat → Heap → Option Nat → Option Heap
  | _, s, none => some s
  | 0, _, some _ => none
  | f + 1, s, some child => do
    -- QObject *nextChild = child->nextSibling;
    let nextChild ← s.rd s.nextSibling child
    -- delete child;
    let s ← QObject.destroy f s child
    -- child = nextChild;
    QObject.cleanupLoop f s nextChild
end

/-- The method `QObject::cleanupChildren()`. -/
def QObject.cleanupChildren (fuel : Nat) (s : Heap) (this : Nat) : Option Heap := do
  -- QObject *child = d_ptr->childrenHead; while (child) ...
  let h ← s.rd s.childrenHead this
  let s ← QObject.cleanupLoop fuel s h
  -- d_ptr->childrenHead = nullptr;
  s.wrHead this none

/-! ## The weak cell registry of `QObjectPrivate` -/

/-- The method `QObjectPrivate::addWeakPointer(data)`, where `data` is the address of the field `d` of
the handle `h`. -/
def QObjectPrivate.addWeakPointer (s : Heap) (this : Nat) (h : Nat) : Option Heap := do
  -- if (!*data)
  let data ← s.rdd h
  let (s, k) ← (match data with
    | some k => some (s, k)
    | none => do
      -- *data = new QWeakPointerData;
      let (s, k) := s.newSlot
      let s ← s.wrD h (some k)
      -- (*data)->prev = nullptr;
      let s ← s.wrWPrev k none
      -- (*data)->next = weak_pointers;
      let w ← s.rd s.weak_pointers this
      let s ← s.wrWNext k w
      -- if (weak_pointers) weak_pointers->prev = *data;
      let w ← s.rd s.weak_pointers this
      let s ← (match w with
        | some q => s.wrWPrev q (some k)
        | none => some s)
      -- weak_pointers = *data;
      let s ← s.wrWeak this (some k)
      some (s, k))
  -- (*data)->object = q_ptr;
  let q ← s.rd some this
  s.wrObject k q

/-- The method `QObjectPrivate::removeWeakPointer(data)`, where `data` is the address of the field `d` of
the handle `h`.  The receiver is not used by the body. -/
def QObjectPrivate.removeWeakPointer (s : Heap) (_this : Nat) (h : Nat) : Option Heap := do
  -- if (!*data) return;
  let data ← s.rdd h
  match data with
  | none => some s
  | some current => do
    -- if (current->object)
    let o ← s.rdc s.object current
    let s ← (match o with
      | none => some s
      | some n => do
        -- if (current->prev) current->prev->next = current->next;
        -- else current->object->d_ptr->weak_pointers = current->next;
        let cp ← s.rdc s.prev current
        let cn ← s.rdc s.next current
        let s ← (match cp with
          | some q => s.wrWNext q cn
          | none => s.wrWeak n cn)
        -- if (current->next) current->next->prev = current->prev;
        let cn ← s.rdc s.next current
        let cp ← s.rdc s.prev current
        match cn with
          | some q => s.wrWPrev q cp
          | none => some s)
    -- current->object = nullptr;
    let s ← s.wrObject current none
    -- delete current;
    let s ← s.freeSlot current
    -- *data = nullptr;
    s.wrD h none

/-! ## QPointer -/

/-- The method `QPointer::reset()`. -/
def QPointer.reset (s : Heap) (this : Nat) : Option Heap := do
  -- if (d)
  let d ← s.rdd this
  match d with
  | none => some s
  | some k => do
    -- if (d->object)
    let o ← s.rdc s.object k
    match o with
    | some n => do
      -- d->object->d_func()->removeWeakPointer(&d);
      let _ ← s.rd some n
      QObjectPrivate.removeWeakPointer s n this
    | none => do
      -- delete d; d = nullptr;
      let s ← s.freeSlot k
      s.wrD this none

/-- The default constructor `QPointer()` on fresh storage; returns the new heap and the new
handle. -/
def QPointer.mk (s : Heap) : Heap × Nat := s.newPtr

/-- The constructor `QPointer(T *obj)` on fresh storage. -/
def QPointer.ofRaw (s : Heap) (obj : Option Nat) : Option (Heap × Nat) := do
  let (s, this) := s.newPtr
  -- if (obj) obj->d_func()->addWeakPointer(&d);
  match obj with
  | some o => do
    let _ ← s.rd some o
    let s ← QObjectPrivate.addWeakPointer s o this
    some (s, this)
  | none => some (s, this)

/-- The copy constructor `QPointer(const QPointer &other)` on fresh storage. -/
def QPointer.copy (s : Heap) (other : Nat) : Option (Heap × Nat) := do
  let od ← s.rdd other
  let (s, this) := s.newPtr
  -- if (other.d && other.d->object) other.d->object->d_func()->addWeakPointer(&d);
  match od with
  | none => some (s, this)
  | some k => do
    let o ← s.rdc s.object k
    match o with
    | none => some (s, this)
    | some n => do
      let _ ← s.rd some n
      let s ← QObjectPrivate.addWeakPointer s n this
      some (s, this)

/-- The destructor `~QPointer()`, whose body is `reset()`. -/
def QPointer.dtor (s : Heap) (this : Nat) : Option Heap :=
  QPointer.reset s this

/-- The method `QPointer::operator=(const QPointer &other)`. -/
def QPointer.assign (s : Heap) (this other : Nat) : Option Heap := do
  let _ ← s.rdd this
  let _ ← s.rdd other
  -- if (this != &other)
  if this = other then some s else
  -- reset();
  let s ← QPointer.reset s this
  -- if (other.d && other.d->object) other.d->object->d_func()->addWeakPointer(&d);
  let od ← s.rdd other
  match od with
  | none => some s
  | some k => do
    let o ← s.rdc s.object k
    match o with
    | none => some s
    | some n => do
      let _ ← s.rd some n
      QObjectPrivate.addWeakPointer s n this

/-- The method `QPointer::operator=(T *obj)`. -/
def QPointer.assignRaw (s : Heap) (this : Nat) (obj : Option Nat) : Option Heap := do
  -- reset();
  let s ← QPointer.reset s this
  -- if (obj) obj->d_func()->addWeakPointer(&d);
  match obj with
  | some o => do
    let _ ← s.rd some o
    QObjectPrivate.addWeakPointer s o this
  | none => some s

/-- The method `QPointer::get()`. -/
def QPointer.get (s : Heap) (this : Nat) : Option (Option Nat) := do
  -- return d ? static_cast<T*>(d->object) : nullptr;
  let d ← s.rdd this
  match d with
  | none => some none
  | some k => s.rdc s.object k

/-- The method `QPointer::isNull()`. -/
def QPointer.isNull (s : Heap) (this : Nat) : Option Bool := do
  let r ← QPointer.get s this
  some (decide (r = none))

/-- The two-handle overload of `comparesEqual`. -/
def comparesEqual (s : Heap) (lhs rhs : Nat) : Option Bool := do
  let a ← QPointer.get s lhs
  let b ← QPointer.get s rhs
  some (decide (a = b))

/-- The raw pointer overload of `comparesEqual`; with `rhs = none` also the `nullptr`
overload. -/
def comparesEqualRaw (s : Heap) (lhs : Nat) (rhs : Option Nat) : Option Bool := do
  let a ← QPointer.get s lhs
  some (decide (a = rhs))

/-! ## The comparison operators -/

/-- The operator `lhs == rhs` for two handles. -/
def operatorEq (s : Heap) (lhs rhs : Nat) : Option Bool :=
  comparesEqual s lhs rhs

/-- The operator `lhs != rhs` for two handles. -/
def operatorNe (s : Heap) (lhs rhs : Nat) : Option Bool := do
  let b ← comparesEqual s lhs rhs
  some (!b)

/-- The operator `lhs == rhs` for a handle and a raw pointer. -/
def operatorEqRaw (s : Heap) (lhs : Nat) (rhs : Option Nat) : Option Bool :=
  comparesEqualRaw s lhs rhs

/-- The operator `lhs != rhs` for a handle and a raw pointer. -/
def operatorNeRaw (s : Heap) (lhs : Nat) (rhs : Option Nat) : Option Bool := do
  let b ← comparesEqualRaw s lhs rhs
  some (!b)

/-- The operator `lhs == rhs` for a raw pointer and a handle: `comparesEqual(rhs, lhs)`. -/
def operatorEqRawLeft (s : Heap) (lhs : Option Nat) (rhs : Nat) : Option Bool :=
  comparesEqualRaw s rhs lhs

/-- The operator `lhs != rhs` for a raw pointer and a handle. -/
def operatorNeRawLeft (s : Heap) (lhs : Option Nat) (rhs : Nat) : Option Bool := do
  let b ← comparesEqualRaw s rhs lhs
  some (!b)

/-- The operator `lhs == nullptr`. -/
def operatorEqNull (s : Heap) (lhs : Nat) : Option Bool :=
  comparesEqualRaw s lhs none

/-- The operator `lhs != nullptr`. -/
def operatorNeNull (s : Heap) (lhs : Nat) : Option Bool := do
  let b ← comparesEqualRaw s lhs none
  some (!b)

/-- The operator `nullptr == rhs`: `comparesEqual(rhs, nullptr)`. -/
def operatorEqNullLeft (s : Heap) (rhs : Nat) : Option Bool :=
  comparesEqualRaw s rhs none

/-- The operator `nullptr != rhs`. -/
def operatorNeNullLeft (s : Heap) (rhs : Nat) : Option Bool := do
  let b ← comparesEqualRaw s rhs none
  some (!b)

/-! ## Specification vocabulary -/

/-- The list of cells met when following `nxt` from `cur`, at most `fuel` of them. -/
def walk (nxt : Nat → Option Nat) : Nat → Option Nat → List Nat
  | 0, _ => []
  | _ + 1, none => []
  | f + 1, some c => c :: walk nxt f (nxt c)

/-- The cells of `l` form a null-terminated doubly linked list that starts at `cur`, whose first
cell has back link `prev`, and all of whose cells satisfy `ok`. -/
def Chain (ok : Nat → Prop) (prv nxt : Nat → Option Nat) :
    Option Nat → Option Nat → List Nat → Prop
  | _, cur, [] => cur = none
  | prev, cur, c :: t =>
    cur = some c ∧ ok c ∧ prv c = prev ∧ Chain ok prv nxt (some c) (nxt c) t

/-- Being a chain is decidable. -/
def Chain.dec (ok : Nat → Prop) [DecidablePred ok] (prv nxt : Nat → Option Nat) :
    ∀ (prev cur : Option Nat) (l : List Nat), Decidable (Chain ok prv nxt prev cur l)
  | _, cur, [] => inferInstanceAs (Decidable (cur = none))
  | prev, cur, c :: t =>
    let _ := Chain.dec ok prv nxt (some c) (nxt c) t
    inferInstanceAs
      (Decidable (cur = some c ∧ ok c ∧ prv c = prev ∧ Chain ok prv nxt (some c) (nxt c) t))

instance (ok : Nat → Prop) [DecidablePred ok] (prv nxt : Nat → Option Nat)
    (prev cur : Option Nat) (l : List Nat) : Decidable (Chain ok prv nxt prev cur l) :=
  Chain.dec ok prv nxt prev cur l

/-- The children list of `p`: the `nextSibling` chain from `childrenHead`. -/
def children (s : Heap) (p : Nat) : List Nat :=
  walk s.nextSibling s.nobjs (s.childrenHead p)

/-- The weak-slot list of `n`: the `next` chain from `weak_pointers`. -/
def weakSlots (s : Heap) (n : Nat) : List Nat :=
  walk s.next s.nslots (s.weak_pointers n)

/-- The list `l` is the well linked children list of `p`: its members are live and name `p` as
their parent. -/
def Linked (s : Heap) (p : Nat) (l : List Nat) : Prop :=
  Chain (fun c => s.live c = true ∧ s.parent c = some p) s.prevSibling s.nextSibling
    none (s.childrenHead p) l

instance (s : Heap) (p : Nat) (l : List Nat) : Decidable (Linked s p l) :=
  inferInstanceAs (Decidable (Chain _ _ _ _ _ _))

/-- The list `l` is the well linked weak-slot list of `n`: its members are allocated and
observe `n`. -/
def WLinked (s : Heap) (n : Nat) (l : List Nat) : Prop :=
  Chain (fun k => s.cell k = true ∧ s.object k = some n) s.prev s.next
    none (s.weak_pointers n) l

instance (s : Heap) (n : Nat) (l : List Nat) : Decidable (WLinked s n l) :=
  inferInstanceAs (Decidable (Chain _ _ _ _ _ _))

/-- The number of `parent` steps from `n` to a root, when a root is met within `fuel` steps. -/
def rootDist (s : Heap) : Nat → Nat → Option Nat
  | 0, _ => none
  | f + 1, n =>
    match s.parent n with
    | none => some 0
    | some p => (rootDist s f p).map (· + 1)

/-- Following `parent` from `m` meets `a` within `fuel` steps. -/
def reaches (s : Heap) : Nat → Nat → Nat → Bool
  | 0, a, m => decide (m = a)
  | f + 1, a, m =>
    decide (m = a) ||
      match s.parent m with
      | none => false
      | some p => reaches s f a p

/-- The live object `m` is `n` or a descendant of `n`. -/
def inSubtree (s : Heap) (n m : Nat) : Bool :=
  s.live m && reaches s s.nobjs n m

/-- Every live object has a well linked, duplicate free children list, all of whose members
name it as parent. -/
def ChildrenOK (s : Heap) : Prop :=
  ∀ p < s.nobjs, s.live p = true → Linked s p (children s p) ∧ (children s p).Nodup

/-- Every live object with a parent is a member of the children list of that parent, which is
live. -/
def ParentOK (s : Heap) : Prop :=
  ∀ c < s.nobjs, s.live c = true → ∀ p ∈ s.parent c, s.live p = true ∧ c ∈ children s p

/-- A live object without a parent has null sibling links. -/
def RootsOK (s : Heap) : Prop :=
  ∀ c < s.nobjs, s.live c = true → s.parent c = none →
    s.prevSibling c = none ∧ s.nextSibling c = none

/-- The parent links are acyclic: from every live object a root is met. -/
def Acyclic (s : Heap) : Prop :=
  ∀ c < s.nobjs, s.live c = true → (rootDist s s.nobjs c).isSome = true

/-- Every live object has a well linked, duplicate free weak-slot list, all of whose members
observe it. -/
def WeakOK (s : Heap) : Prop :=
  ∀ n < s.nobjs, s.live n = true → WLinked s n (weakSlots s n) ∧ (weakSlots s n).Nodup

/-- Every allocated cell that observes an object is a member of the weak-slot list of that
object, which is live. -/
def ObservedOK (s : Heap) : Prop :=
  ∀ k < s.nslots, s.cell k = true → ∀ n ∈ s.object k, s.live n = true ∧ k ∈ weakSlots s n

/-- Every handle that holds a cell holds an allocated one, no two handles hold the same cell,
and every allocated cell is held by a handle. -/
def HandlesOK (s : Heap) : Prop :=
  (∀ h < s.nptrs, ∀ k ∈ s.d h, s.cell k = true) ∧
  (∀ h₁ < s.nptrs, ∀ h₂ < s.nptrs, ∀ k ∈ s.d h₁, s.d h₂ = some k → h₁ = h₂) ∧
  (∀ k < s.nslots, s.cell k = true → ∃ h < s.nptrs, s.d h = some k)

/-- The tree part of well-formedness. -/
def TreeOK (s : Heap) : Prop :=
  ChildrenOK s ∧ ParentOK s ∧ RootsOK s ∧ Acyclic s

/-- A well-formed heap: a finite forest of objects, with the weak-slot registry and the
handles consistent with it. -/
def WF (s : Heap) : Prop :=
  TreeOK s ∧ WeakOK s ∧ ObservedOK s ∧ HandlesOK s

instance (s : Heap) : Decidable (ChildrenOK s) :=
  inferInstanceAs (Decidable (∀ p < s.nobjs, s.live p = true →
    Linked s p (children s p) ∧ (children s p).Nodup))

instance (s : Heap) : Decidable (ParentOK s) :=
  inferInstanceAs (Decidable (∀ c < s.nobjs, s.live c = true → ∀ p ∈ s.parent c,
    s.live p = true ∧ c ∈ children s p))

instance (s : Heap) : Decidable (RootsOK s) :=
  inferInstanceAs (Decidable (∀ c < s.nobjs, s.live c = true → s.parent c = none →
    s.prevSibling c = none ∧ s.nextSibling c = none))

instance (s : Heap) : Decidable (Acyclic s) :=
  inferInstanceAs (Decidable (∀ c < s.nobjs, s.live c = true →
    (rootDist s s.nobjs c).isSome = true))

instance (s : Heap) : Decidable (WeakOK s) :=
  inferInstanceAs (Decidable (∀ n < s.nobjs, s.live n = true →
    WLinked s n (weakSlots s n) ∧ (weakSlots s n).Nodup))

instance (s : Heap) : Decidable (ObservedOK s) :=
  inferInstanceAs (Decidable (∀ k < s.nslots, s.cell k = true → ∀ n ∈ s.object k,
    s.live n = true ∧ k ∈ weakSlots s n))

instance (s : Heap) : Decidable (HandlesOK s) :=
  inferInstanceAs (Decidable (
    (∀ h < s.nptrs, ∀ k ∈ s.d h, s.cell k = true) ∧
    (∀ h₁ < s.nptrs, ∀ h₂ < s.nptrs, ∀ k ∈ s.d h₁, s.d h₂ = some k → h₁ = h₂) ∧
    (∀ k < s.nslots, s.cell k = true → ∃ h < s.nptrs, s.d h = some k)))

instance (s : Heap) : Decidable (TreeOK s) :=
  inferInstanceAs (Decidable (ChildrenOK s ∧ ParentOK s ∧ RootsOK s ∧ Acyclic s))

instance (s : Heap) : Decidable (WF s) :=
  inferInstanceAs (Decidable (TreeOK s ∧ WeakOK s ∧ ObservedOK s ∧ HandlesOK s))

/-- A field map given by the list of its values at `0, 1, ...`, null elsewhere. -/
def tab (l : List (Option Nat)) : Nat → Option Nat :=
  fun n => (l[n]?).join

/-- The forward links after the cell `c` is unlinked from its doubly linked list. -/
def unlinkNext (nxt prv : Nat → Option Nat) (c : Nat) : Nat → Option Nat :=
  upd (match prv c with
    | some q => upd nxt q (nxt c)
    | none => nxt) c none

/-- The backward links after the cell `c` is unlinked from its doubly linked list. -/
def unlinkPrev (nxt prv : Nat → Option Nat) (c : Nat) : Nat → Option Nat :=
  upd (match nxt c with
    | some q => upd prv q (prv c)
    | none => prv) c none

/-- The backward links after the cell `c` is pushed in front of the list that starts at
`head`. -/
def pushPrev (prv : Nat → Option Nat) (head : Option Nat) (c : Nat) : Nat → Option Nat :=
  match head with
  | some q => upd prv q (some c)
  | none => prv

/-- The object `m` is `n` or is met below `n`: following `parent` from `m` through live objects
leads to `n`. -/
inductive Desc (s : Heap) (n : Nat) : Nat → Prop
  | self : Desc s n n
  | step {c p : Nat} : s.live c = true → s.parent c = some p → Desc s n p → Desc s n c

/-- The map `r` strictly grows from every live object to its parent. -/
def Ranked (s : Heap) (r : Nat → Nat) : Prop :=
  ∀ c p, s.live c = true → s.parent c = some p → r c < r p

/-- The tree invariant while the destructors of the objects of `D` are running: these objects
are already unlinked from the children list of their parent. -/
structure TreeInv (s : Heap) (D : List Nat) : Prop where
  chains : ∀ p, s.live p = true → Linked s p (children s p) ∧ (children s p).Nodup
  member : ∀ c p, s.live c = true → c ∉ D → s.parent c = some p →
    s.live p = true ∧ c ∈ children s p
  exempt : ∀ x ∈ D, s.live x = true ∧ ∀ p, s.live p = true → x ∉ children s p
  roots : ∀ c, s.live c = true → s.parent c = none →
    s.prevSibling c = none ∧ s.nextSibling c = none

/-- The invariant of the weak-slot registry. -/
structure WeakInv (s : Heap) : Prop where
  chains : ∀ n, s.live n = true → WLinked s n (weakSlots s n) ∧ (weakSlots s n).Nodup
  member : ∀ k n, s.cell k = true → s.object k = some n →
    s.live n = true ∧ k ∈ weakSlots s n

/-- The heap after `p.removeChild(c)`. -/
def unlinkChild (s : Heap) (p c : Nat) : Heap :=
  { s with
    childrenHead := (if s.childrenHead p = some c
      then upd s.childrenHead p (s.nextSibling c) else s.childrenHead)
    nextSibling := unlinkNext s.nextSibling s.prevSibling c
    prevSibling := unlinkPrev s.nextSibling s.prevSibling c }

/-- The heap after the weak cells `l` of the object `n` have all been cleared. -/
def clearCells (s : Heap) (n : Nat) (l : List Nat) : Heap :=
  { s with
    object := fun k => if k ∈ l then none else s.object k
    weak_pointers := upd s.weak_pointers n none
    next := fun k => if k ∈ l then none else s.next k
    prev := fun k => if k ∈ l then none else s.prev k }

/-- The two heaps have the same allocation data and the same handles. -/
structure SameAlloc (s s' : Heap) : Prop where
  nobjs : s'.nobjs = s.nobjs
  objFreed : s'.objFreed = s.objFreed
  nslots : s'.nslots = s.nslots
  slotFreed : s'.slotFreed = s.slotFreed
  nptrs : s'.nptrs = s.nptrs
  d : s'.d = s.d

/-- The two heaps have the same weak-slot registry. -/
structure SameReg (s s' : Heap) : Prop where
  weak_pointers : s'.weak_pointers = s.weak_pointers
  object : s'.object = s.object
  next : s'.next = s.next
  prev : s'.prev = s.prev

/-- The two heaps have the same tree links. -/
structure SameTree (s s' : Heap) : Prop where
  parent : s'.parent = s.parent
  childrenHead : s'.childrenHead = s.childrenHead
  nextSibling : s'.nextSibling = s.nextSibling
  prevSibling : s'.prevSibling = s.prevSibling

/-- The heap `s'` is the heap `s` after exactly the objects of `G` were destroyed, each once,
while the destructors of the objects of `D` are running. -/
structure Swept (s s' : Heap) (D : List Nat) (G : Nat → Prop) : Prop where
  tree : TreeInv s' D
  weak : WeakInv s'
  nobjs : s'.nobjs = s.nobjs
  parent : s'.parent = s.parent
  nslots : s'.nslots = s.nslots
  slotFreed : s'.slotFreed = s.slotFreed
  nptrs : s'.nptrs = s.nptrs
  d : s'.d = s.d
  live : ∀ m, s'.live m = true ↔ (s.live m = true ∧ ¬ G m)
  object : ∀ k x, s.cell k = true → (s'.object k = some x ↔ (s.object k = some x ∧ ¬ G x))
  deleted : ∃ L : List Nat, s'.deleted = s.deleted ++ L ∧ L.Nodup ∧ ∀ m, m ∈ L ↔ G m

/-- The first statement of `QObject::~QObject`, after the entry in the trace: the object
leaves the children list of its parent. -/
def QObject.detach (s : Heap) (n : Nat) : Option Heap :=
  match s.parent n with
  | some q => QObject.removeChild { s with deleted := s.deleted ++ [n] } q n
  | none => some { s with deleted := s.deleted ++ [n] }

/-- The statement proved about `delete n` by induction on the rank of `n`. -/
def DestroySpec (r : Nat → Nat) (N : Nat) : Prop :=
  ∀ (s : Heap) (D : List Nat) (n : Nat),
    r n < N → Ranked s r → TreeInv s D → WeakInv s → s.live n = true → n ∉ D →
    (∀ x ∈ D, r n < r x) →
    ∃ F s', (∀ f, F ≤ f → QObject.destroy f s n = some s') ∧ Swept s s' D (Desc s n) ∧
      (∀ q, s'.live q = true → children s' q = (children s q).erase n)

/-- A sample heap: the root `0` has the children `4, 1`, the object `1` has the children `3, 2`;
the handle `0` observes the object `1` and the handles `1, 2, 3` observe the object `2`. -/
def demo : Heap :=
  { nobjs := 5, objFreed := fun _ => false,
    parent := tab [none, some 0, some 1, some 1, some 0],
    childrenHead := tab [some 4, some 3, none, none, none],
    weak_pointers := tab [none, some 0, some 3, none, none],
    nextSibling := tab [none, none, none, some 2, some 1],
    prevSibling := tab [none, some 4, some 3, none, none],
    nslots := 4, slotFreed := fun _ => false,
    object := tab [some 1, some 2, some 2, some 2],
    next := tab [none, none, some 1, some 2],
    prev := tab [none, some 2, some 3, none],
    nptrs := 4, d := tab [some 0, some 1, some 2, some 3], deleted := [] }

/-- The heap after `p.addChild(c)`. -/
def linkChild (s : Heap) (p c : Nat) : Heap :=
  { s with
    nextSibling := upd s.nextSibling c (s.childrenHead p)
    prevSibling := pushPrev s.prevSibling (s.childrenHead p) c
    childrenHead := upd s.childrenHead p (some c) }

/-- The heap after the assignment `c->d_ptr->parent = v`. -/
def withParent (s : Heap) (c : Nat) (v : Option Nat) : Heap :=
  { s with parent := upd s.parent c v }

/-- The heap `s'` has the same objects as `s`, with the same parents. -/
def SameParents (s s' : Heap) : Prop :=
  s'.parent = s.parent ∧ s'.nobjs = s.nobjs ∧ s'.objFreed = s.objFreed

/-- The heap after `addWeakPointer` allocated a cell for the empty handle `h` and registered it
with the object `n`. -/
def pushCell (s : Heap) (n h : Nat) : Heap :=
  { s with
    nslots := s.nslots + 1
    slotFreed := upd s.slotFreed s.nslots false
    object := upd s.object s.nslots (some n)
    next := upd s.next s.nslots (s.weak_pointers n)
    prev := pushPrev (upd s.prev s.nslots none) (s.weak_pointers n) s.nslots
    weak_pointers := upd s.weak_pointers n (some s.nslots)
    d := upd s.d h (some s.nslots) }

/-- The heap after `removeWeakPointer` unlinked and released the cell `k` of the handle `h`,
which observed the object `n`. -/
def dropCell (s : Heap) (n h k : Nat) : Heap :=
  { s with
    next := (match s.prev k with
      | some q => upd s.next q (s.next k)
      | none => s.next)
    weak_pointers := (match s.prev k with
      | some _ => s.weak_pointers
      | none => upd s.weak_pointers n (s.next k))
    prev := (match s.next k with
      | some q => upd s.prev q (s.prev k)
      | none => s.prev)
    object := upd s.object k none
    slotFreed := upd s.slotFreed k true
    d := upd s.d h none }

/-- The heap after `reset` released the cell `k` of the handle `h`, which observed nothing. -/
def freeCell (s : Heap) (h k : Nat) : Heap :=
  { s with slotFreed := upd s.slotFreed k true, d := upd s.d h none }

/-- The heap after `h.reset()`: a handle without a cell changes nothing; the cell of a handle
that observes `n` is unlinked from the list of `n` and released; a cell that observes nothing is
released. -/
def resetHeap (s : Heap) (h : Nat) : Heap :=
  match s.d h with
  | none => s
  | some k =>
    match s.object k with
    | some n => dropCell s n h k
    | none => freeCell s h k

/-- The heap after `if (obj) obj->d_func()->addWeakPointer(&d)` for a handle `h` without a
cell, where `r` is `obj`: a new cell is registered with `r` when `r` is not null. -/
def attach (s : Heap) (r : Option Nat) (h : Nat) : Heap :=
  match r with
  | some n => pushCell s n h
  | none => s

/-- The live objects whose destructor is not running; their number bounds the depth of the
cascade. -/
def liveOut (s : Heap) (D : List Nat) : Finset Nat :=
  (Finset.range s.nobjs).filter (fun x => s.live x = true ∧ x ∉ D)

/-- The invariants of the tree, of the weak-slot registry and of the handles together; the
parent links need not be acyclic. -/
structure Consistent (s : Heap) : Prop where
  tree : TreeInv s []
  weak : WeakInv s
  handles : HandlesOK s

/-- The states of a program that starts with the empty memory and calls `new QObject(parent)`,
`setParent`, `delete` and the operations of `QPointer`.  A call that is undefined behaviour, for
which the embedded operation returns `none`, leads nowhere. -/
inductive Reach : Heap → Prop
  | start : Reach Heap.empty
  | create {s s' : Heap} {p : Option Nat} {n : Nat} :
      Reach s → QObject.new s p = some (s', n) → Reach s'
  | reparent {s s' : Heap} {c : Nat} {v : Option Nat} :
      Reach s → QObject.setParent s c v = some s' → Reach s'
  | destroyed {s s' : Heap} {f n : Nat} :
      Reach s → QObject.destroy f s n = some s' → Reach s'
  | fresh {s : Heap} : Reach s → Reach (QPointer.mk s).1
  | fromRaw {s s' : Heap} {r : Option Nat} {h : Nat} :
      Reach s → QPointer.ofRaw s r = some (s', h) → Reach s'
  | copied {s s' : Heap} {o h : Nat} :
      Reach s → QPointer.copy s o = some (s', h) → Reach s'
  | assigned {s s' : Heap} {h o : Nat} :
      Reach s → QPointer.assign s h o = some s' → Reach s'
  | assignedRaw {s s' : Heap} {h : Nat} {r : Option Nat} :
      Reach s → QPointer.assignRaw s h r = some s' → Reach s'
  | released {s s' : Heap} {h : Nat} :
      Reach s → QPointer.reset s h = some s' → Reach s'
  | dropped {s s' : Heap} {h : Nat} :
      Reach s → QPointer.dtor s h = some s' → Reach s'

/-- The heap `s'` is the heap `s` after some objects were destroyed: no object, cell or handle
was allocated, no cell was released, the handles hold what they held, and a cell observes
nothing new. -/
structure Shrunk (s s' : Heap) : Prop where
  nobjs : s'.nobjs = s.nobjs
  nslots : s'.nslots = s.nslots
  slotFreed : s'.slotFreed = s.slotFreed
  nptrs : s'.nptrs = s.nptrs
  d : s'.d = s.d
  live : ∀ x, s'.live x = true → s.live x = true
  object : ∀ k x, s'.object k = some x → s.object k = some x

/-- The statement proved about `delete n` by induction on the number of live objects whose
destructor is not running; the parent links need not be acyclic. -/
def DestroyKeeps (N : Nat) : Prop :=
  ∀ (s : Heap) (D : List Nat) (n : Nat),
    (liveOut s D).card < N → TreeInv s D → WeakInv s → s.live n = true → n ∉ D →
    ∃ F s', (∀ f, F ≤ f → QObject.destroy f s n = some s') ∧ TreeInv s' D ∧ WeakInv s' ∧
      Shrunk s s' ∧ s'.live n = false ∧
      (∀ q, s'.live q = true → children s' q = (children s q).erase n)

/-- A sample reachable heap: the heap after `new QObject` and then `new QObject(parent)` with
the first object as parent. -/
def pair : Heap :=
  linkChild (withParent Heap.empty.newObj.1.newObj.1 1 (some 0)) 0 1

/-- A sample reachable heap: `pair` after a handle was constructed from the child. -/
def watched : Heap :=
  attach pair.newPtr.1 (some 1) 0


/-! ## Field maps -/

@[simp] theorem upd_same {α : Type} (f : Nat → α) (a : Nat) (v : α) : upd f a v a = v := by
  simp [upd]

theorem upd_ne {α : Type} (f : Nat → α) {a b : Nat} (v : α) (h : b ≠ a) :
    upd f a v b = f b := by
  simp [upd, h]

theorem upd_apply {α : Type} (f : Nat → α) (a b : Nat) (v : α) :
    upd f a v b = if b = a then v else f b := rfl

theorem upd_eq_self {α : Type} (f : Nat → α) (a : Nat) : upd f a (f a) = f := by
  funext b; by_cases h : b = a <;> simp [upd, h]

theorem unlinkNext_apply (nxt prv : Nat → Option Nat) (c m : Nat) :
    unlinkNext nxt prv c m =
      if m = c then none else if prv c = some m then nxt c else nxt m := by
  unfold unlinkNext
  by_cases hm : m = c
  · simp [upd, hm]
  · cases hp : prv c with
    | none => simp [upd, hm]
    | some q =>
      by_cases hq : m = q
      · subst hq; simp [upd, hm]
      · have : ¬ q = m := fun e => hq e.symm
        simp [upd, hm, hq, this]

theorem unlinkPrev_apply (nxt prv : Nat → Option Nat) (c m : Nat) :
    unlinkPrev nxt prv c m =
      if m = c then none else if nxt c = some m then prv c else prv m := by
  unfold unlinkPrev
  by_cases hm : m = c
  · simp [upd, hm]
  · cases hp : nxt c with
    | none => simp [upd, hm]
    | some q =>
      by_cases hq : m = q
      · subst hq; simp [upd, hm]
      · have : ¬ q = m := fun e => hq e.symm
        simp [upd, hm, hq, this]

theorem pushPrev_apply (prv : Nat → Option Nat) (head : Option Nat) (c m : Nat) :
    pushPrev prv head c m = if head = some m then some c else prv m := by
  unfold pushPrev
  cases head with
  | none => simp
  | some q =>
    by_cases hq : m = q
    · subst hq; simp [upd]
    · have : ¬ q = m := fun e => hq e.symm
      simp [upd, hq, this]

/-! ## Doubly linked chains -/

section chains

variable {ok ok' : Nat → Prop} {prv nxt prv' nxt' : Nat → Option Nat}

theorem Chain.nil_iff {prev cur : Option Nat} :
    Chain ok prv nxt prev cur [] ↔ cur = none := Iff.rfl

theorem Chain.cons_iff {prev cur : Option Nat} {c : Nat} {t : List Nat} :
    Chain ok prv nxt prev cur (c :: t) ↔
      cur = some c ∧ ok c ∧ prv c = prev ∧ Chain ok prv nxt (some c) (nxt c) t := Iff.rfl

/-- Every member of a chain satisfies the membership condition. -/
theorem Chain.ok_of_mem {prev cur : Option Nat} {l : List Nat}
    (h : Chain ok prv nxt prev cur l) : ∀ x ∈ l, ok x := by
  induction l generalizing prev cur with
  | nil => intro x hx; cases hx
  | cons c t ih =>
    obtain ⟨_, hok, _, ht⟩ := h
    intro x hx
    rcases List.mem_cons.mp hx with rfl | hx
    · exact hok
    · exact ih ht x hx

/-- A chain only depends on the fields of its members. -/
theorem Chain.frame {prev cur : Option Nat} {l : List Nat}
    (h : Chain ok prv nxt prev cur l)
    (hok : ∀ x ∈ l, ok x → ok' x)
    (hp : ∀ x ∈ l, prv' x = prv x)
    (hn : ∀ x ∈ l, nxt' x = nxt x) :
    Chain ok' prv' nxt' prev cur l := by
  induction l generalizing prev cur with
  | nil => exact h
  | cons c t ih =>
    obtain ⟨hc, hokc, hpc, ht⟩ := h
    refine ⟨hc, hok c (List.mem_cons_self _ _) hokc, ?_, ?_⟩
    · rw [hp c (List.mem_cons_self _ _)]; exact hpc
    · rw [hn c (List.mem_cons_self _ _)]
      exact ih ht (fun x hx => hok x (List.mem_cons_of_mem _ hx))
        (fun x hx => hp x (List.mem_cons_of_mem _ hx))
        (fun x hx => hn x (List.mem_cons_of_mem _ hx))

/-- Walking along a chain with enough fuel enumerates it. -/
theorem walk_eq_of_chain {prev cur : Option Nat} {l : List Nat} {fuel : Nat}
    (h : Chain ok prv nxt prev cur l) (hf : l.length ≤ fuel) :
    walk nxt fuel cur = l := by
  induction l generalizing prev cur fuel with
  | nil =>
    have : cur = none := h
    subst this
    cases fuel <;> rfl
  | cons c t ih =>
    obtain ⟨hc, _, _, ht⟩ := h
    subst hc
    cases fuel with
    | zero => simp at hf
    | succ f =>
      simp only [walk]
      rw [ih ht (by simpa using hf)]

/-- A duplicate free list of numbers below `n` has at most `n` members. -/
theorem length_le_of_nodup_lt {l : List Nat} {n : Nat} (hnd : l.Nodup)
    (hlt : ∀ x ∈ l, x < n) : l.length ≤ n := by
  have hsub : l ⊆ List.range n := fun x hx => List.mem_range.mpr (hlt x hx)
  have := (List.subperm_of_subset hnd hsub).length_le
  simpa using this

/-- The successor of a chain member is the next member. -/
theorem Chain.nxt_mid {prev cur : Option Nat} {l₁ l₂ : List Nat} {c : Nat}
    (h : Chain ok prv nxt prev cur (l₁ ++ c :: l₂)) : nxt c = l₂.head? := by
  induction l₁ generalizing prev cur with
  | nil =>
    obtain ⟨_, _, _, ht⟩ := h
    cases l₂ with
    | nil => exact ht
    | cons c₂ t => exact ht.1
  | cons b t ih =>
    obtain ⟨_, _, _, ht⟩ := h
    exact ih ht

/-- The predecessor of a chain member is the previous member. -/
theorem Chain.prv_mid {prev cur : Option Nat} {l₁ l₂ : List Nat} {c : Nat}
    (h : Chain ok prv nxt prev cur (l₁ ++ c :: l₂)) :
    prv c = if l₁ = [] then prev else l₁.getLast? := by
  induction l₁ generalizing prev cur with
  | nil =>
    obtain ⟨_, _, hp, _⟩ := h
    simpa using hp
  | cons b t ih =>
    obtain ⟨_, _, _, ht⟩ := h
    have := ih ht
    rw [this]
    cases t with
    | nil => simp
    | cons b₂ t₂ => simp [List.getLast?_cons_cons]

/-- The first cell of a chain. -/
theorem Chain.cur_eq {prev cur : Option Nat} {l : List Nat}
    (h : Chain ok prv nxt prev cur l) : cur = l.head? := by
  cases l with
  | nil => exact h
  | cons c t => exact h.1

end chains

section unlink

variable {ok : Nat → Prop} {prv nxt : Nat → Option Nat}

/-- Unlinking the member `c` of a chain leaves the chain of the other members. -/
theorem Chain.unlink_mid (ok' : Nat → Prop) {prev cur : Option Nat} {l₁ l₂ : List Nat} {c : Nat}
    (h : Chain ok prv nxt prev cur (l₁ ++ c :: l₂))
    (hnd : (l₁ ++ c :: l₂).Nodup)
    (hprev : ∀ x ∈ l₁ ++ c :: l₂, prev ≠ some x)
    (hok : ∀ x ∈ l₁ ++ l₂, ok x → ok' x) :
    Chain ok' (unlinkPrev nxt prv c) (unlinkNext nxt prv c) prev
      (if l₁ = [] then nxt c else cur) (l₁ ++ l₂) := by
  induction l₁ generalizing prev cur with
  | nil =>
    simp only [List.nil_append, if_true] at *
    obtain ⟨_, _, hpc, ht⟩ := h
    have hc2 : c ∉ l₂ := (List.nodup_cons.mp hnd).1
    have hnd2 : l₂.Nodup := (List.nodup_cons.mp hnd).2
    cases l₂ with
    | nil => exact ht
    | cons c₂ t =>
      obtain ⟨hn, hok2, hp2, ht2⟩ := ht
      have hc2c : c₂ ≠ c := fun e => hc2 (by simp [e])
      have hprev2 : prv c ≠ some c₂ := by
        rw [hpc]; exact hprev c₂ (by simp)
      refine ⟨hn, hok c₂ (by simp) hok2, ?_, ?_⟩
      · rw [unlinkPrev_apply]; simp [hc2c, hn, hpc]
      · have hnx : unlinkNext nxt prv c c₂ = nxt c₂ := by
          rw [unlinkNext_apply]; simp [hc2c, hprev2]
        rw [hnx]
        refine Chain.frame ht2 (fun x hx => hok x (by simp [hx])) ?_ ?_
        · intro x hx
          have hxc : x ≠ c := fun e => hc2 (by simp [← e, hx])
          have hx2 : x ≠ c₂ := fun e => (List.nodup_cons.mp hnd2).1 (e ▸ hx)
          rw [unlinkPrev_apply]
          have : ¬ c₂ = x := fun e => hx2 e.symm
          simp [hxc, hn, this]
        · intro x hx
          have hxc : x ≠ c := fun e => hc2 (by simp [← e, hx])
          have : prv c ≠ some x := by rw [hpc]; exact hprev x (by simp [hx])
          rw [unlinkNext_apply]; simp [hxc, this]
  | cons b t ih =>
    have hnx := Chain.nxt_mid h
    have hpv : prv c = if t = [] then some b else t.getLast? := Chain.prv_mid h.2.2.2
    obtain ⟨hcur, hokb, hpb, ht⟩ := h
    simp only [List.cons_append, List.nodup_cons, List.mem_append, List.mem_cons] at hnd
    obtain ⟨hb, hndt⟩ := hnd
    have hbc : b ≠ c := fun e => hb (Or.inr (Or.inl e))
    simp only [reduceCtorEq, if_false, List.cons_append]
    refine ⟨hcur, hok b (by simp) hokb, ?_, ?_⟩
    · rw [unlinkPrev_apply]
      have : nxt c ≠ some b := by
        rw [hnx]; intro e
        exact hb (Or.inr (Or.inr (List.mem_of_mem_head? e)))
      simp [hbc, this, hpb]
    · have hih := ih ht hndt
        (by
          intro x hx e
          simp only [List.mem_append, List.mem_cons] at hx
          cases (Option.some.inj e)
          exact hb hx)
        (fun x hx => hok x (by
          simp only [List.mem_append] at hx
          simp only [List.cons_append, List.mem_cons, List.mem_append]
          exact Or.inr hx))
      have hnb : unlinkNext nxt prv c b = if t = [] then nxt c else nxt b := by
        rw [unlinkNext_apply]
        by_cases ht0 : t = []
        · subst ht0
          simp only [if_true] at hpv
          simp [hbc, hpv]
        · simp only [ht0, if_false] at hpv ⊢
          have : prv c ≠ some b := by
            rw [hpv]; intro e
            exact hb (Or.inl (List.mem_of_mem_getLast? e))
          simp [hbc, this]
      rw [hnb]
      exact hih

/-- Unlinking a member of a duplicate free list that starts at `head`. -/
theorem Chain.unlink (ok' : Nat → Prop) {head : Option Nat} {l : List Nat} {c : Nat}
    (h : Chain ok prv nxt none head l) (hnd : l.Nodup) (hc : c ∈ l)
    (hok : ∀ x ∈ l, x ≠ c → ok x → ok' x) :
    Chain ok' (unlinkPrev nxt prv c) (unlinkNext nxt prv c) none
      (if head = some c then nxt c else head) (l.erase c) := by
  obtain ⟨l₁, l₂, rfl⟩ := List.append_of_mem hc
  have hc1 : c ∉ l₁ := by
    intro hx
    have := (List.nodup_append.mp hnd).2.2
    exact this hx (List.mem_cons_self _ _) 
  have herase : (l₁ ++ c :: l₂).erase c = l₁ ++ l₂ := by
    rw [List.erase_append_right _ hc1]; simp
  rw [herase]
  have hcur := Chain.cur_eq h
  have hhead : (head = some c) ↔ l₁ = [] := by
    rw [hcur]
    cases l₁ with
    | nil => simp
    | cons b t =>
      simp only [List.cons_append, List.head?_cons, Option.some.injEq, reduceCtorEq, iff_false]
      intro e; exact hc1 (by simp [e])
  have := Chain.unlink_mid ok' h hnd (by intro x _ e; cases e)
    (fun x hx => hok x (by
      simp only [List.mem_append, List.mem_cons] at hx ⊢
      tauto) (by
      intro e; subst e
      simp only [List.mem_append] at hx
      rcases hx with hx | hx
      · exact hc1 hx
      · have := (List.nodup_append.mp hnd).2.1
        exact (List.nodup_cons.mp this).1 hx))
  by_cases hl : l₁ = []
  · simp only [hl, if_true] at this
    simp only [hhead.mpr hl, if_true, hl]
    exact this
  · simp only [hl, if_false] at this
    have hne : ¬ head = some c := fun e => hl (hhead.mp e)
    simp only [hne, if_false]
    exact this

/-- Pushing a new cell in front of a chain. -/
theorem Chain.push {ok' : Nat → Prop} {head : Option Nat} {l : List Nat} {c : Nat} {nxt' : Nat → Option Nat}
    (h : Chain ok prv nxt none head l) (hnd : l.Nodup) (hc : c ∉ l)
    (hokc : ok' c) (hpc : prv c = none) (hnc : nxt' c = head)
    (hok : ∀ x ∈ l, ok x → ok' x)
    (hn : ∀ x ∈ l, nxt' x = nxt x) :
    Chain ok' (pushPrev prv head c) nxt' none (some c) (c :: l) := by
  refine ⟨rfl, hokc, ?_, ?_⟩
  · rw [pushPrev_apply]
    have : head ≠ some c := by
      intro e
      rw [Chain.cur_eq h] at e
      exact hc (List.mem_of_mem_head? e)
    simp [this, hpc]
  · rw [hnc]
    cases l with
    | nil => exact h
    | cons b t =>
      obtain ⟨hb, hokb, hpb, ht⟩ := h
      refine ⟨hb, hok b (by simp) hokb, ?_, ?_⟩
      · rw [pushPrev_apply]; simp [hb]
      · rw [hn b (by simp)]
        have hbt : b ∉ t := (List.nodup_cons.mp hnd).1
        refine Chain.frame ht (fun x hx => hok x (by simp [hx])) ?_
          (fun x hx => hn x (by simp [hx]))
        intro x hx
        rw [pushPrev_apply]
        have : ¬ b = x := fun e => hbt (e ▸ hx)
        simp [hb, this]

end unlink


/-! ## The operations, field by field -/

namespace Heap

theorem live_iff {s : Heap} {n : Nat} :
    s.live n = true ↔ n < s.nobjs ∧ s.objFreed n = false := by
  simp [live]

theorem cell_iff {s : Heap} {k : Nat} :
    s.cell k = true ↔ k < s.nslots ∧ s.slotFreed k = false := by
  simp [cell]

theorem live_lt {s : Heap} {n : Nat} (h : s.live n = true) : n < s.nobjs :=
  (live_iff.mp h).1

theorem cell_lt {s : Heap} {k : Nat} (h : s.cell k = true) : k < s.nslots :=
  (cell_iff.mp h).1

theorem rd_live {s : Heap} {n : Nat} (f : Nat → Option Nat) (h : s.live n = true) :
    s.rd f n = some (f n) := by simp [rd, h]

theorem rdc_cell {s : Heap} {k : Nat} (f : Nat → Option Nat) (h : s.cell k = true) :
    s.rdc f k = some (f k) := by simp [rdc, h]

end Heap

namespace Heap

theorem wrHead_eq {s : Heap} {n : Nat} (v : Option Nat) (h : s.live n = true) :
    s.wrHead n v = some { s with childrenHead := upd s.childrenHead n v } := by
  simp [wrHead, h]

theorem wrNext_eq {s : Heap} {n : Nat} (v : Option Nat) (h : s.live n = true) :
    s.wrNext n v = some { s with nextSibling := upd s.nextSibling n v } := by
  simp [wrNext, h]

theorem wrPrev_eq {s : Heap} {n : Nat} (v : Option Nat) (h : s.live n = true) :
    s.wrPrev n v = some { s with prevSibling := upd s.prevSibling n v } := by
  simp [wrPrev, h]

theorem wrParent_eq {s : Heap} {n : Nat} (v : Option Nat) (h : s.live n = true) :
    s.wrParent n v = some { s with parent := upd s.parent n v } := by
  simp [wrParent, h]

theorem wrWeak_eq {s : Heap} {n : Nat} (v : Option Nat) (h : s.live n = true) :
    s.wrWeak n v = some { s with weak_pointers := upd s.weak_pointers n v } := by
  simp [wrWeak, h]

theorem wrObject_eq {s : Heap} {k : Nat} (v : Option Nat) (h : s.cell k = true) :
    s.wrObject k v = some { s with object := upd s.object k v } := by
  simp [wrObject, h]

theorem wrWNext_eq {s : Heap} {k : Nat} (v : Option Nat) (h : s.cell k = true) :
    s.wrWNext k v = some { s with next := upd s.next k v } := by
  simp [wrWNext, h]

theorem wrWPrev_eq {s : Heap} {k : Nat} (v : Option Nat) (h : s.cell k = true) :
    s.wrWPrev k v = some { s with prev := upd s.prev k v } := by
  simp [wrWPrev, h]

theorem wrD_eq {s : Heap} {h : Nat} (v : Option Nat) (hh : h < s.nptrs) :
    s.wrD h v = some { s with d := upd s.d h v } := by
  simp [wrD, hh]

theorem freeObj_eq {s : Heap} {n : Nat} (h : s.live n = true) :
    s.freeObj n = some { s with objFreed := upd s.objFreed n true } := by
  simp [freeObj, h]

theorem freeSlot_eq {s : Heap} {k : Nat} (h : s.cell k = true) :
    s.freeSlot k = some { s with slotFreed := upd s.slotFreed k true } := by
  simp [freeSlot, h]

/-- Liveness only depends on the allocation data. -/
theorem live_congr {s s' : Heap} (h₁ : s'.nobjs = s.nobjs) (h₂ : s'.objFreed = s.objFreed) :
    s'.live = s.live := by
  funext n; simp [live, h₁, h₂]

theorem cell_congr {s s' : Heap} (h₁ : s'.nslots = s.nslots)
    (h₂ : s'.slotFreed = s.slotFreed) : s'.cell = s.cell := by
  funext n; simp [cell, h₁, h₂]

end Heap

namespace Heap

theorem rd_eq (s : Heap) (f : Nat → Option Nat) (n : Nat) (h₁ : n < s.nobjs)
    (h₂ : s.objFreed n = false) : s.rd f n = some (f n) := by
  simp [rd, live, h₁, h₂]

theorem rdc_eq (s : Heap) (f : Nat → Option Nat) (k : Nat) (h₁ : k < s.nslots)
    (h₂ : s.slotFreed k = false) : s.rdc f k = some (f k) := by
  simp [rdc, cell, h₁, h₂]

theorem wrHead_eq' (s : Heap) (n : Nat) (v : Option Nat) (h₁ : n < s.nobjs)
    (h₂ : s.objFreed n = false) :
    s.wrHead n v = some { s with childrenHead := upd s.childrenHead n v } := by
  simp [wrHead, live, h₁, h₂]

theorem wrNext_eq' (s : Heap) (n : Nat) (v : Option Nat) (h₁ : n < s.nobjs)
    (h₂ : s.objFreed n = false) :
    s.wrNext n v = some { s with nextSibling := upd s.nextSibling n v } := by
  simp [wrNext, live, h₁, h₂]

theorem wrPrev_eq' (s : Heap) (n : Nat) (v : Option Nat) (h₁ : n < s.nobjs)
    (h₂ : s.objFreed n = false) :
    s.wrPrev n v = some { s with prevSibling := upd s.prevSibling n v } := by
  simp [wrPrev, live, h₁, h₂]

theorem wrParent_eq' (s : Heap) (n : Nat) (v : Option Nat) (h₁ : n < s.nobjs)
    (h₂ : s.objFreed n = false) :
    s.wrParent n v = some { s with parent := upd s.parent n v } := by
  simp [wrParent, live, h₁, h₂]

theorem wrWeak_eq' (s : Heap) (n : Nat) (v : Option Nat) (h₁ : n < s.nobjs)
    (h₂ : s.objFreed n = false) :
    s.wrWeak n v = some { s with weak_pointers := upd s.weak_pointers n v } := by
  simp [wrWeak, live, h₁, h₂]

theorem wrObject_eq' (s : Heap) (k : Nat) (v : Option Nat) (h₁ : k < s.nslots)
    (h₂ : s.slotFreed k = false) :
    s.wrObject k v = some { s with object := upd s.object k v } := by
  simp [wrObject, cell, h₁, h₂]

theorem wrWNext_eq' (s : Heap) (k : Nat) (v : Option Nat) (h₁ : k < s.nslots)
    (h₂ : s.slotFreed k = false) :
    s.wrWNext k v = some { s with next := upd s.next k v } := by
  simp [wrWNext, cell, h₁, h₂]

theorem wrWPrev_eq' (s : Heap) (k : Nat) (v : Option Nat) (h₁ : k < s.nslots)
    (h₂ : s.slotFreed k = false) :
    s.wrWPrev k v = some { s with prev := upd s.prev k v } := by
  simp [wrWPrev, cell, h₁, h₂]

theorem freeObj_eq' (s : Heap) (n : Nat) (h₁ : n < s.nobjs)
    (h₂ : s.objFreed n = false) :
    s.freeObj n = some { s with objFreed := upd s.objFreed n true } := by
  simp [freeObj, live, h₁, h₂]

theorem freeSlot_eq' (s : Heap) (k : Nat) (h₁ : k < s.nslots)
    (h₂ : s.slotFreed k = false) :
    s.freeSlot k = some { s with slotFreed := upd s.slotFreed k true } := by
  simp [freeSlot, cell, h₁, h₂]

theorem rdd_eq (s : Heap) (h : Nat) (hh : h < s.nptrs) : s.rdd h = some (s.d h) := by
  simp [rdd, hh]

end Heap

@[simp] theorem upd_val_self {α : Type} (f : Nat → α) (a b : Nat) :
    upd f a (f b) b = f b := by
  by_cases h : b = a <;> simp [upd, h]

/-- What `removeChild` does, field by field. -/
theorem QObject.removeChild_eq {s : Heap} {p c : Nat} (hp : s.live p = true)
    (hc : s.live c = true) (hprev : ∀ q, s.prevSibling c = some q → s.live q = true)
    (hnext : ∀ q, s.nextSibling c = some q → s.live q = true) :
    QObject.removeChild s p c = some { s with
        childrenHead := (if s.childrenHead p = some c
          then upd s.childrenHead p (s.nextSibling c) else s.childrenHead)
        nextSibling := unlinkNext s.nextSibling s.prevSibling c
        prevSibling := unlinkPrev s.nextSibling s.prevSibling c } := by
  obtain ⟨hp₁, hp₂⟩ := Heap.live_iff.mp hp
  obtain ⟨hc₁, hc₂⟩ := Heap.live_iff.mp hc
  unfold unlinkNext unlinkPrev QObject.removeChild
  cases hq : s.prevSibling c with
  | none =>
    cases hr : s.nextSibling c with
    | none =>
      by_cases hh : s.childrenHead p = some c <;>
      simp only [Option.bind_eq_bind, Heap.rd_eq, Heap.wrHead_eq', Heap.wrNext_eq',
        Heap.wrPrev_eq', Option.some_bind, hp₁, hp₂, hc₁, hc₂, hq, hr, hh, if_true, if_false,
        upd_val_self]
    | some r =>
      obtain ⟨hr₁, hr₂⟩ := Heap.live_iff.mp (hnext r hr)
      by_cases hh : s.childrenHead p = some c <;>
      simp only [Option.bind_eq_bind, Heap.rd_eq, Heap.wrHead_eq', Heap.wrNext_eq',
        Heap.wrPrev_eq', Option.some_bind, hp₁, hp₂, hc₁, hc₂, hq, hr, hh, if_true, if_false,
        upd_val_self, hr₁, hr₂]
  | some q =>
    obtain ⟨hq₁, hq₂⟩ := Heap.live_iff.mp (hprev q hq)
    cases hr : s.nextSibling c with
    | none =>
      have e : upd s.nextSibling q none c = none := by
        rw [← hr]; exact upd_val_self _ _ _
      by_cases hh : s.childrenHead p = some c <;>
      simp only [Option.bind_eq_bind, Heap.rd_eq, Heap.wrHead_eq', Heap.wrNext_eq',
        Heap.wrPrev_eq', Option.some_bind, hp₁, hp₂, hc₁, hc₂, hq, hr, hh, if_true, if_false,
        upd_val_self, hq₁, hq₂, e]
    | some r =>
      have e : upd s.nextSibling q (some r) c = some r := by
        rw [← hr]; exact upd_val_self _ _ _
      obtain ⟨hr₁, hr₂⟩ := Heap.live_iff.mp (hnext r hr)
      by_cases hh : s.childrenHead p = some c <;>
      simp only [Option.bind_eq_bind, Heap.rd_eq, Heap.wrHead_eq', Heap.wrNext_eq',
        Heap.wrPrev_eq', Option.some_bind, hp₁, hp₂, hc₁, hc₂, hq, hr, hh, if_true, if_false,
        upd_val_self, hq₁, hq₂, hr₁, hr₂, e]


/-! ## Children lists -/

theorem Linked.live_of_mem {s : Heap} {p : Nat} {l : List Nat} (h : Linked s p l) :
    ∀ x ∈ l, s.live x = true ∧ s.parent x = some p :=
  Chain.ok_of_mem h

/-- A well linked duplicate free list is what `children` computes. -/
theorem children_eq_of_linked {s : Heap} {p : Nat} {l : List Nat} (h : Linked s p l)
    (hnd : l.Nodup) : children s p = l := by
  unfold children
  refine walk_eq_of_chain h (length_le_of_nodup_lt hnd ?_)
  intro x hx
  exact Heap.live_lt (h.live_of_mem x hx).1

theorem WLinked.cell_of_mem {s : Heap} {n : Nat} {l : List Nat} (h : WLinked s n l) :
    ∀ k ∈ l, s.cell k = true ∧ s.object k = some n :=
  Chain.ok_of_mem h

/-- A well linked duplicate free list is what `weakSlots` computes. -/
theorem weakSlots_eq_of_linked {s : Heap} {n : Nat} {l : List Nat} (h : WLinked s n l)
    (hnd : l.Nodup) : weakSlots s n = l := by
  unfold weakSlots
  refine walk_eq_of_chain h (length_le_of_nodup_lt hnd ?_)
  intro x hx
  exact Heap.cell_lt (h.cell_of_mem x hx).1

/-- The back link of a chain member is a member. -/
theorem Chain.prv_mem {ok : Nat → Prop} {prv nxt : Nat → Option Nat} {head : Option Nat}
    {l : List Nat} {c q : Nat} (h : Chain ok prv nxt none head l) (hc : c ∈ l)
    (hq : prv c = some q) : q ∈ l := by
  obtain ⟨l₁, l₂, rfl⟩ := List.append_of_mem hc
  have := Chain.prv_mid h
  rw [hq] at this
  by_cases hl : l₁ = []
  · simp [hl] at this
  · simp only [hl, if_false] at this
    have := List.mem_of_mem_getLast? this.symm
    simp [this]

/-- The forward link of a chain member is a member. -/
theorem Chain.nxt_mem {ok : Nat → Prop} {prv nxt : Nat → Option Nat}
    {prev head : Option Nat}
    {l : List Nat} {c q : Nat} (h : Chain ok prv nxt prev head l) (hc : c ∈ l)
    (hq : nxt c = some q) : q ∈ l := by
  obtain ⟨l₁, l₂, rfl⟩ := List.append_of_mem hc
  have := Chain.nxt_mid h
  rw [hq] at this
  have := List.mem_of_mem_head? this.symm
  simp [this]

theorem children_congr {s s' : Heap} (h₁ : s'.nobjs = s.nobjs)
    (h₂ : s'.childrenHead = s.childrenHead) (h₃ : s'.nextSibling = s.nextSibling) :
    children s' = children s := by
  funext p; simp [children, h₁, h₂, h₃]

theorem weakSlots_congr {s s' : Heap} (h₁ : s'.nslots = s.nslots)
    (h₂ : s'.weak_pointers = s.weak_pointers) (h₃ : s'.next = s.next) :
    weakSlots s' = weakSlots s := by
  funext p; simp [weakSlots, h₁, h₂, h₃]

/-- The tree invariant only depends on the tree fields. -/
theorem TreeInv.congrTree {s s' : Heap} {D : List Nat} (h : TreeInv s D)
    (h₁ : s'.nobjs = s.nobjs) (h₂ : s'.objFreed = s.objFreed) (h₃ : s'.parent = s.parent)
    (h₄ : s'.childrenHead = s.childrenHead) (h₅ : s'.nextSibling = s.nextSibling)
    (h₆ : s'.prevSibling = s.prevSibling) : TreeInv s' D := by
  have hl := Heap.live_congr h₁ h₂
  have hc := children_congr h₁ h₄ h₅
  constructor
  · intro p hp
    rw [hc]; unfold Linked; rw [hl, h₃, h₄, h₅, h₆]
    exact h.chains p (hl ▸ hp)
  · intro c p hc' hd hp
    rw [hl] at hc' ⊢; rw [h₃] at hp; rw [hc]
    exact h.member c p hc' hd hp
  · intro x hx
    rw [hl, hc]
    exact h.exempt x hx
  · intro c hc' hp
    rw [hl] at hc'; rw [h₃] at hp; rw [h₅, h₆]
    exact h.roots c hc' hp

/-- The weak-slot invariant only depends on the registry fields. -/
theorem WeakInv.congrWeak {s s' : Heap} (h : WeakInv s)
    (h₁ : s'.nobjs = s.nobjs) (h₂ : s'.objFreed = s.objFreed)
    (h₃ : s'.weak_pointers = s.weak_pointers) (h₄ : s'.nslots = s.nslots)
    (h₅ : s'.slotFreed = s.slotFreed) (h₆ : s'.object = s.object)
    (h₇ : s'.next = s.next) (h₈ : s'.prev = s.prev) : WeakInv s' := by
  have hl := Heap.live_congr h₁ h₂
  have hc := Heap.cell_congr h₄ h₅
  have hw := weakSlots_congr h₄ h₃ h₇
  constructor
  · intro n hn
    rw [hw]; unfold WLinked; rw [hc, h₃, h₆, h₇, h₈]
    exact h.chains n (hl ▸ hn)
  · intro k n hk ho
    rw [hc] at hk; rw [h₆] at ho; rw [hl, hw]
    exact h.member k n hk ho

/-! ## Descendants -/

theorem Desc.congrDesc {s s' : Heap} {n m : Nat} (h : Desc s n m)
    (hl : s'.live = s.live) (hp : s'.parent = s.parent) : Desc s' n m := by
  induction h with
  | self => exact Desc.self
  | step h₁ h₂ _ ih => exact Desc.step (hl ▸ h₁) (hp ▸ h₂) ih

theorem Desc.trans {s : Heap} {a b c : Nat} (h₁ : Desc s a b) (h₂ : Desc s b c) :
    Desc s a c := by
  induction h₂ with
  | self => exact h₁
  | step hl hp _ ih => exact Desc.step hl hp ih

theorem Desc.liveDesc {s : Heap} {n m : Nat} (h : Desc s n m) (hn : s.live n = true) :
    s.live m = true := by
  cases h with
  | self => exact hn
  | step hl _ _ => exact hl

/-- The rank does not grow towards the descendants, and only stays the same at the top. -/
theorem Desc.rank_le {s : Heap} {r : Nat → Nat} (hr : Ranked s r) {n m : Nat}
    (h : Desc s n m) : r m ≤ r n ∧ (r m = r n → m = n) := by
  induction h with
  | self => exact ⟨le_refl _, fun _ => rfl⟩
  | step hl hp _ ih =>
    have := hr _ _ hl hp
    constructor
    · omega
    · intro e; omega

/-- The ancestors of an object are linearly ordered. -/
theorem Desc.total {s : Heap} {a b x : Nat} (h₁ : Desc s a x) (h₂ : Desc s b x) :
    Desc s a b ∨ Desc s b a := by
  induction h₁ generalizing b with
  | self => exact Or.inr h₂
  | step hl hp hd ih =>
    cases h₂ with
    | self => exact Or.inl (Desc.step hl hp hd)
    | step hl' hp' hd' =>
      rw [hp] at hp'
      cases hp'
      exact ih hd'

/-- The subtrees of two distinct children of the same object are disjoint. -/
theorem Desc.disjoint {s : Heap} {r : Nat → Nat} (hr : Ranked s r) {n c c' x : Nat}
    (hc : s.live c = true) (hc' : s.live c' = true)
    (hp : s.parent c = some n) (hp' : s.parent c' = some n) (hne : c ≠ c')
    (h₁ : Desc s c x) (h₂ : Desc s c' x) : False := by
  have key : ∀ a b, s.live a = true → s.live b = true → s.parent a = some n →
      s.parent b = some n → a ≠ b → Desc s a b → False := by
    intro a b ha hb hpa hpb hab hd
    cases hd with
    | self => exact hab rfl
    | step _ hpb' hd' =>
      rw [hpb] at hpb'
      cases hpb'
      have h1 := (Desc.rank_le hr hd').1
      have h2 := hr a n ha hpa
      omega
  rcases Desc.total h₁ h₂ with h | h
  · exact key c c' hc hc' hp hp' hne h
  · exact key c' c hc' hc hp' hp (Ne.symm hne) h

/-- A descendant is the object itself or a descendant of one of its children. -/
theorem Desc.cases_top {s : Heap} {n m : Nat} (h : Desc s n m) :
    m = n ∨ ∃ c, s.live c = true ∧ s.parent c = some n ∧ Desc s c m := by
  induction h with
  | self => exact Or.inl rfl
  | step hl hp _ ih =>
    rcases ih with rfl | ⟨c, hc, hpc, hd⟩
    · exact Or.inr ⟨_, hl, hp, Desc.self⟩
    · exact Or.inr ⟨c, hc, hpc, Desc.step hl hp hd⟩

theorem Desc.of_child {s : Heap} {n c m : Nat} (hc : s.live c = true)
    (hp : s.parent c = some n) (h : Desc s c m) : Desc s n m :=
  Desc.trans (Desc.step hc hp Desc.self) h

/-- Descendants are stable when the subtree stays live and the parent links stay. -/
theorem Desc.stable {s s' : Heap} {n m : Nat} (hp : s'.parent = s.parent)
    (hl : ∀ x, Desc s n x → x ≠ n → s'.live x = true) (h : Desc s n m) : Desc s' n m := by
  induction h with
  | self => exact Desc.self
  | step h₁ h₂ hd ih =>
    rename_i c p
    by_cases hcn : c = n
    · subst hcn; exact Desc.self
    · exact Desc.step (hl _ (Desc.step h₁ h₂ hd) hcn) (hp ▸ h₂) ih

theorem Desc.monoDesc {s s' : Heap} {n m : Nat} (hp : s'.parent = s.parent)
    (hl : ∀ x, s'.live x = true → s.live x = true) (h : Desc s' n m) : Desc s n m := by
  induction h with
  | self => exact Desc.self
  | step h₁ h₂ _ ih => exact Desc.step (hl _ h₁) (hp ▸ h₂) ih


/-! ## Detaching a child -/

theorem QObject.removeChild_unlink {s : Heap} {p c : Nat} (hp : s.live p = true)
    (hc : s.live c = true) (hprev : ∀ q, s.prevSibling c = some q → s.live q = true)
    (hnext : ∀ q, s.nextSibling c = some q → s.live q = true) :
    QObject.removeChild s p c = some (unlinkChild s p c) :=
  QObject.removeChild_eq hp hc hprev hnext

theorem unlinkChild_head (s : Heap) (p c q : Nat) :
    (unlinkChild s p c).childrenHead q =
      if q = p ∧ s.childrenHead p = some c then s.nextSibling c else s.childrenHead q := by
  unfold unlinkChild
  by_cases h : s.childrenHead p = some c
  · by_cases hq : q = p
    · subst hq; simp [h]
    · simp [h, hq, upd_ne]
  · simp [h]

/-- In a well formed tree `removeChild` succeeds on a child and its parent. -/
theorem removeChild_ok {s : Heap} {D : List Nat} (hT : TreeInv s D) {p c : Nat}
    (hc : s.live c = true) (hcD : c ∉ D) (hp : s.parent c = some p) :
    QObject.removeChild s p c = some (unlinkChild s p c) := by
  obtain ⟨hpl, hmem⟩ := hT.member c p hc hcD hp
  obtain ⟨hch, _⟩ := hT.chains p hpl
  refine QObject.removeChild_unlink hpl hc ?_ ?_
  · intro q hq
    exact (hch.live_of_mem q (Chain.prv_mem hch hmem hq)).1
  · intro q hq
    exact (hch.live_of_mem q (Chain.nxt_mem hch hmem hq)).1

/-- The children lists after a child is detached. -/
theorem unlinkChild_chains {s : Heap} {D : List Nat} (hT : TreeInv s D) {p c : Nat}
    (hc : s.live c = true) (hcD : c ∉ D) (hp : s.parent c = some p) (q : Nat)
    (hq : s.live q = true) :
    Linked (unlinkChild s p c) q ((children s q).erase c) := by
  obtain ⟨hpl, hmem⟩ := hT.member c p hc hcD hp
  obtain ⟨hch, hnd⟩ := hT.chains p hpl
  obtain ⟨hchq, hndq⟩ := hT.chains q hq
  by_cases hqp : q = p
  · subst hqp
    have := Chain.unlink (fun x => (unlinkChild s q c).live x = true ∧
      (unlinkChild s q c).parent x = some q) hch hnd hmem (fun x _ _ h => h)
    unfold Linked
    rw [unlinkChild_head]
    simp only [true_and]
    exact this
  · have hcq : c ∉ children s q := by
      intro h
      have := (hchq.live_of_mem c h).2
      rw [hp] at this
      exact hqp (Option.some.inj this).symm
    rw [List.erase_of_not_mem hcq]
    unfold Linked
    rw [unlinkChild_head]
    simp only [hqp, false_and, if_false]
    refine Chain.frame hchq (fun x _ h => h) ?_ ?_
    · intro x hx
      have hxq := (hchq.live_of_mem x hx).2
      show unlinkPrev s.nextSibling s.prevSibling c x = _
      rw [unlinkPrev_apply]
      have h1 : x ≠ c := fun e => hcq (e ▸ hx)
      have h2 : s.nextSibling c ≠ some x := by
        intro e
        have := (hch.live_of_mem x (Chain.nxt_mem hch hmem e)).2
        rw [hxq] at this
        exact hqp (Option.some.inj this)
      simp [h1, h2]
    · intro x hx
      have hxq := (hchq.live_of_mem x hx).2
      show unlinkNext s.nextSibling s.prevSibling c x = _
      rw [unlinkNext_apply]
      have h1 : x ≠ c := fun e => hcq (e ▸ hx)
      have h2 : s.prevSibling c ≠ some x := by
        intro e
        have := (hch.live_of_mem x (Chain.prv_mem hch hmem e)).2
        rw [hxq] at this
        exact hqp (Option.some.inj this)
      simp [h1, h2]

theorem unlinkChild_children {s : Heap} {D : List Nat} (hT : TreeInv s D) {p c : Nat}
    (hc : s.live c = true) (hcD : c ∉ D) (hp : s.parent c = some p) (q : Nat)
    (hq : s.live q = true) :
    children (unlinkChild s p c) q = (children s q).erase c :=
  children_eq_of_linked (unlinkChild_chains hT hc hcD hp q hq)
    ((hT.chains q hq).2.erase c)

/-- Detaching the child `c` keeps the tree invariant, with `c` now exempt. -/
theorem unlinkChild_inv {s : Heap} {D : List Nat} (hT : TreeInv s D) {p c : Nat}
    (hc : s.live c = true) (hcD : c ∉ D) (hp : s.parent c = some p) :
    TreeInv (unlinkChild s p c) (c :: D) := by
  obtain ⟨hpl, hmem⟩ := hT.member c p hc hcD hp
  obtain ⟨hch, hnd⟩ := hT.chains p hpl
  have hchild := unlinkChild_children hT hc hcD hp
  constructor
  · intro q hq
    rw [hchild q hq]
    exact ⟨unlinkChild_chains hT hc hcD hp q hq, (hT.chains q hq).2.erase c⟩
  · intro x q hx hxD hxq
    have hxc : x ≠ c := fun e => hxD (by simp [e])
    have hxD' : x ∉ D := fun e => hxD (by simp [e])
    obtain ⟨hql, hxm⟩ := hT.member x q hx hxD' hxq
    refine ⟨hql, ?_⟩
    rw [hchild q hql]
    exact (List.mem_erase_of_ne hxc).mpr hxm
  · intro x hx
    rcases List.mem_cons.mp hx with rfl | hxD
    · refine ⟨hc, fun q hq => ?_⟩
      rw [hchild q hq]
      exact List.Nodup.not_mem_erase (hT.chains q hq).2
    · obtain ⟨hxl, hxn⟩ := hT.exempt x hxD
      refine ⟨hxl, fun q hq => ?_⟩
      rw [hchild q hq]
      exact fun h => hxn q hq (List.mem_of_mem_erase h)
  · intro x hx hxp
    have hxc : x ≠ c := by
      intro e; subst e
      have : s.parent x = none := hxp
      rw [hp] at this; cases this
    obtain ⟨h1, h2⟩ := hT.roots x hx hxp
    have hxp' : s.parent x = none := hxp
    constructor
    · show unlinkPrev s.nextSibling s.prevSibling c x = _
      rw [unlinkPrev_apply]
      have : s.nextSibling c ≠ some x := by
        intro e
        have := (hch.live_of_mem x (Chain.nxt_mem hch hmem e)).2
        rw [hxp'] at this; cases this
      simp [hxc, this, h1]
    · show unlinkNext s.nextSibling s.prevSibling c x = _
      rw [unlinkNext_apply]
      have : s.prevSibling c ≠ some x := by
        intro e
        have := (hch.live_of_mem x (Chain.prv_mem hch hmem e)).2
        rw [hxp'] at this; cases this
      simp [hxc, this, h2]


/-! ## Clearing the weak cells of an object -/

theorem walk_none (nxt : Nat → Option Nat) (f : Nat) : walk nxt f none = [] := by
  cases f <;> rfl

theorem upd_upd {α : Type} (f : Nat → α) (a : Nat) (v w : α) :
    upd (upd f a v) a w = upd f a w := by
  funext b; by_cases h : b = a <;> simp [upd, h]

theorem upd_none_self (f : Nat → Option Nat) {a : Nat} (h : f a = none) :
    upd f a none = f := by
  rw [← h]; exact upd_eq_self f a

/-- One round of the loop on the first cell of the list. -/
theorem QObject.invalidate_step {s : Heap} {n k : Nat} (f : Nat) (hn : s.live n = true)
    (hk : s.cell k = true) (hp : s.prev k = none)
    (hnx : ∀ q, s.next k = some q → s.cell q = true) :
    QObject.invalidate (f + 1) s n (some k) =
      QObject.invalidate f { s with
        object := upd s.object k none
        weak_pointers := upd s.weak_pointers n (s.next k)
        next := upd s.next k none
        prev := unlinkPrev s.next s.prev k } n (s.next k) := by
  obtain ⟨hn₁, hn₂⟩ := Heap.live_iff.mp hn
  obtain ⟨hk₁, hk₂⟩ := Heap.cell_iff.mp hk
  unfold unlinkPrev
  rw [QObject.invalidate]
  cases hr : s.next k with
  | none =>
    simp only [Option.bind_eq_bind, Heap.rdc_eq, Heap.wrObject_eq', Heap.wrWNext_eq',
      Heap.wrWPrev_eq', Heap.wrWeak_eq', Option.some_bind, hn₁, hn₂, hk₁, hk₂, hp, hr]
  | some q =>
    obtain ⟨hq₁, hq₂⟩ := Heap.cell_iff.mp (hnx q hr)
    simp only [Option.bind_eq_bind, Heap.rdc_eq, Heap.wrObject_eq', Heap.wrWNext_eq',
      Heap.wrWPrev_eq', Heap.wrWeak_eq', Option.some_bind, hn₁, hn₂, hk₁, hk₂, hp, hr,
      hq₁, hq₂]

/-- The loop clears exactly the cells of the weak-slot list. -/
theorem QObject.invalidate_eq {n : Nat} : ∀ (l : List Nat) (s : Heap),
    s.live n = true → WLinked s n l → l.Nodup →
    ∀ f, l.length ≤ f → QObject.invalidate f s n (s.weak_pointers n) = some (clearCells s n l)
  | [], s, _, hl, _, f, _ => by
    have hw : s.weak_pointers n = none := hl
    rw [hw]
    have : QObject.invalidate f s n none = some s := by
      cases f <;> rfl
    rw [this]
    congr 1
    unfold clearCells
    rw [upd_none_self _ hw]
    simp
  | k :: t, s, hn, hl, hnd, f, hf => by
    obtain ⟨hw, ⟨hk, hko⟩, hkp, ht⟩ := hl
    have hkt : k ∉ t := (List.nodup_cons.mp hnd).1
    have hndt : t.Nodup := (List.nodup_cons.mp hnd).2
    obtain ⟨f', rfl⟩ : ∃ f', f = f' + 1 := ⟨f - 1, by simp at hf; omega⟩
    have hnx : ∀ q, s.next k = some q → s.cell q = true := by
      intro q hq
      have := Chain.cur_eq ht
      rw [hq] at this
      exact (Chain.ok_of_mem ht q (List.mem_of_mem_head? this.symm)).1
    rw [hw, QObject.invalidate_step f' hn hk hkp hnx]
    have hu : unlinkNext s.next s.prev k = upd s.next k none := by
      unfold unlinkNext; rw [hkp]
    let s₁ : Heap := { s with
        object := upd s.object k none
        weak_pointers := upd s.weak_pointers n (s.next k)
        next := upd s.next k none
        prev := unlinkPrev s.next s.prev k }
    have hl₁ : WLinked s₁ n t := by
      have hfull : Chain (fun k => s.cell k = true ∧ s.object k = some n) s.prev s.next
          none (some k) (k :: t) := ⟨rfl, ⟨hk, hko⟩, hkp, ht⟩
      have := Chain.unlink (fun x => s₁.cell x = true ∧ s₁.object x = some n)
        hfull hnd (List.mem_cons_self _ _) (by
          intro x _ hxk h
          refine ⟨h.1, ?_⟩
          show upd s.object k none x = some n
          rw [upd_ne _ _ hxk]; exact h.2)
      simp only [if_true, List.erase_cons_head] at this
      unfold WLinked
      have hw₁ : s₁.weak_pointers n = s.next k := upd_same _ _ _
      rw [hw₁]
      show Chain _ (unlinkPrev s.next s.prev k) (upd s.next k none) none _ t
      rw [← hu]
      exact this
    have hih := QObject.invalidate_eq t s₁ hn hl₁ hndt f' (by simpa using hf)
    have hw₁ : s₁.weak_pointers n = s.next k := upd_same _ _ _
    rw [hw₁] at hih
    rw [hih]
    congr 1
    unfold clearCells
    simp only [Heap.mk.injEq, true_and, s₁]
    refine ⟨upd_upd _ _ _ _, ?_, ?_, ?_, trivial⟩
    · funext x
      by_cases hxk : x = k
      · subst hxk; simp
      · simp [hxk, upd_ne]
    · funext x
      by_cases hxk : x = k
      · subst hxk; simp
      · simp [hxk, upd_ne]
    · funext x
      by_cases hxk : x = k
      · subst hxk; simp [unlinkPrev_apply]
      · by_cases hxt : x ∈ t
        · simp [hxt]
        · have : s.next k ≠ some x := by
            intro e
            have := Chain.cur_eq ht
            rw [e] at this
            exact hxt (List.mem_of_mem_head? this.symm)
          simp [hxk, hxt, unlinkPrev_apply, this]

/-- A cell outside the weak-slot list of `n` observes something else. -/
theorem WeakInv.not_mem_iff {s : Heap} (h : WeakInv s) {n k : Nat} (hn : s.live n = true)
    (hk : s.cell k = true) : k ∈ weakSlots s n ↔ s.object k = some n := by
  constructor
  · intro hm
    exact ((h.chains n hn).1.cell_of_mem k hm).2
  · intro ho
    exact (h.member k n hk ho).2

theorem clearCells_weakSlots {s : Heap} (h : WeakInv s) {n : Nat} (hn : s.live n = true)
    (m : Nat) (hm : s.live m = true) :
    WLinked (clearCells s n (weakSlots s n)) m (if m = n then [] else weakSlots s m) := by
  by_cases hmn : m = n
  · subst hmn
    simp only [if_true]
    show upd s.weak_pointers m none m = none
    exact upd_same _ _ _
  · simp only [hmn, if_false]
    obtain ⟨hch, _⟩ := h.chains m hm
    unfold WLinked
    have hw : (clearCells s n (weakSlots s n)).weak_pointers m = s.weak_pointers m :=
      upd_ne _ _ hmn
    rw [hw]
    have hout : ∀ x ∈ weakSlots s m, x ∉ weakSlots s n := by
      intro x hx hx'
      have h1 := (hch.cell_of_mem x hx).2
      have h2 := ((h.chains n hn).1.cell_of_mem x hx').2
      rw [h1] at h2
      exact hmn (Option.some.inj h2)
    refine Chain.frame hch ?_ ?_ ?_
    · intro x hx hok
      refine ⟨hok.1, ?_⟩
      show (if x ∈ weakSlots s n then none else s.object x) = some m
      simp [hout x hx, hok.2]
    · intro x hx
      show (if x ∈ weakSlots s n then none else s.prev x) = _
      simp [hout x hx]
    · intro x hx
      show (if x ∈ weakSlots s n then none else s.next x) = _
      simp [hout x hx]

theorem clearCells_weakSlots_eq {s : Heap} (h : WeakInv s) {n : Nat} (hn : s.live n = true)
    (m : Nat) (hm : s.live m = true) :
    weakSlots (clearCells s n (weakSlots s n)) m = if m = n then [] else weakSlots s m := by
  refine weakSlots_eq_of_linked (clearCells_weakSlots h hn m hm) ?_
  by_cases hmn : m = n
  · simp [hmn]
  · simp only [hmn, if_false]; exact (h.chains m hm).2

/-- Clearing the cells of `n` keeps the invariant of the registry. -/
theorem clearCells_inv {s : Heap} (h : WeakInv s) {n : Nat} (hn : s.live n = true) :
    WeakInv (clearCells s n (weakSlots s n)) := by
  constructor
  · intro m hm
    have hm' : s.live m = true := hm
    rw [clearCells_weakSlots_eq h hn m hm']
    refine ⟨clearCells_weakSlots h hn m hm', ?_⟩
    by_cases hmn : m = n
    · simp [hmn]
    · simp only [hmn, if_false]; exact (h.chains m hm').2
  · intro k m hk ho
    have hk' : s.cell k = true := hk
    have ho' : (if k ∈ weakSlots s n then none else s.object k) = some m := ho
    by_cases hkn : k ∈ weakSlots s n
    · simp [hkn] at ho'
    · simp only [hkn, if_false] at ho'
      obtain ⟨hml, hkm⟩ := h.member k m hk' ho'
      have hmn : m ≠ n := by
        intro e; subst e; exact hkn hkm
      refine ⟨hml, ?_⟩
      rw [clearCells_weakSlots_eq h hn m hml]
      simp [hmn, hkm]


/-! ## The cascade -/

theorem Ranked.mono {s s' : Heap} {r : Nat → Nat} (h : Ranked s r)
    (hp : s'.parent = s.parent) (hl : ∀ x, s'.live x = true → s.live x = true) :
    Ranked s' r := by
  intro c p hc hcp
  exact h c p (hl c hc) (hp ▸ hcp)

theorem SameAlloc.liveEq {s s' : Heap} (h : SameAlloc s s') : s'.live = s.live :=
  Heap.live_congr h.nobjs h.objFreed

theorem SameAlloc.cellEq {s s' : Heap} (h : SameAlloc s s') : s'.cell = s.cell :=
  Heap.cell_congr h.nslots h.slotFreed

/-- The first statement of the destructor: the object leaves the children list of its
parent. -/
theorem detach_step {s : Heap} {D : List Nat} (hT : TreeInv s D) (hW : WeakInv s) {n : Nat}
    (hn : s.live n = true) (hnD : n ∉ D) :
    ∃ s₁, QObject.detach s n = some s₁ ∧
      TreeInv s₁ (n :: D) ∧ WeakInv s₁ ∧ SameAlloc s s₁ ∧ SameReg s s₁ ∧
      s₁.parent = s.parent ∧ s₁.deleted = s.deleted ++ [n] ∧
      ∀ q, s.live q = true → children s₁ q = (children s q).erase n := by
  let s₀ : Heap := { s with deleted := s.deleted ++ [n] }
  have hT₀ : TreeInv s₀ D := hT.congrTree rfl rfl rfl rfl rfl rfl
  have hW₀ : WeakInv s₀ := hW.congrWeak rfl rfl rfl rfl rfl rfl rfl rfl
  have hc₀ : children s₀ = children s := children_congr rfl rfl rfl
  unfold QObject.detach
  cases hp : s.parent n with
  | none =>
    refine ⟨s₀, rfl, ?_, hW₀, ⟨rfl, rfl, rfl, rfl, rfl, rfl⟩, ⟨rfl, rfl, rfl, rfl⟩, rfl, rfl, ?_⟩
    · have hnot : ∀ q, s.live q = true → n ∉ children s q := by
        intro q hq hm
        have := ((hT.chains q hq).1.live_of_mem n hm).2
        rw [hp] at this; cases this
      constructor
      · exact hT₀.chains
      · intro c p hc hcD hcp
        exact hT₀.member c p hc (fun e => hcD (List.mem_cons_of_mem _ e)) hcp
      · intro x hx
        rcases List.mem_cons.mp hx with rfl | hxD
        · exact ⟨hn, fun q hq => by rw [hc₀]; exact hnot q hq⟩
        · exact hT₀.exempt x hxD
      · exact hT₀.roots
    · intro q hq
      rw [hc₀, List.erase_of_not_mem]
      intro hm
      have := ((hT.chains q hq).1.live_of_mem n hm).2
      rw [hp] at this; cases this
  | some p =>
    have hn₀ : s₀.live n = true := hn
    have hp₀ : s₀.parent n = some p := hp
    refine ⟨unlinkChild s₀ p n, removeChild_ok hT₀ hn₀ hnD hp₀,
      unlinkChild_inv hT₀ hn₀ hnD hp₀, hW₀.congrWeak rfl rfl rfl rfl rfl rfl rfl rfl,
      ⟨rfl, rfl, rfl, rfl, rfl, rfl⟩, ⟨rfl, rfl, rfl, rfl⟩, rfl, rfl, ?_⟩
    intro q hq
    rw [unlinkChild_children hT₀ hn₀ hnD hp₀ q hq, hc₀]

/-- The second statement of the destructor: the weak cells of the object are cleared. -/
theorem clear_step {s : Heap} {D : List Nat} (hT : TreeInv s D) (hW : WeakInv s) {n : Nat}
    (hn : s.live n = true) :
    ∃ s₂, (∀ f, s.nslots ≤ f → QObject.invalidate f s n (s.weak_pointers n) = some s₂) ∧
      TreeInv s₂ D ∧ WeakInv s₂ ∧ SameAlloc s s₂ ∧ SameTree s s₂ ∧
      s₂.deleted = s.deleted ∧
      (∀ k, s₂.object k = if s.cell k = true ∧ s.object k = some n then none else s.object k) ∧
      ∀ k, s.cell k = true → s₂.object k ≠ some n := by
  obtain ⟨hch, hnd⟩ := hW.chains n hn
  refine ⟨clearCells s n (weakSlots s n), ?_, hT.congrTree rfl rfl rfl rfl rfl rfl,
    clearCells_inv hW hn, ⟨rfl, rfl, rfl, rfl, rfl, rfl⟩, ⟨rfl, rfl, rfl, rfl⟩, rfl, ?_, ?_⟩
  · intro f hf
    refine QObject.invalidate_eq _ s hn hch hnd f (le_trans ?_ hf)
    exact length_le_of_nodup_lt hnd (fun x hx => Heap.cell_lt (hch.cell_of_mem x hx).1)
  · intro k
    show (if k ∈ weakSlots s n then none else s.object k) = _
    by_cases hk : s.cell k = true
    · by_cases hm : k ∈ weakSlots s n
      · have := (hW.not_mem_iff hn hk).mp hm
        simp [hm, hk, this]
      · have : ¬ s.object k = some n := fun e => hm ((hW.not_mem_iff hn hk).mpr e)
        simp [hm, this]
    · have hm : k ∉ weakSlots s n := fun hm => hk (hch.cell_of_mem k hm).1
      simp [hm, hk]
  · intro k hk
    show (if k ∈ weakSlots s n then none else s.object k) ≠ some n
    by_cases hm : k ∈ weakSlots s n
    · simp [hm]
    · simp only [hm, if_false]
      exact fun e => hm ((hW.not_mem_iff hn hk).mpr e)

theorem upd_true_live {s : Heap} {n m : Nat} :
    ({ s with objFreed := upd s.objFreed n true } : Heap).live m = true ↔
      (s.live m = true ∧ m ≠ n) := by
  by_cases h : m = n
  · subst h; simp [Heap.live]
  · simp [Heap.live, upd_ne, h]

/-- The last statements of the destructor: the object, now childless and unobserved, is
released. -/
theorem free_step {s : Heap} {D : List Nat} {n : Nat} (hT : TreeInv s (n :: D)) (hW : WeakInv s)
    (hn : s.live n = true) (hnD : n ∉ D) (hkids : children s n = [])
    (hobs : ∀ k, s.cell k = true → s.object k ≠ some n) :
    ∃ s', (s.wrHead n none).bind (fun t => t.freeObj n) = some s' ∧
      TreeInv s' D ∧ WeakInv s' ∧ (∀ m, s'.live m = true ↔ (s.live m = true ∧ m ≠ n)) ∧
      SameReg s s' ∧ s'.parent = s.parent ∧ s'.nobjs = s.nobjs ∧ s'.nslots = s.nslots ∧
      s'.slotFreed = s.slotFreed ∧ s'.nptrs = s.nptrs ∧ s'.d = s.d ∧
      s'.deleted = s.deleted ∧ children s' = children s := by
  obtain ⟨hn₁, hn₂⟩ := Heap.live_iff.mp hn
  have hhead : s.childrenHead n = none := by
    have := (hT.chains n hn).1
    rw [hkids] at this
    exact this
  let s' : Heap := { s with objFreed := upd s.objFreed n true }
  have hs' : (s.wrHead n none).bind (fun t => t.freeObj n) = some s' := by
    simp only [Heap.wrHead_eq', Heap.freeObj_eq', hn₁, hn₂, Option.some_bind,
      upd_none_self _ hhead]
  have hlive : ∀ m, s'.live m = true ↔ (s.live m = true ∧ m ≠ n) := fun m => upd_true_live
  have hch : children s' = children s := children_congr rfl rfl rfl
  refine ⟨s', hs', ?_, ?_, hlive, ⟨rfl, rfl, rfl, rfl⟩, rfl, rfl, rfl, rfl, rfl, rfl, rfl, hch⟩
  · constructor
    · intro q hq
      obtain ⟨hq', hqn⟩ := (hlive q).mp hq
      obtain ⟨h1, h2⟩ := hT.chains q hq'
      rw [hch]
      refine ⟨Chain.frame h1 ?_ (fun _ _ => rfl) (fun _ _ => rfl), h2⟩
      intro x hx hok
      refine ⟨(hlive x).mpr ⟨hok.1, ?_⟩, hok.2⟩
      intro e; subst e
      exact (hT.exempt x (List.mem_cons_self _ _)).2 q hq' hx
    · intro c p hc hcD hcp
      obtain ⟨hc', hcn⟩ := (hlive c).mp hc
      obtain ⟨hp', hm⟩ := hT.member c p hc'
        (by intro e; rcases List.mem_cons.mp e with e | e
            · exact hcn e
            · exact hcD e) hcp
      have hpn : p ≠ n := by
        intro e; subst e; rw [hkids] at hm; cases hm
      exact ⟨(hlive p).mpr ⟨hp', hpn⟩, by rw [hch]; exact hm⟩
    · intro x hx
      obtain ⟨hxl, hxn⟩ := hT.exempt x (List.mem_cons_of_mem _ hx)
      refine ⟨(hlive x).mpr ⟨hxl, fun e => hnD (e ▸ hx)⟩, ?_⟩
      intro q hq
      rw [hch]
      exact hxn q ((hlive q).mp hq).1
    · intro c hc hcp
      exact hT.roots c ((hlive c).mp hc).1 hcp
  · constructor
    · intro m hm
      exact hW.chains m ((hlive m).mp hm).1
    · intro k m hk ho
      obtain ⟨hml, hkm⟩ := hW.member k m hk ho
      refine ⟨(hlive m).mpr ⟨hml, ?_⟩, hkm⟩
      intro e; subst e
      exact hobs k hk ho

theorem Swept.congrSwept {s s' : Heap} {D : List Nat} {G G' : Nat → Prop}
    (h : Swept s s' D G) (hG : ∀ m, G m ↔ G' m) : Swept s s' D G' := by
  have : G = G' := funext fun m => propext (hG m)
  rw [← this]; exact h

theorem Swept.cellSame {s s' : Heap} {D : List Nat} {G : Nat → Prop} (h : Swept s s' D G) :
    s'.cell = s.cell := Heap.cell_congr h.nslots h.slotFreed

theorem Swept.transSwept {s s₁ s₂ : Heap} {D : List Nat} {G₁ G₂ : Nat → Prop}
    (h₁ : Swept s s₁ D G₁) (h₂ : Swept s₁ s₂ D G₂) (hdisj : ∀ m, G₁ m → G₂ m → False) :
    Swept s s₂ D (fun m => G₁ m ∨ G₂ m) := by
  refine ⟨h₂.tree, h₂.weak, h₂.nobjs.trans h₁.nobjs, h₂.parent.trans h₁.parent,
    h₂.nslots.trans h₁.nslots, h₂.slotFreed.trans h₁.slotFreed, h₂.nptrs.trans h₁.nptrs,
    h₂.d.trans h₁.d, ?_, ?_, ?_⟩
  · intro m
    rw [h₂.live, h₁.live]
    tauto
  · intro k x hk
    rw [h₂.object k x (by rw [h₁.cellSame]; exact hk), h₁.object k x hk]
    tauto
  · obtain ⟨L₁, e₁, nd₁, m₁⟩ := h₁.deleted
    obtain ⟨L₂, e₂, nd₂, m₂⟩ := h₂.deleted
    refine ⟨L₁ ++ L₂, by rw [e₂, e₁, List.append_assoc], ?_, ?_⟩
    · refine List.Nodup.append nd₁ nd₂ ?_
      intro x hx₁ hx₂
      exact hdisj x ((m₁ x).mp hx₁) ((m₂ x).mp hx₂)
    · intro m
      rw [List.mem_append, m₁, m₂]

theorem Swept.refl {s : Heap} {D : List Nat} (hT : TreeInv s D) (hW : WeakInv s) :
    Swept s s D (fun _ => False) := by
  refine ⟨hT, hW, rfl, rfl, rfl, rfl, rfl, rfl, ?_, ?_, ⟨[], by simp, List.nodup_nil, ?_⟩⟩
  · intro m; simp
  · intro k x _; simp
  · intro m; simp

theorem cleanupLoop_none (f : Nat) (s : Heap) : QObject.cleanupLoop f s none = some s := by
  cases f <;> simp [QObject.cleanupLoop]

theorem cleanupLoop_some (f : Nat) (s : Heap) (c : Nat) (hc : s.live c = true) :
    QObject.cleanupLoop (f + 1) s (some c) =
      (QObject.destroy f s c).bind (fun t => QObject.cleanupLoop f t (s.nextSibling c)) := by
  rw [QObject.cleanupLoop]
  simp only [Option.bind_eq_bind, Heap.rd_live _ hc, Option.some_bind]

/-- The loop of `cleanupChildren` destroys the subtrees of all the children. -/
theorem loop_spec {r : Nat → Nat} {N : Nat} (IH : DestroySpec r N) {n : Nat} {D : List Nat} :
    ∀ (l : List Nat) (s : Heap),
      Ranked s r → TreeInv s (n :: D) → WeakInv s → s.live n = true →
      (∀ x ∈ D, r n < r x) → r n ≤ N → children s n = l →
      ∃ F s', (∀ f, F ≤ f → QObject.cleanupLoop f s (s.childrenHead n) = some s') ∧
        Swept s s' (n :: D) (fun m => ∃ c ∈ l, Desc s c m) ∧ children s' n = [] ∧
        (∀ q, s'.live q = true → q ≠ n → children s' q = children s q)
  | [], s, _, hT, hW, hn, _, _, hl => by
    have hhead : s.childrenHead n = none := by
      have := (hT.chains n hn).1
      rw [hl] at this
      exact this
    refine ⟨0, s, fun f _ => by rw [hhead, cleanupLoop_none], ?_, hl, fun _ _ _ => rfl⟩
    exact (Swept.refl hT hW).congrSwept (by simp)
  | c :: t, s, hR, hT, hW, hn, hD, hN, hl => by
    obtain ⟨hch, hnd⟩ := hT.chains n hn
    rw [hl] at hch hnd
    obtain ⟨hhead, ⟨hc, hcp⟩, _, htail⟩ := hch
    have hrc : r c < r n := hR c n hc hcp
    have hcD : c ∉ n :: D := by
      intro e
      exact (hT.exempt c e).2 n hn (by rw [hl]; exact List.mem_cons_self _ _)
    -- the first child
    obtain ⟨F₁, s₁, hrun₁, hsw₁, hkids₁⟩ := IH s (n :: D) c (by omega) hR hT hW hc hcD (by
      intro x hx
      rcases List.mem_cons.mp hx with rfl | hx
      · exact hrc
      · exact lt_trans hrc (hD x hx))
    have hnc : ¬ Desc s c n := by
      intro h
      have := (Desc.rank_le hR h).1
      omega
    have hn₁ : s₁.live n = true := (hsw₁.live n).mpr ⟨hn, hnc⟩
    have hl₁ : children s₁ n = t := by
      rw [hkids₁ n hn₁, hl]; simp
    have hsub : ∀ x, s₁.live x = true → s.live x = true := fun x hx => ((hsw₁.live x).mp hx).1
    have hR₁ : Ranked s₁ r := hR.mono hsw₁.parent hsub
    -- the other children
    obtain ⟨F₂, s₂, hrun₂, hsw₂, hkids₂, hfr₂⟩ :=
      loop_spec IH t s₁ hR₁ hsw₁.tree hsw₁.weak hn₁ hD hN hl₁
    have hnext : s.nextSibling c = s₁.childrenHead n := by
      have h1 := Chain.cur_eq htail
      have h2 := Chain.cur_eq (hsw₁.tree.chains n hn₁).1
      rw [hl₁] at h2
      rw [h1, h2]
    have htmem : ∀ c' ∈ t, s.live c' = true ∧ s.parent c' = some n ∧ c' ≠ c := by
      intro c' hc'
      obtain ⟨h1, h2⟩ := Chain.ok_of_mem htail c' hc'
      exact ⟨h1, h2, fun e => (List.nodup_cons.mp hnd).1 (e ▸ hc')⟩
    have hstab : ∀ m, (∃ c' ∈ t, Desc s₁ c' m) ↔ (∃ c' ∈ t, Desc s c' m) := by
      intro m
      constructor
      · rintro ⟨c', hc', hd⟩
        exact ⟨c', hc', hd.monoDesc hsw₁.parent hsub⟩
      · rintro ⟨c', hc', hd⟩
        obtain ⟨h1, h2, h3⟩ := htmem c' hc'
        refine ⟨c', hc', hd.stable hsw₁.parent ?_⟩
        intro x hx _
        refine (hsw₁.live x).mpr ⟨hx.liveDesc h1, ?_⟩
        intro hcx
        exact Desc.disjoint hR hc h1 hcp h2 (Ne.symm h3) hcx hx
    have hsw : Swept s s₂ (n :: D) (fun m => ∃ c' ∈ c :: t, Desc s c' m) :=
      (hsw₁.transSwept (hsw₂.congrSwept hstab) (by
        rintro m h1 ⟨c', hc', h2⟩
        obtain ⟨h3, h4, h5⟩ := htmem c' hc'
        exact Desc.disjoint hR hc h3 hcp h4 (Ne.symm h5) h1 h2)).congrSwept (by
        intro m
        simp only [List.mem_cons, exists_eq_or_imp])
    refine ⟨max F₁ F₂ + 1, s₂, ?_, hsw, hkids₂, ?_⟩
    · intro f hf
      obtain ⟨f', rfl⟩ : ∃ f', f = f' + 1 := ⟨f - 1, by omega⟩
      rw [hhead, cleanupLoop_some f' s c hc, hrun₁ f' (by omega)]
      simp only [Option.some_bind]
      rw [hnext]
      exact hrun₂ f' (by omega)
    · intro q hq hqn
      have hq₁ : s₁.live q = true := ((hsw₂.live q).mp hq).1
      rw [hfr₂ q hq hqn, hkids₁ q hq₁, List.erase_of_not_mem]
      intro hm
      have := ((hT.chains q (hsub q hq₁)).1.live_of_mem c hm).2
      rw [hcp] at this
      exact hqn (Option.some.inj this).symm

/-- The destructor, statement by statement. -/
theorem destroy_succ (f : Nat) (s : Heap) (n : Nat) (hn : s.live n = true) :
    QObject.destroy (f + 1) s n =
      (QObject.detach s n).bind fun s₁ =>
      (s₁.rd s₁.weak_pointers n).bind fun w =>
      (QObject.invalidate f s₁ n w).bind fun s₂ =>
      (s₂.rd s₂.childrenHead n).bind fun h =>
      (QObject.cleanupLoop f s₂ h).bind fun s₃ =>
      (s₃.wrHead n none).bind fun t => t.freeObj n := by
  rw [QObject.destroy]
  have : ({ s with deleted := s.deleted ++ [n] } : Heap).live n = true := hn
  simp only [Option.bind_eq_bind, Heap.rd_live _ this, Option.some_bind, QObject.detach]

/-- The cascade: `delete n` destroys exactly the subtree of `n`. -/
theorem destroy_spec (r : Nat → Nat) : ∀ N, DestroySpec r N
  | 0 => by intro s D n h; omega
  | N + 1 => by
    intro s D n hrn hR hT hW hn hnD hD
    have IH := destroy_spec r N
    -- the object leaves its parent
    obtain ⟨s₁, e₁, hT₁, hW₁, hA₁, hG₁, hp₁, hd₁, hk₁⟩ := detach_step hT hW hn hnD
    have hn₁ : s₁.live n = true := by rw [hA₁.liveEq]; exact hn
    -- its weak cells are cleared
    obtain ⟨s₂, e₂, hT₂, hW₂, hA₂, hS₂, hd₂, ho₂, hobs₂⟩ := clear_step hT₁ hW₁ hn₁
    have hl₂ : s₂.live = s.live := by rw [hA₂.liveEq, hA₁.liveEq]
    have hp₂ : s₂.parent = s.parent := by rw [hS₂.parent, hp₁]
    have hn₂ : s₂.live n = true := by rw [hl₂]; exact hn
    have hR₂ : Ranked s₂ r := hR.mono hp₂ (fun x hx => by rw [← hl₂]; exact hx)
    -- its children are destroyed
    obtain ⟨F, s₃, e₃, hsw, hkids₃, hfr₃⟩ :=
      loop_spec IH (children s₂ n) s₂ hR₂ hT₂ hW₂ hn₂ hD (by omega) rfl
    have hup : ∀ c ∈ children s₂ n, ¬ Desc s₂ c n := by
      intro c hc h
      obtain ⟨h1, h2⟩ := (hT₂.chains n hn₂).1.live_of_mem c hc
      have := (Desc.rank_le hR₂ h).1
      have := hR₂ c n h1 h2
      omega
    have hn₃ : s₃.live n = true :=
      (hsw.live n).mpr ⟨hn₂, fun ⟨c, hc, h⟩ => hup c hc h⟩
    have hc₃ : s₃.cell = s.cell := by rw [hsw.cellSame, hA₂.cellEq, hA₁.cellEq]
    have hc₂ : s₂.cell = s₁.cell := hA₂.cellEq
    -- it is released
    obtain ⟨s', e', hT', hW', hl', hG', hp', hno', hns', hsf', hnp', hd', hdel', hch'⟩ :=
      free_step hsw.tree hsw.weak hn₃ hnD hkids₃ (by
        intro k hk ho
        rw [hsw.cellSame] at hk
        have := ((hsw.object k n hk).mp ho).1
        exact hobs₂ k (by rw [← hc₂]; exact hk) this)
    have hdesc : ∀ m, Desc s n m ↔ (m = n ∨ ∃ c ∈ children s₂ n, Desc s₂ c m) := by
      intro m
      constructor
      · intro h
        rcases (h.congrDesc hl₂ hp₂).cases_top with e | ⟨c, hc, hcp, hd⟩
        · exact Or.inl e
        · have hrc := hR₂ c n hc hcp
          have hcD : c ∉ n :: D := by
            intro e
            rcases List.mem_cons.mp e with e | e
            · subst e; omega
            · have := hD c e; omega
          exact Or.inr ⟨c, (hT₂.member c n hc hcD hcp).2, hd⟩
      · rintro (e | ⟨c, hc, hd⟩)
        · subst e; exact Desc.self
        · obtain ⟨h1, h2⟩ := (hT₂.chains n hn₂).1.live_of_mem c hc
          exact (Desc.of_child h1 h2 hd).congrDesc hl₂.symm hp₂.symm
    refine ⟨max s.nslots F + 1, s', ?_, ?_, ?_⟩
    · intro f hf
      obtain ⟨f', rfl⟩ : ∃ f', f = f' + 1 := ⟨f - 1, by omega⟩
      rw [destroy_succ f' s n hn, e₁]
      simp only [Option.some_bind, Heap.rd_live _ hn₁]
      rw [e₂ f' (by rw [hA₁.nslots]; omega)]
      simp only [Option.some_bind, Heap.rd_live _ hn₂]
      rw [e₃ f' (by omega)]
      simp only [Option.some_bind]
      exact e'
    · refine ⟨hT', hW', ?_, ?_, ?_, ?_, ?_, ?_, ?_, ?_, ?_⟩
      · rw [hno', hsw.nobjs, hA₂.nobjs, hA₁.nobjs]
      · rw [hp', hsw.parent, hp₂]
      · rw [hns', hsw.nslots, hA₂.nslots, hA₁.nslots]
      · rw [hsf', hsw.slotFreed, hA₂.slotFreed, hA₁.slotFreed]
      · rw [hnp', hsw.nptrs, hA₂.nptrs, hA₁.nptrs]
      · rw [hd', hsw.d, hA₂.d, hA₁.d]
      · intro m
        rw [hl', hsw.live, hl₂, hdesc]
        constructor
        · rintro ⟨⟨h1, h2⟩, h3⟩
          exact ⟨h1, fun h => h.elim h3 h2⟩
        · rintro ⟨h1, h2⟩
          exact ⟨⟨h1, fun h => h2 (Or.inr h)⟩, fun e => h2 (Or.inl e)⟩
      · intro k x hk
        have hk₂ : s₂.cell k = true := by rw [hA₂.cellEq, hA₁.cellEq]; exact hk
        have hk₁ : s₁.cell k = true := by rw [hA₁.cellEq]; exact hk
        rw [hG'.object, hsw.object k x hk₂, ho₂ k, hG₁.object, hdesc]
        by_cases hkn : s.object k = some n
        · simp only [hk₁, hkn, and_self, if_true, reduceCtorEq, false_and, false_iff, not_and,
            not_not]
          intro e
          cases e
          exact Or.inl rfl
        · simp only [hk₁, hkn, and_false, if_false]
          constructor
          · rintro ⟨h1, h2⟩
            refine ⟨h1, ?_⟩
            rintro (e | h)
            · subst e; exact hkn h1
            · exact h2 h
          · rintro ⟨h1, h2⟩
            exact ⟨h1, fun h => h2 (Or.inr h)⟩
      · obtain ⟨L, eL, ndL, mL⟩ := hsw.deleted
        refine ⟨n :: L, ?_, ?_, ?_⟩
        · rw [hdel', eL, hd₂, hd₁]; simp
        · refine List.nodup_cons.mpr ⟨?_, ndL⟩
          intro h
          obtain ⟨c, hc, hd⟩ := (mL n).mp h
          exact hup c hc hd
        · intro m
          rw [List.mem_cons, mL, hdesc]
    · intro q hq
      obtain ⟨hq₃, hqn⟩ := (hl' q).mp hq
      have hq₂ : s.live q = true := by
        have := ((hsw.live q).mp hq₃).1
        rw [hl₂] at this; exact this
      rw [hch', hfr₃ q hq₃ hqn, children_congr hA₂.nobjs hS₂.childrenHead hS₂.nextSibling,
        hk₁ q hq₂]


/-! ## Well-formed heaps -/

theorem rootDist_lt {s : Heap} : ∀ (f m k : Nat), rootDist s f m = some k → k < f
  | 0, _, _, h => by simp [rootDist] at h
  | f + 1, m, k, h => by
    unfold rootDist at h
    cases hp : s.parent m with
    | none => simp [hp] at h; omega
    | some p =>
      simp only [hp, Option.map_eq_some'] at h
      obtain ⟨k', hk', rfl⟩ := h
      have := rootDist_lt f p k' hk'
      omega

theorem rootDist_mono {s : Heap} : ∀ (f m k : Nat), rootDist s f m = some k →
    rootDist s (f + 1) m = some k
  | 0, _, _, h => by simp [rootDist] at h
  | f + 1, m, k, h => by
    unfold rootDist at h ⊢
    cases hp : s.parent m with
    | none => simpa [hp] using h
    | some p =>
      simp only [hp, Option.map_eq_some'] at h ⊢
      obtain ⟨k', hk', rfl⟩ := h
      exact ⟨k', rootDist_mono f p k' hk', rfl⟩

/-- An acyclic heap has a rank. -/
theorem Acyclic.ranked {s : Heap} (h : Acyclic s) :
    Ranked s (fun m => s.nobjs - (rootDist s s.nobjs m).getD 0) := by
  intro c p hc hcp
  have hlt := Heap.live_lt hc
  have := h c hlt hc
  obtain ⟨k, hk⟩ := Option.isSome_iff_exists.mp this
  obtain ⟨L, hL⟩ : ∃ L, s.nobjs = L + 1 := ⟨s.nobjs - 1, by omega⟩
  have hkL := rootDist_lt _ _ _ hk
  rw [hL] at hk
  have hk2 := hk
  unfold rootDist at hk2
  simp only [hcp, Option.map_eq_some'] at hk2
  obtain ⟨k', hk', rfl⟩ := hk2
  have hp := rootDist_mono _ _ _ hk'
  rw [← hL] at hk hp
  simp only [hk, hp, Option.getD_some]
  omega

/-- From a rank to acyclicity: a chain of parents has no repetition. -/
theorem Ranked.path {s : Heap} {r : Nat → Nat} (hR : Ranked s r)
    (hlive : ∀ c p, s.live c = true → s.parent c = some p → s.live p = true) :
    ∀ (f m : Nat), s.live m = true → rootDist s f m = none →
      ∃ l : List Nat, l.length = f + 1 ∧ l.Nodup ∧ ∀ x ∈ l, s.live x = true ∧ r m ≤ r x
  | 0, m, hm, _ => ⟨[m], rfl, List.nodup_singleton m, by simp [hm]⟩
  | f + 1, m, hm, h => by
    unfold rootDist at h
    cases hp : s.parent m with
    | none => simp [hp] at h
    | some p =>
      simp only [hp, Option.map_eq_none'] at h
      have hpl := hlive m p hm hp
      obtain ⟨l, hlen, hnd, hmem⟩ := Ranked.path hR hlive f p hpl h
      have hrp := hR m p hm hp
      refine ⟨m :: l, by simp [hlen], List.nodup_cons.mpr ⟨?_, hnd⟩, ?_⟩
      · intro hx
        have := (hmem m hx).2
        omega
      · intro x hx
        rcases List.mem_cons.mp hx with rfl | hx
        · exact ⟨hm, le_refl _⟩
        · have := hmem x hx
          exact ⟨this.1, by omega⟩

theorem Ranked.toAcyclic {s : Heap} {r : Nat → Nat} (hR : Ranked s r)
    (hlive : ∀ c p, s.live c = true → s.parent c = some p → s.live p = true) :
    Acyclic s := by
  intro c _ hc
  cases h : rootDist s s.nobjs c with
  | some k => rfl
  | none =>
    obtain ⟨l, hlen, hnd, hmem⟩ := hR.path hlive s.nobjs c hc h
    have := length_le_of_nodup_lt hnd (fun x hx => Heap.live_lt (hmem x hx).1)
    omega

theorem WF.treeInv {s : Heap} (h : WF s) : TreeInv s [] := by
  obtain ⟨⟨h1, h2, h3, _⟩, _⟩ := h
  constructor
  · intro p hp; exact h1 p (Heap.live_lt hp) hp
  · intro c p hc _ hcp; exact h2 c (Heap.live_lt hc) hc p hcp
  · intro x hx; cases hx
  · intro c hc hcp; exact h3 c (Heap.live_lt hc) hc hcp

theorem WF.weakInv {s : Heap} (h : WF s) : WeakInv s := by
  obtain ⟨_, h1, h2, _⟩ := h
  constructor
  · intro n hn; exact h1 n (Heap.live_lt hn) hn
  · intro k n hk ho; exact h2 k (Heap.cell_lt hk) hk n ho

theorem WF.handles {s : Heap} (h : WF s) : HandlesOK s := h.2.2.2

theorem WF.acyclic {s : Heap} (h : WF s) : Acyclic s := h.1.2.2.2

theorem TreeInv.parent_live {s : Heap} (h : TreeInv s []) :
    ∀ c p, s.live c = true → s.parent c = some p → s.live p = true :=
  fun c p hc hcp => (h.member c p hc (by simp) hcp).1

/-- The invariants used in the proofs make a well-formed heap. -/
theorem WF.of_inv {s : Heap} {r : Nat → Nat} (hT : TreeInv s []) (hW : WeakInv s)
    (hR : Ranked s r) (hH : HandlesOK s) : WF s := by
  refine ⟨⟨?_, ?_, ?_, hR.toAcyclic hT.parent_live⟩, ?_, ?_, hH⟩
  · intro p _ hp; exact hT.chains p hp
  · intro c _ hc p hcp; exact hT.member c p hc (by simp) hcp
  · intro c _ hc hcp; exact hT.roots c hc hcp
  · intro n _ hn; exact hW.chains n hn
  · intro k _ hk n ho; exact hW.member k n hk ho

/-! ## Subtrees -/

theorem reaches_of_desc {s : Heap} {n : Nat} : ∀ (f m k : Nat), rootDist s f m = some k →
    Desc s n m → reaches s f n m = true
  | 0, _, _, h, _ => by simp [rootDist] at h
  | f + 1, m, k, h, hd => by
    unfold reaches
    cases hd with
    | self => simp
    | step hl hp hd' =>
      unfold rootDist at h
      simp only [hp, Option.map_eq_some'] at h
      obtain ⟨k', hk', _⟩ := h
      simp only [hp, Bool.or_eq_true, decide_eq_true_eq]
      exact Or.inr (reaches_of_desc f _ k' hk' hd')

theorem desc_of_reaches {s : Heap} {n : Nat}
    (hlive : ∀ c p, s.live c = true → s.parent c = some p → s.live p = true) :
    ∀ (f m : Nat), s.live m = true → reaches s f n m = true → Desc s n m
  | 0, m, _, h => by
    simp only [reaches, decide_eq_true_eq] at h
    subst h; exact Desc.self
  | f + 1, m, hm, h => by
    unfold reaches at h
    simp only [Bool.or_eq_true, decide_eq_true_eq] at h
    rcases h with rfl | h
    · exact Desc.self
    · cases hp : s.parent m with
      | none => simp [hp] at h
      | some p =>
        simp only [hp] at h
        exact Desc.step hm hp (desc_of_reaches hlive f p (hlive m p hm hp) h)

/-- In a well-formed heap `inSubtree` is the descendant relation. -/
theorem inSubtree_iff {s : Heap} (h : WF s) {n m : Nat} (hn : s.live n = true) :
    inSubtree s n m = true ↔ Desc s n m := by
  unfold inSubtree
  rw [Bool.and_eq_true]
  constructor
  · rintro ⟨hm, hr⟩
    exact desc_of_reaches h.treeInv.parent_live _ m hm hr
  · intro hd
    have hm := hd.liveDesc hn
    obtain ⟨k, hk⟩ := Option.isSome_iff_exists.mp (h.acyclic m (Heap.live_lt hm) hm)
    exact ⟨hm, reaches_of_desc _ m k hk hd⟩

/-- The cascade in a well-formed heap: with enough fuel `delete n` returns; the result is well
formed, and exactly the subtree of `n` was destroyed, each object once. -/
theorem destroy_wf {s : Heap} {n : Nat} (h : WF s) (hn : s.live n = true) :
    ∃ F s', (∀ f, F ≤ f → QObject.destroy f s n = some s') ∧ WF s' ∧
      Swept s s' [] (fun m => inSubtree s n m = true) ∧
      (∀ q, s'.live q = true → children s' q = (children s q).erase n) := by
  have hR := h.acyclic.ranked
  obtain ⟨F, s', hrun, hsw, hkids⟩ := destroy_spec _ _ s [] n (Nat.lt_succ_self _) hR h.treeInv
    h.weakInv hn (by simp) (by simp)
  refine ⟨F, s', hrun, ?_, hsw.congrSwept (fun m => (inSubtree_iff h hn).symm), hkids⟩
  refine WF.of_inv hsw.tree hsw.weak
    (hR.mono hsw.parent (fun x hx => ((hsw.live x).mp hx).1)) ?_
  obtain ⟨h1, h2, h3⟩ := h.handles
  have hc := hsw.cellSame
  refine ⟨?_, ?_, ?_⟩
  · intro p hp k hk
    rw [hsw.nptrs] at hp; rw [hsw.d] at hk; rw [hc]
    exact h1 p hp k hk
  · intro p hp q hq k hk hk'
    rw [hsw.nptrs] at hp hq; rw [hsw.d] at hk hk'
    exact h2 p hp q hq k hk hk'
  · intro k hk hkc
    rw [hsw.nslots] at hk; rw [hc] at hkc; rw [hsw.nptrs, hsw.d]
    exact h3 k hk hkc


/-! ## Destruction -/

theorem get_eq_some_iff {s : Heap} {h : Nat} {x : Nat} :
    QPointer.get s h = some (some x) ↔
      h < s.nptrs ∧ ∃ k, s.d h = some k ∧ s.cell k = true ∧ s.object k = some x := by
  unfold QPointer.get Heap.rdd
  by_cases hh : h < s.nptrs
  · simp only [hh, if_true, Option.bind_eq_bind, Option.some_bind, true_and]
    cases hd : s.d h with
    | none => simp
    | some k =>
      simp only [Heap.rdc, Option.some.injEq, exists_eq_left']
      by_cases hk : s.cell k = true
      · simp [hk]
      · simp [hk]
  · simp [hh]

/-- After the cascade no handle observes a destroyed object. -/
theorem get_after_destroy {s s' : Heap} {G : Nat → Prop} (hsw : Swept s s' [] G)
    {h x : Nat} (hget : QPointer.get s h = some (some x)) (hx : G x) :
    QPointer.get s' h = some none ∧ QPointer.isNull s' h = some true := by
  obtain ⟨hh, k, hd, hk, ho⟩ := get_eq_some_iff.mp hget
  have ho' : s'.object k = none := by
    cases hy : s'.object k with
    | none => rfl
    | some y =>
      obtain ⟨h1, h2⟩ := (hsw.object k y hk).mp hy
      rw [ho] at h1
      cases h1
      exact absurd hx h2
  have hk' : s'.cell k = true := by rw [hsw.cellSame]; exact hk
  have hget' : QPointer.get s' h = some none := by
    unfold QPointer.get Heap.rdd
    rw [hsw.nptrs, hsw.d]
    simp [hh, hd, Heap.rdc, hk', ho']
  exact ⟨hget', by simp [QPointer.isNull, hget']⟩

/-- A handle that observes an object outside the destroyed subtree still observes it. -/
theorem get_kept_after_destroy {s s' : Heap} {G : Nat → Prop} (hsw : Swept s s' [] G)
    {h x : Nat} (hget : QPointer.get s h = some (some x)) (hx : ¬ G x) :
    QPointer.get s' h = some (some x) := by
  obtain ⟨hh, k, hd, hk, ho⟩ := get_eq_some_iff.mp hget
  refine get_eq_some_iff.mpr ⟨by rw [hsw.nptrs]; exact hh, k, by rw [hsw.d]; exact hd,
    by rw [hsw.cellSame]; exact hk, (hsw.object k x hk).mpr ⟨ho, hx⟩⟩

/-- C1 (cascade).  In a well-formed heap, deleting a live object `n` returns, given enough fuel;
the destructor then ran for `n` and every descendant of `n`, once each, and for nothing else, and
exactly these objects were released. -/
theorem cascade_destroys_subtree_once (s : Heap) (n : Nat) (hwf : WF s)
    (hn : s.live n = true) :
    ∃ F s', (∀ f, F ≤ f → QObject.destroy f s n = some s') ∧
      (∃ L, s'.deleted = s.deleted ++ L ∧ L.Nodup ∧ ∀ m, m ∈ L ↔ inSubtree s n m = true) ∧
      (∀ m, s'.live m = true ↔ (s.live m = true ∧ inSubtree s n m = false)) := by
  obtain ⟨F, s', hrun, _, hsw, _⟩ := destroy_wf hwf hn
  refine ⟨F, s', hrun, hsw.deleted, ?_⟩
  intro m
  rw [hsw.live]
  simp

theorem cascade_destroys_subtree_once_witness :
    WF demo ∧ demo.live 1 = true ∧
    ∃ F s', (∀ f, F ≤ f → QObject.destroy f demo 1 = some s') ∧
      (∃ L, s'.deleted = demo.deleted ++ L ∧ L.Nodup ∧
        ∀ m, m ∈ L ↔ inSubtree demo 1 m = true) ∧
      (∀ m, s'.live m = true ↔ (demo.live m = true ∧ inSubtree demo 1 m = false)) :=
  ⟨by decide, by decide, cascade_destroys_subtree_once demo 1 (by decide) (by decide)⟩

/-- C2 (weak invalidation).  In a well-formed heap, when the handle `h` observes `x` and `x` is
`n` or a descendant of `n`, then right after `delete n` the handle, whose field `d` was not
touched, is null. -/
theorem weak_invalidation (s : Heap) (n h x : Nat) (hwf : WF s) (hn : s.live n = true)
    (hget : QPointer.get s h = some (some x)) (hx : inSubtree s n x = true) :
    ∃ F s', (∀ f, F ≤ f → QObject.destroy f s n = some s') ∧
      s'.d h = s.d h ∧ QPointer.get s' h = some none ∧ QPointer.isNull s' h = some true := by
  obtain ⟨F, s', hrun, _, hsw, _⟩ := destroy_wf hwf hn
  obtain ⟨h1, h2⟩ := get_after_destroy hsw hget hx
  exact ⟨F, s', hrun, by rw [hsw.d], h1, h2⟩

theorem weak_invalidation_witness :
    WF demo ∧ demo.live 1 = true ∧ QPointer.get demo 2 = some (some 2) ∧
    inSubtree demo 1 2 = true ∧
    ∃ F s', (∀ f, F ≤ f → QObject.destroy f demo 1 = some s') ∧
      s'.d 2 = demo.d 2 ∧ QPointer.get s' 2 = some none ∧
      QPointer.isNull s' 2 = some true :=
  ⟨by decide, by decide, by decide, by decide,
    weak_invalidation demo 1 2 2 (by decide) (by decide) (by decide) (by decide)⟩

/-- In a well linked tree `hasChildren` tells whether the children list is non-empty. -/
theorem hasChildren_eq {s : Heap} {D : List Nat} (hT : TreeInv s D) {p : Nat}
    (hp : s.live p = true) :
    QObject.hasChildren s p = some (decide (children s p ≠ [])) := by
  have hcur := Chain.cur_eq (hT.chains p hp).1
  unfold QObject.hasChildren
  simp only [Option.bind_eq_bind, Heap.rd_live _ hp, Option.some_bind, hcur]
  cases children s p <;> simp

/-- A parent is not in the subtree of its child. -/
theorem parent_not_inSubtree {s : Heap} (hwf : WF s) {c p : Nat} (hc : s.live c = true)
    (hp : s.parent c = some p) : inSubtree s c p = false := by
  cases h : inSubtree s c p with
  | false => rfl
  | true =>
    have hd := (inSubtree_iff hwf hc).mp h
    obtain ⟨r, hR⟩ : ∃ r, Ranked s r := ⟨_, hwf.acyclic.ranked⟩
    have h1 := (Desc.rank_le hR hd).1
    have h2 := hR c p hc hp
    omega

/-- C6 (direct destruction of a child).  In a well-formed heap, deleting a live object `c` whose
parent is `p` returns, given enough fuel; `p` is still live, its children list is the previous
one without `c`, the others in their previous order, and `hasChildren` is true exactly when that
list is non-empty, so it is false when `c` was the only child. -/
theorem direct_child_destruction (s : Heap) (c p : Nat) (hwf : WF s) (hc : s.live c = true)
    (hp : s.parent c = some p) :
    ∃ F s', (∀ f, F ≤ f → QObject.destroy f s c = some s') ∧
      s'.live p = true ∧ p ∉ s'.deleted.drop s.deleted.length ∧
      children s' p = (children s p).erase c ∧ c ∉ children s' p ∧
      QObject.hasChildren s' p = some (decide (children s' p ≠ [])) ∧
      (children s p = [c] → QObject.hasChildren s' p = some false) := by
  obtain ⟨F, s', hrun, hwf', hsw, hkids⟩ := destroy_wf hwf hc
  have hpl : s.live p = true := (hwf.treeInv.member c p hc (by simp) hp).1
  have hnot := parent_not_inSubtree hwf hc hp
  have hpl' : s'.live p = true := (hsw.live p).mpr ⟨hpl, by simp [hnot]⟩
  have hnd := (hwf.treeInv.chains p hpl).2
  have hhas := hasChildren_eq hwf'.treeInv hpl'
  refine ⟨F, s', hrun, hpl', ?_, hkids p hpl', ?_, hhas, ?_⟩
  · obtain ⟨L, hL, _, hmem⟩ := hsw.deleted
    rw [hL, List.drop_left]
    intro h
    have := (hmem p).mp h
    rw [hnot] at this
    cases this
  · rw [hkids p hpl']
    exact List.Nodup.not_mem_erase hnd
  · intro h
    rw [hhas, hkids p hpl', h]
    simp

theorem direct_child_destruction_witness :
    WF demo ∧ demo.live 4 = true ∧ demo.parent 4 = some 0 ∧
    ∃ F s', (∀ f, F ≤ f → QObject.destroy f demo 4 = some s') ∧
      s'.live 0 = true ∧ 0 ∉ s'.deleted.drop demo.deleted.length ∧
      children s' 0 = (children demo 0).erase 4 ∧ 4 ∉ children s' 0 ∧
      QObject.hasChildren s' 0 = some (decide (children s' 0 ≠ [])) ∧
      (children demo 0 = [4] → QObject.hasChildren s' 0 = some false) :=
  ⟨by decide, by decide, by decide,
    direct_child_destruction demo 4 0 (by decide) (by decide) (by decide)⟩


/-! ## Attaching a child -/

/-- What `addChild` does, field by field. -/
theorem QObject.addChild_eq {s : Heap} {p c : Nat} (hp : s.live p = true)
    (hc : s.live c = true) (hcp : s.parent c = some p)
    (hh : ∀ q, s.childrenHead p = some q → s.live q = true) :
    QObject.addChild s p c = some (linkChild s p c) := by
  obtain ⟨hp₁, hp₂⟩ := Heap.live_iff.mp hp
  obtain ⟨hc₁, hc₂⟩ := Heap.live_iff.mp hc
  unfold QObject.addChild linkChild pushPrev
  cases hq : s.childrenHead p with
  | none =>
    simp only [Option.bind_eq_bind, Heap.rd_eq, Heap.wrHead_eq', Heap.wrNext_eq',
      Option.some_bind, hp₁, hp₂, hc₁, hc₂, hq, hcp, ne_eq, not_true_eq_false, if_false]
  | some q =>
    obtain ⟨hq₁, hq₂⟩ := Heap.live_iff.mp (hh q hq)
    simp only [Option.bind_eq_bind, Heap.rd_eq, Heap.wrHead_eq', Heap.wrNext_eq',
      Heap.wrPrev_eq', Option.some_bind, hp₁, hp₂, hc₁, hc₂, hq, hcp, ne_eq,
      not_true_eq_false, if_false, hq₁, hq₂]

/-- Writing the parent field of an exempt object keeps the tree invariant. -/
theorem withParent_inv {s : Heap} {D : List Nat} {c : Nat} (v : Option Nat)
    (hT : TreeInv s (c :: D)) (hlinks : s.prevSibling c = none ∧ s.nextSibling c = none) :
    TreeInv (withParent s c v) (c :: D) := by
  have hch : children (withParent s c v) = children s := children_congr rfl rfl rfl
  have hout : ∀ q, s.live q = true → c ∉ children s q :=
    (hT.exempt c (List.mem_cons_self _ _)).2
  constructor
  · intro q hq
    have hq' : s.live q = true := hq
    obtain ⟨h1, h2⟩ := hT.chains q hq'
    rw [hch]
    refine ⟨Chain.frame h1 ?_ (fun _ _ => rfl) (fun _ _ => rfl), h2⟩
    intro x hx hok
    refine ⟨hok.1, ?_⟩
    show upd s.parent c v x = some q
    have hxc : x ≠ c := fun e => hout q hq' (e ▸ hx)
    rw [upd_ne _ _ hxc]
    exact hok.2
  · intro x q hx hxD hxq
    have hxc : x ≠ c := fun e => hxD (by simp [e])
    have hxq' : s.parent x = some q := by
      have : upd s.parent c v x = some q := hxq
      rwa [upd_ne _ _ hxc] at this
    rw [hch]
    exact hT.member x q hx hxD hxq'
  · intro x hx
    rw [hch]
    exact hT.exempt x hx
  · intro x hx hxp
    by_cases hxc : x = c
    · subst hxc; exact hlinks
    · have hxp' : s.parent x = none := by
        have : upd s.parent c v x = none := hxp
        rwa [upd_ne _ _ hxc] at this
      exact hT.roots x hx hxp'

theorem linkChild_head (s : Heap) (p c : Nat) :
    (linkChild s p c).childrenHead p = some c := upd_same _ _ _

/-- The children lists after an exempt object is attached. -/
theorem linkChild_chains {s : Heap} {D : List Nat} {p c : Nat} (hT : TreeInv s (c :: D))
    (hcp : s.parent c = some p) (hp : s.live p = true)
    (hprev : s.prevSibling c = none) (q : Nat) (hq : s.live q = true) :
    Linked (linkChild s p c) q (if q = p then c :: children s q else children s q) := by
  have hc : s.live c = true := (hT.exempt c (List.mem_cons_self _ _)).1
  have hout : ∀ q, s.live q = true → c ∉ children s q :=
    (hT.exempt c (List.mem_cons_self _ _)).2
  obtain ⟨hchq, hndq⟩ := hT.chains q hq
  by_cases hqp : q = p
  · subst hqp
    simp only [if_true]
    unfold Linked
    rw [linkChild_head]
    refine Chain.push hchq hndq (hout q hq) ⟨hc, hcp⟩ hprev (upd_same _ _ _)
      (fun x _ h => h) ?_
    intro x hx
    exact upd_ne _ _ (fun e => hout q hq (e ▸ hx))
  · simp only [hqp, if_false]
    unfold Linked
    have hhead : (linkChild s p c).childrenHead q = s.childrenHead q := upd_ne _ _ hqp
    rw [hhead]
    refine Chain.frame hchq (fun x _ h => h) ?_ ?_
    · intro x hx
      show pushPrev s.prevSibling (s.childrenHead p) c x = _
      rw [pushPrev_apply]
      have : s.childrenHead p ≠ some x := by
        intro e
        have h1 := Chain.cur_eq (hT.chains p hp).1
        rw [e] at h1
        have h2 := ((hT.chains p hp).1.live_of_mem x (List.mem_of_mem_head? h1.symm)).2
        have h3 := (hchq.live_of_mem x hx).2
        rw [h3] at h2
        exact hqp (Option.some.inj h2)
      simp [this]
    · intro x hx
      exact upd_ne _ _ (fun e => hout q hq (e ▸ hx))

theorem linkChild_children {s : Heap} {D : List Nat} {p c : Nat} (hT : TreeInv s (c :: D))
    (hcp : s.parent c = some p) (hp : s.live p = true)
    (hprev : s.prevSibling c = none) (q : Nat) (hq : s.live q = true) :
    children (linkChild s p c) q = if q = p then c :: children s q else children s q := by
  refine children_eq_of_linked (linkChild_chains hT hcp hp hprev q hq) ?_
  have hout := (hT.exempt c (List.mem_cons_self _ _)).2 q hq
  by_cases hqp : q = p
  · simp only [hqp, if_true]
    rw [hqp] at hout
    exact List.nodup_cons.mpr ⟨hout, (hT.chains p hp).2⟩
  · simp only [hqp, if_false]
    exact (hT.chains q hq).2

/-- Attaching the exempt object `c` to its parent restores the tree invariant. -/
theorem linkChild_inv {s : Heap} {D : List Nat} {p c : Nat} (hT : TreeInv s (c :: D))
    (hcD : c ∉ D) (hcp : s.parent c = some p) (hp : s.live p = true)
    (hprev : s.prevSibling c = none) : TreeInv (linkChild s p c) D := by
  have hc : s.live c = true := (hT.exempt c (List.mem_cons_self _ _)).1
  have hkids := linkChild_children hT hcp hp hprev
  constructor
  · intro q hq
    have hq' : s.live q = true := hq
    refine ⟨?_, ?_⟩
    · rw [hkids q hq']
      exact linkChild_chains hT hcp hp hprev q hq'
    · rw [hkids q hq']
      have hout := (hT.exempt c (List.mem_cons_self _ _)).2 q hq'
      by_cases hqp : q = p
      · simp only [hqp, if_true]
        rw [hqp] at hout
        exact List.nodup_cons.mpr ⟨hout, (hT.chains p hp).2⟩
      · simp only [hqp, if_false]
        exact (hT.chains q hq').2
  · intro x q hx hxD hxq
    have hx' : s.live x = true := hx
    have hxq' : s.parent x = some q := hxq
    by_cases hxc : x = c
    · subst hxc
      rw [hcp] at hxq'
      cases hxq'
      refine ⟨hp, ?_⟩
      rw [hkids _ hp]
      simp
    · obtain ⟨hql, hm⟩ := hT.member x q hx' (by
        intro e
        rcases List.mem_cons.mp e with e | e
        · exact hxc e
        · exact hxD e) hxq'
      refine ⟨hql, ?_⟩
      rw [hkids q hql]
      by_cases hqp : q = p
      · simp only [hqp, if_true]
        exact List.mem_cons_of_mem _ (hqp ▸ hm)
      · simp only [hqp, if_false]
        exact hm
  · intro x hx
    obtain ⟨hxl, hxn⟩ := hT.exempt x (List.mem_cons_of_mem _ hx)
    refine ⟨hxl, ?_⟩
    intro q hq
    have hq' : s.live q = true := hq
    rw [hkids q hq']
    have hxc : x ≠ c := fun e => hcD (e ▸ hx)
    by_cases hqp : q = p
    · simp only [hqp, if_true, List.mem_cons, not_or]
      exact ⟨hxc, hqp ▸ hxn q hq'⟩
    · simp only [hqp, if_false]
      exact hxn q hq'
  · intro x hx hxp
    have hx' : s.live x = true := hx
    have hxp' : s.parent x = none := hxp
    have hxc : x ≠ c := by
      intro e; subst e; rw [hcp] at hxp'; cases hxp'
    obtain ⟨h1, h2⟩ := hT.roots x hx' hxp'
    constructor
    · show pushPrev s.prevSibling (s.childrenHead p) c x = _
      rw [pushPrev_apply]
      have : s.childrenHead p ≠ some x := by
        intro e
        have h1 := Chain.cur_eq (hT.chains p hp).1
        rw [e] at h1
        have h2 := ((hT.chains p hp).1.live_of_mem x (List.mem_of_mem_head? h1.symm)).2
        rw [hxp'] at h2
        cases h2
      simp [this, h1]
    · show upd s.nextSibling c (s.childrenHead p) x = _
      rw [upd_ne _ _ hxc]
      exact h2

/-! ## Reparenting -/

/-- A rank for the heap in which `c` got the new parent `p₂`, which is not below `c`. -/
theorem Ranked.reparent {s : Heap} {r : Nat → Nat} (hR : Ranked s r) {c p₂ : Nat}
    (hno : ¬ Desc s c p₂) :
    ∃ r', Ranked (withParent s c (some p₂)) r' := by
  classical
  refine ⟨fun m => if Desc s c m then r m else r m + (r c + 1), ?_⟩
  intro x q hx hxq
  have hx' : s.live x = true := hx
  by_cases hxc : x = c
  · subst hxc
    have : upd s.parent x (some p₂) x = some q := hxq
    rw [upd_same] at this
    cases this
    simp only [Desc.self, if_true, hno, if_false]
    omega
  · have hxq' : s.parent x = some q := by
      have : upd s.parent c (some p₂) x = some q := hxq
      rwa [upd_ne _ _ hxc] at this
    have hlt := hR x q hx' hxq'
    by_cases hdq : Desc s c q
    · have hdx : Desc s c x := Desc.step hx' hxq' hdq
      simp only [hdq, hdx, if_true]
      exact hlt
    · by_cases hdx : Desc s c x
      · simp only [hdq, hdx, if_true, if_false]
        omega
      · simp only [hdq, hdx, if_false]
        omega

/-- A path in the heap in which `c` got a new parent either avoids `c`, or starts below `c`. -/
theorem Desc.of_withParent {s : Heap} {c : Nat} {v : Option Nat} {a m : Nat}
    (h : Desc (withParent s c v) a m) : Desc s a m ∨ Desc s c m := by
  induction h with
  | self => exact Or.inl Desc.self
  | @step x q hl hp _ ih =>
    by_cases hxc : x = c
    · subst hxc; exact Or.inr Desc.self
    · have hp' : s.parent x = some q := by
        have : upd s.parent c v x = some q := hp
        rwa [upd_ne _ _ hxc] at this
      rcases ih with h | h
      · exact Or.inl (Desc.step hl hp' h)
      · exact Or.inr (Desc.step hl hp' h)

/-- What `setParent` does to a child of `p₁` that gets the different live parent `p₂`: it
returns, and the tree invariant holds again. -/
theorem setParent_spec {s : Heap} (hT : TreeInv s []) {c p₁ p₂ : Nat}
    (hc : s.live c = true) (hp₁ : s.parent c = some p₁) (hp₂ : s.live p₂ = true)
    (hne : p₁ ≠ p₂) :
    ∃ s', QObject.setParent s c (some p₂) = some s' ∧ TreeInv s' [] ∧
      s'.parent = upd s.parent c (some p₂) ∧ SameAlloc s s' ∧ SameReg s s' ∧
      s'.deleted = s.deleted ∧
      ∀ q, s.live q = true →
        children s' q = if q = p₂ then c :: (children s q).erase c
          else (children s q).erase c := by
  have hT₁ := unlinkChild_inv hT hc (by simp) hp₁
  have hk₁ := unlinkChild_children hT hc (by simp) hp₁
  have hprev₁ : (unlinkChild s p₁ c).prevSibling c = none := by
    show unlinkPrev s.nextSibling s.prevSibling c c = none
    rw [unlinkPrev_apply]; simp
  have hnext₁ : (unlinkChild s p₁ c).nextSibling c = none := by
    show unlinkNext s.nextSibling s.prevSibling c c = none
    rw [unlinkNext_apply]; simp
  have hT₂ := withParent_inv (some p₂) hT₁ ⟨hprev₁, hnext₁⟩
  have hcp₂ : (withParent (unlinkChild s p₁ c) c (some p₂)).parent c = some p₂ :=
    upd_same _ _ _
  have hT₃ := linkChild_inv hT₂ (by simp) hcp₂ hp₂ hprev₁
  have hk₃ := linkChild_children hT₂ hcp₂ hp₂ hprev₁
  refine ⟨_, ?_, hT₃, rfl, ⟨rfl, rfl, rfl, rfl, rfl, rfl⟩, ⟨rfl, rfl, rfl, rfl⟩, rfl, ?_⟩
  · unfold QObject.setParent
    have hne' : ¬ (some p₁ = some p₂) := fun e => hne (Option.some.inj e)
    simp only [Option.bind_eq_bind, Heap.rd_live _ hc, Option.some_bind, hp₁, hne',
      if_false, removeChild_ok hT hc (by simp) hp₁]
    have hc₁ : (unlinkChild s p₁ c).live c = true := hc
    rw [Heap.wrParent_eq _ hc₁]
    simp only [Option.some_bind]
    refine QObject.addChild_eq hp₂ hc hcp₂ ?_
    intro q hq
    have hq' : (withParent (unlinkChild s p₁ c) c (some p₂)).childrenHead p₂ = some q := hq
    have h1 := Chain.cur_eq (hT₂.chains p₂ hp₂).1
    rw [hq'] at h1
    exact ((hT₂.chains p₂ hp₂).1.live_of_mem q (List.mem_of_mem_head? h1.symm)).1
  · intro q hq
    have hq₂ : (withParent (unlinkChild s p₁ c) c (some p₂)).live q = true := hq
    rw [hk₃ q hq₂]
    have : children (withParent (unlinkChild s p₁ c) c (some p₂)) q
        = (children s q).erase c := by
      rw [← hk₁ q hq]
      exact congrFun (children_congr rfl rfl rfl) q
    rw [this]

/-- Reparenting to an object that is not below the child keeps the heap well formed. -/
theorem setParent_wf {s : Heap} (hwf : WF s) {c p₁ p₂ : Nat}
    (hc : s.live c = true) (hp₁ : s.parent c = some p₁) (hp₂ : s.live p₂ = true)
    (hne : p₁ ≠ p₂) (hno : inSubtree s c p₂ = false) :
    ∃ s', QObject.setParent s c (some p₂) = some s' ∧ WF s' ∧
      s'.parent = upd s.parent c (some p₂) ∧ SameAlloc s s' ∧ SameReg s s' ∧
      s'.deleted = s.deleted ∧
      ∀ q, s.live q = true →
        children s' q = if q = p₂ then c :: (children s q).erase c
          else (children s q).erase c := by
  obtain ⟨s', hrun, hT', hp', hA, hG, hd, hk⟩ := setParent_spec hwf.treeInv hc hp₁ hp₂ hne
  refine ⟨s', hrun, ?_, hp', hA, hG, hd, hk⟩
  have hnd : ¬ Desc s c p₂ := by
    intro h
    rw [(inSubtree_iff hwf hc).mpr h] at hno
    cases hno
  obtain ⟨r', hR'⟩ := hwf.acyclic.ranked.reparent hnd
  have hR'' : Ranked s' r' := by
    intro x q hx hxq
    have hx' : (withParent s c (some p₂)).live x = true := by
      have := hA.liveEq
      rw [this] at hx
      exact hx
    exact hR' x q hx' (by rw [hp'] at hxq; exact hxq)
  refine WF.of_inv hT' (hwf.weakInv.congrWeak hA.nobjs hA.objFreed hG.weak_pointers hA.nslots
    hA.slotFreed hG.object hG.next hG.prev) hR'' ?_
  obtain ⟨h1, h2, h3⟩ := hwf.handles
  have hcell := hA.cellEq
  refine ⟨?_, ?_, ?_⟩
  · intro p hp k hk'
    rw [hA.nptrs] at hp; rw [hA.d] at hk'; rw [hcell]
    exact h1 p hp k hk'
  · intro p hp q hq k hk' hk''
    rw [hA.nptrs] at hp hq; rw [hA.d] at hk' hk''
    exact h2 p hp q hq k hk' hk''
  · intro k hk' hkc
    rw [hA.nslots] at hk'; rw [hcell] at hkc; rw [hA.nptrs, hA.d]
    exact h3 k hk' hkc


/-! ## Reparenting -/

/-- C3 (reparenting).  In a well-formed heap, when the live object `c` has the parent `p₁` and
`p₂` is another live object, `c.setParent(p₂)` returns; afterwards `parent()` of `c` is `p₂`, the
children list of `p₁` is the previous one without `c`, and the children list of `p₂` is the
previous one with `c` put in front, so `c` is in the list of `p₂`, not in the list of `p₁`, and
every other child of either stays in its list. -/
theorem reparenting (s : Heap) (c p₁ p₂ : Nat) (hwf : WF s) (hc : s.live c = true)
    (hp₁ : s.parent c = some p₁) (hp₂ : s.live p₂ = true) (hne : p₁ ≠ p₂) :
    ∃ s', QObject.setParent s c (some p₂) = some s' ∧
      QObject.parentFn s' c = some (some p₂) ∧
      c ∉ children s' p₁ ∧ c ∈ children s' p₂ ∧
      children s' p₁ = (children s p₁).erase c ∧
      children s' p₂ = c :: children s p₂ ∧
      (∀ x, x ≠ c → (x ∈ children s' p₁ ↔ x ∈ children s p₁)) ∧
      (∀ x, x ≠ c → (x ∈ children s' p₂ ↔ x ∈ children s p₂)) := by
  obtain ⟨s', hrun, hT', hp', hA, _, _, hk⟩ := setParent_spec hwf.treeInv hc hp₁ hp₂ hne
  have hT := hwf.treeInv
  obtain ⟨hpl₁, hm₁⟩ := hT.member c p₁ hc (by simp) hp₁
  have hk₁ : children s' p₁ = (children s p₁).erase c := by
    rw [hk p₁ hpl₁]; simp [hne]
  have hnot₂ : c ∉ children s p₂ := by
    intro h
    have := ((hT.chains p₂ hp₂).1.live_of_mem c h).2
    rw [hp₁] at this
    exact hne (Option.some.inj this)
  have hk₂ : children s' p₂ = c :: children s p₂ := by
    rw [hk p₂ hp₂]; simp [List.erase_of_not_mem hnot₂]
  have hc' : s'.live c = true := by rw [hA.liveEq]; exact hc
  refine ⟨s', hrun, ?_, ?_, ?_, hk₁, hk₂, ?_, ?_⟩
  · unfold QObject.parentFn
    rw [Heap.rd_live _ hc', hp', upd_same]
  · rw [hk₁]
    exact List.Nodup.not_mem_erase (hT.chains p₁ hpl₁).2
  · rw [hk₂]; simp
  · intro x hx
    rw [hk₁]
    exact List.mem_erase_of_ne hx
  · intro x hx
    rw [hk₂]
    simp [hx]

theorem reparenting_witness :
    WF demo ∧ demo.live 2 = true ∧ demo.parent 2 = some 1 ∧ demo.live 0 = true ∧ 1 ≠ 0 ∧
    ∃ s', QObject.setParent demo 2 (some 0) = some s' ∧
      QObject.parentFn s' 2 = some (some 0) ∧
      2 ∉ children s' 1 ∧ 2 ∈ children s' 0 ∧
      children s' 1 = (children demo 1).erase 2 ∧
      children s' 0 = 2 :: children demo 0 ∧
      (∀ x, x ≠ 2 → (x ∈ children s' 1 ↔ x ∈ children demo 1)) ∧
      (∀ x, x ≠ 2 → (x ∈ children s' 0 ↔ x ∈ children demo 0)) :=
  ⟨by decide, by decide, by decide, by decide, by decide,
    reparenting demo 2 1 0 (by decide) (by decide) (by decide) (by decide) (by decide)⟩

/-! ### What a successful write leaves alone -/

theorem SameParents.rfl' (s : Heap) : SameParents s s := ⟨rfl, rfl, rfl⟩

theorem SameParents.comp {s s₁ s₂ : Heap} (h₁ : SameParents s s₁) (h₂ : SameParents s₁ s₂) :
    SameParents s s₂ :=
  ⟨h₂.1.trans h₁.1, h₂.2.1.trans h₁.2.1, h₂.2.2.trans h₁.2.2⟩

theorem SameParents.live_eq {s s' : Heap} (h : SameParents s s') : s'.live = s.live :=
  Heap.live_congr h.2.1 h.2.2

theorem wrHead_same {s s' : Heap} {n : Nat} {v : Option Nat}
    (h : s.wrHead n v = some s') : SameParents s s' := by
  unfold Heap.wrHead at h
  split at h
  · cases h; exact ⟨rfl, rfl, rfl⟩
  · cases h

theorem wrNext_same {s s' : Heap} {n : Nat} {v : Option Nat}
    (h : s.wrNext n v = some s') : SameParents s s' := by
  unfold Heap.wrNext at h
  split at h
  · cases h; exact ⟨rfl, rfl, rfl⟩
  · cases h

theorem wrPrev_same {s s' : Heap} {n : Nat} {v : Option Nat}
    (h : s.wrPrev n v = some s') : SameParents s s' := by
  unfold Heap.wrPrev at h
  split at h
  · cases h; exact ⟨rfl, rfl, rfl⟩
  · cases h

/-- A call of `removeChild` that returns leaves the parents and the set of objects alone. -/
theorem removeChild_same {s s' : Heap} {p c : Nat}
    (h : QObject.removeChild s p c = some s') : SameParents s s' := by
  unfold QObject.removeChild at h
  simp only [Option.bind_eq_bind, Option.bind_eq_some] at h
  obtain ⟨hd, _, cn, _, s₁, e₁, cp, _, cn₂, _, s₂, e₂, cn₃, _, cp₃, _, s₃, e₃, s₄, e₄, e₅⟩ := h
  have h₁ : SameParents s s₁ := by
    split at e₁
    · exact wrHead_same e₁
    · cases e₁; exact SameParents.rfl' s
  have h₂ : SameParents s₁ s₂ := by
    cases cp with
    | none => cases e₂; exact SameParents.rfl' s₁
    | some q => exact wrNext_same e₂
  have h₃ : SameParents s₂ s₃ := by
    cases cn₃ with
    | none => cases e₃; exact SameParents.rfl' s₂
    | some q => exact wrPrev_same e₃
  exact (((h₁.comp h₂).comp h₃).comp (wrNext_same e₄)).comp (wrPrev_same e₅)

/-- A call of `addChild` that returns leaves the parents and the set of objects alone. -/
theorem addChild_same {s s' : Heap} {p c : Nat}
    (h : QObject.addChild s p c = some s') : SameParents s s' := by
  unfold QObject.addChild at h
  simp only [Option.bind_eq_bind, Option.bind_eq_some] at h
  obtain ⟨cp, _, h⟩ := h
  split at h
  · cases h
  · simp only [Option.bind_eq_some] at h
    obtain ⟨hd, _, s₁, e₁, hd₂, _, s₂, e₂, e₃⟩ := h
    have h₂ : SameParents s₁ s₂ := by
      cases hd₂ with
      | none => cases e₂; exact SameParents.rfl' s₁
      | some q => exact wrPrev_same e₂
    exact ((wrNext_same e₁).comp h₂).comp (wrHead_same e₃)

/-- After a call of `setParent` that returns, the object is live and has the requested
parent. -/
theorem setParent_parent {s s' : Heap} {c : Nat} {v : Option Nat}
    (h : QObject.setParent s c v = some s') : s'.live c = true ∧ s'.parent c = v := by
  unfold QObject.setParent at h
  simp only [Option.bind_eq_bind, Option.bind_eq_some] at h
  obtain ⟨p, hp, h⟩ := h
  have hc : s.live c = true := by
    unfold Heap.rd at hp
    split at hp
    · assumption
    · cases hp
  rw [Heap.rd_live _ hc] at hp
  cases hp
  split at h
  · rename_i hpv
    cases h
    exact ⟨hc, hpv⟩
  · simp only [Option.bind_eq_some] at h
    obtain ⟨s₁, e₁, s₂, e₂, e₃⟩ := h
    have h₁ : SameParents s s₁ := by
      cases hq : s.parent c with
      | none => rw [hq] at e₁; cases e₁; exact SameParents.rfl' s
      | some q => rw [hq] at e₁; exact removeChild_same e₁
    have hc₁ : s₁.live c = true := by rw [h₁.live_eq]; exact hc
    rw [Heap.wrParent_eq _ hc₁] at e₂
    cases e₂
    have h₃ : SameParents ({ s₁ with parent := upd s₁.parent c v } : Heap) s' := by
      cases v with
      | none => cases e₃; exact SameParents.rfl' _
      | some q => exact addChild_same e₃
    refine ⟨?_, ?_⟩
    · rw [h₃.live_eq]; exact hc₁
    · rw [h₃.1]; exact upd_same _ _ _

/-- C4 (`setParent` on the current parent).  For every live object `c`, `c.setParent(v)` with
`v` the current parent of `c`, null included, returns the heap unchanged; and whenever a call
`c.setParent(v)` returns, a second call with the same argument returns the same heap. -/
theorem setParent_current_parent_noop (s : Heap) (c : Nat) (hc : s.live c = true) :
    QObject.setParent s c (s.parent c) = some s ∧
    ∀ v s', QObject.setParent s c v = some s' → QObject.setParent s' c v = some s' := by
  have key : ∀ (t : Heap), t.live c = true → QObject.setParent t c (t.parent c) = some t := by
    intro t ht
    unfold QObject.setParent
    simp only [Option.bind_eq_bind, Heap.rd_live _ ht, Option.some_bind, if_true]
  refine ⟨key s hc, ?_⟩
  intro v s' h
  obtain ⟨hc', hv⟩ := setParent_parent h
  have := key s' hc'
  rw [hv] at this
  exact this

theorem setParent_current_parent_noop_witness :
    demo.live 2 = true ∧
    (QObject.setParent demo 2 (demo.parent 2) = some demo ∧
    ∀ v s', QObject.setParent demo 2 v = some s' → QObject.setParent s' 2 v = some s') :=
  ⟨by decide, setParent_current_parent_noop demo 2 (by decide)⟩

/-! ### Ownership after reparenting -/

theorem get_congr {s s' : Heap} (hA : SameAlloc s s') (ho : s'.object = s.object) (h : Nat) :
    QPointer.get s' h = QPointer.get s h := by
  unfold QPointer.get Heap.rdd Heap.rdc
  rw [hA.nptrs, hA.d, hA.cellEq, ho]

theorem isNull_of_get {s : Heap} {h : Nat} {r : Option Nat}
    (hg : QPointer.get s h = some r) : QPointer.isNull s h = some (decide (r = none)) := by
  simp [QPointer.isNull, hg]

theorem Desc.to_withParent {s s' : Heap} {c : Nat} {v : Option Nat} {a m : Nat}
    (hl : s'.live = s.live) (hp : s'.parent = upd s.parent c v) (h : Desc s' a m) :
    Desc (withParent s c v) a m := by
  induction h with
  | self => exact Desc.self
  | step h₁ h₂ _ ih =>
    refine Desc.step ?_ ?_ ih
    · rw [hl] at h₁; exact h₁
    · rw [hp] at h₂; exact h₂

/-- After `c` moved from `p₁` to `p₂`, where `p₂` is outside the subtree of `p₁`, neither `c`
nor `p₂` is in the subtree of `p₁`. -/
theorem moved_out {s s' : Heap} (hwf : WF s) {c p₁ p₂ : Nat} (hc : s.live c = true)
    (hp₁ : s.parent c = some p₁) (hout : inSubtree s p₁ p₂ = false)
    (hl : s'.live = s.live) (hp : s'.parent = upd s.parent c (some p₂)) :
    ¬ Desc s c p₂ ∧ ¬ Desc s' p₁ p₂ ∧ ¬ Desc s' p₁ c := by
  have hpl₁ : s.live p₁ = true := (hwf.treeInv.member c p₁ hc (by simp) hp₁).1
  have hn₁ : ¬ Desc s p₁ p₂ := by
    intro h
    rw [(inSubtree_iff hwf hpl₁).mpr h] at hout
    cases hout
  have hn₂ : ¬ Desc s c p₂ := fun h => hn₁ (Desc.of_child hc hp₁ h)
  have hn₃ : ¬ Desc s' p₁ p₂ := by
    intro h
    rcases (h.to_withParent hl hp).of_withParent with h | h
    · exact hn₁ h
    · exact hn₂ h
  refine ⟨hn₂, hn₃, ?_⟩
  intro h
  cases h with
  | self =>
    obtain ⟨r, hR⟩ : ∃ r, Ranked s r := ⟨_, hwf.acyclic.ranked⟩
    have := hR c c hc hp₁
    omega
  | step _ hp' hd =>
    rw [hp, upd_same] at hp'
    cases hp'
    exact hn₃ hd

/-- C5, amended (ownership follows reparenting).  In a well-formed heap let `c` be a live child
of `p₁`, let `p₂` be a live object that is neither `p₁` nor a descendant of `p₁`, and let the
handle `h` observe `c`.  Then `c.setParent(p₂)` returns; deleting `p₁` next returns, leaves `c`
live with `h.isNull()` false; and deleting `p₂` after that returns, releases `c` and makes
`h.isNull()` true. -/
theorem ownership_follows_reparenting (s : Heap) (c p₁ p₂ h : Nat) (hwf : WF s)
    (hc : s.live c = true) (hp₁ : s.parent c = some p₁) (hp₂ : s.live p₂ = true)
    (hout : inSubtree s p₁ p₂ = false) (hget : QPointer.get s h = some (some c)) :
    ∃ s₁, QObject.setParent s c (some p₂) = some s₁ ∧
    ∃ F₁ s₂, (∀ f, F₁ ≤ f → QObject.destroy f s₁ p₁ = some s₂) ∧
      s₂.live c = true ∧ c ∉ s₂.deleted.drop s₁.deleted.length ∧
      QPointer.isNull s₂ h = some false ∧
    ∃ F₂ s₃, (∀ f, F₂ ≤ f → QObject.destroy f s₂ p₂ = some s₃) ∧
      s₃.live c = false ∧ c ∈ s₃.deleted.drop s₂.deleted.length ∧
      QPointer.isNull s₃ h = some true := by
  have hpl₁ : s.live p₁ = true := (hwf.treeInv.member c p₁ hc (by simp) hp₁).1
  have hne : p₁ ≠ p₂ := by
    intro e; subst e
    have : inSubtree s p₁ p₁ = true := (inSubtree_iff hwf hpl₁).mpr Desc.self
    rw [this] at hout; cases hout
  have hnot : inSubtree s c p₂ = false := by
    cases hx : inSubtree s c p₂ with
    | false => rfl
    | true =>
      have := Desc.of_child hc hp₁ ((inSubtree_iff hwf hc).mp hx)
      rw [(inSubtree_iff hwf hpl₁).mpr this] at hout
      cases hout
  -- the child moves
  obtain ⟨s₁, hrun₁, hwf₁, hpar₁, hA₁, hG₁, _, _⟩ := setParent_wf hwf hc hp₁ hp₂ hne hnot
  have hl₁ := hA₁.liveEq
  obtain ⟨_, hno₂, hnoc⟩ := moved_out hwf hc hp₁ hout hl₁ hpar₁
  have hget₁ : QPointer.get s₁ h = some (some c) := by
    rw [get_congr hA₁ hG₁.object]; exact hget
  have hpl₁' : s₁.live p₁ = true := by rw [hl₁]; exact hpl₁
  -- the old parent goes
  obtain ⟨F₁, s₂, hrun₂, hwf₂, hsw₂, _⟩ := destroy_wf hwf₁ hpl₁'
  have hin : ∀ m, inSubtree s₁ p₁ m = true ↔ Desc s₁ p₁ m := fun m => inSubtree_iff hwf₁ hpl₁'
  have hc₂ : s₂.live c = true :=
    (hsw₂.live c).mpr ⟨by rw [hl₁]; exact hc, fun e => hnoc ((hin c).mp e)⟩
  have hp₂' : s₂.live p₂ = true :=
    (hsw₂.live p₂).mpr ⟨by rw [hl₁]; exact hp₂, fun e => hno₂ ((hin p₂).mp e)⟩
  have hget₂ : QPointer.get s₂ h = some (some c) :=
    get_kept_after_destroy hsw₂ hget₁ (fun e => hnoc ((hin c).mp e))
  have hpar₂ : s₂.parent c = some p₂ := by rw [hsw₂.parent, hpar₁, upd_same]
  -- the new parent goes
  obtain ⟨F₂, s₃, hrun₃, _, hsw₃, _⟩ := destroy_wf hwf₂ hp₂'
  have hin₃ : inSubtree s₂ p₂ c = true :=
    (inSubtree_iff hwf₂ hp₂').mpr (Desc.step hc₂ hpar₂ Desc.self)
  refine ⟨s₁, hrun₁, F₁, s₂, hrun₂, hc₂, ?_, ?_, F₂, s₃, hrun₃, ?_, ?_, ?_⟩
  · obtain ⟨L, hL, _, hmem⟩ := hsw₂.deleted
    rw [hL, List.drop_left]
    exact fun e => hnoc ((hin c).mp ((hmem c).mp e))
  · rw [isNull_of_get hget₂]; rfl
  · cases hx : s₃.live c with
    | false => rfl
    | true => exact absurd hin₃ ((hsw₃.live c).mp hx).2
  · obtain ⟨L, hL, _, hmem⟩ := hsw₃.deleted
    rw [hL, List.drop_left]
    exact (hmem c).mpr hin₃
  · exact (get_after_destroy hsw₃ hget₂ hin₃).2

theorem ownership_follows_reparenting_witness :
    WF demo ∧ demo.live 2 = true ∧ demo.parent 2 = some 1 ∧ demo.live 4 = true ∧
    inSubtree demo 1 4 = false ∧ QPointer.get demo 1 = some (some 2) ∧
    ∃ s₁, QObject.setParent demo 2 (some 4) = some s₁ ∧
    ∃ F₁ s₂, (∀ f, F₁ ≤ f → QObject.destroy f s₁ 1 = some s₂) ∧
      s₂.live 2 = true ∧ 2 ∉ s₂.deleted.drop s₁.deleted.length ∧
      QPointer.isNull s₂ 1 = some false ∧
    ∃ F₂ s₃, (∀ f, F₂ ≤ f → QObject.destroy f s₂ 4 = some s₃) ∧
      s₃.live 2 = false ∧ 2 ∈ s₃.deleted.drop s₂.deleted.length ∧
      QPointer.isNull s₃ 1 = some true :=
  ⟨by decide, by decide, by decide, by decide, by decide, by decide,
    ownership_follows_reparenting demo 2 1 4 1 (by decide) (by decide) (by decide)
      (by decide) (by decide) (by decide)⟩

/-- C5 as stated fails when `P2` is a descendant of `P1`.  In the sample heap the distinct
objects `P1 = 0`, `P2 = 4`, `C = 1` have `C` and `P2` both children of `P1`, and the handle `0`
observes `C`.  After `C.setParent(P2)` the object `C` is in the subtree of `P1`, so deleting `P1`
releases `C` and makes the handle null, while the claim says `isNull()` is false at that
point. -/
theorem ownership_follows_reparenting_counterexample :
    WF demo ∧ demo.live 1 = true ∧ demo.parent 1 = some 0 ∧ demo.live 4 = true ∧
    (0 ≠ 4 ∧ 0 ≠ 1 ∧ 4 ≠ 1) ∧ QPointer.get demo 0 = some (some 1) ∧
    ∃ s₁ F s₂, QObject.setParent demo 1 (some 4) = some s₁ ∧
      (∀ f, F ≤ f → QObject.destroy f s₁ 0 = some s₂) ∧
      s₂.live 1 = false ∧ 1 ∈ s₂.deleted ∧ QPointer.isNull s₂ 0 = some true := by
  have hwf : WF demo := by decide
  refine ⟨hwf, by decide, by decide, by decide, by decide, by decide, ?_⟩
  obtain ⟨s₁, hrun₁, hwf₁, hpar₁, hA₁, hG₁, _, _⟩ :=
    setParent_wf (c := 1) (s := demo) hwf (by decide) (show demo.parent 1 = some 0 by decide)
      (show demo.live 4 = true by decide) (by decide) (by decide)
  have hl₁ := hA₁.liveEq
  have h0 : s₁.live 0 = true := by rw [hl₁]; decide
  have h1 : s₁.live 1 = true := by rw [hl₁]; decide
  have h4 : s₁.live 4 = true := by rw [hl₁]; decide
  have hp1 : s₁.parent 1 = some 4 := by rw [hpar₁]; decide
  have hp4 : s₁.parent 4 = some 0 := by rw [hpar₁]; decide
  have hget₁ : QPointer.get s₁ 0 = some (some 1) := by
    rw [get_congr hA₁ hG₁.object]; decide
  obtain ⟨F, s₂, hrun₂, _, hsw₂, _⟩ := destroy_wf hwf₁ h0
  have hin : inSubtree s₁ 0 1 = true :=
    (inSubtree_iff hwf₁ h0).mpr (Desc.step h1 hp1 (Desc.step h4 hp4 Desc.self))
  refine ⟨s₁, F, s₂, hrun₁, hrun₂, ?_, ?_, (get_after_destroy hsw₂ hget₁ hin).2⟩
  · cases hx : s₂.live 1 with
    | false => rfl
    | true => exact absurd hin ((hsw₂.live 1).mp hx).2
  · obtain ⟨L, hL, _, hmem⟩ := hsw₂.deleted
    rw [hL]
    exact List.mem_append_right _ ((hmem 1).mpr hin)


/-! ## The weak cell registry -/

/-- What `addWeakPointer` does for an empty handle, field by field. -/
theorem QObjectPrivate.addWeakPointer_eq {s : Heap} {n h : Nat} (hn : s.live n = true)
    (hh : h < s.nptrs) (hd : s.d h = none)
    (hw : ∀ q, s.weak_pointers n = some q → s.cell q = true) :
    QObjectPrivate.addWeakPointer s n h = some (pushCell s n h) := by
  obtain ⟨hn₁, hn₂⟩ := Heap.live_iff.mp hn
  unfold QObjectPrivate.addWeakPointer pushCell pushPrev Heap.newSlot
  have hk₁ : s.nslots < s.nslots + 1 := Nat.lt_succ_self _
  cases hq : s.weak_pointers n with
  | none =>
    simp only [Option.bind_eq_bind, Heap.rdd_eq, Heap.rd_eq, Heap.wrD_eq, Heap.wrWPrev_eq',
      Heap.wrWNext_eq', Heap.wrWeak_eq', Heap.wrObject_eq', Option.some_bind, hh, hd, hn₁,
      hn₂, hq, hk₁, upd_same, upd_upd]
  | some q =>
    obtain ⟨hq₁, hq₂⟩ := Heap.cell_iff.mp (hw q hq)
    have hq₃ : q < s.nslots + 1 := by omega
    have hq₄ : upd s.slotFreed s.nslots false q = false := by
      rw [upd_ne _ _ (by omega)]; exact hq₂
    simp only [Option.bind_eq_bind, Heap.rdd_eq, Heap.rd_eq, Heap.wrD_eq, Heap.wrWPrev_eq',
      Heap.wrWNext_eq', Heap.wrWeak_eq', Heap.wrObject_eq', Option.some_bind, hh, hd, hn₁,
      hn₂, hq, hk₁, upd_same, upd_upd, hq₃, hq₄]

/-- What `removeWeakPointer` does for a handle whose cell observes `n`, field by field. -/
theorem QObjectPrivate.removeWeakPointer_eq {s : Heap} {n h k : Nat} (this : Nat)
    (hh : h < s.nptrs) (hd : s.d h = some k) (hk : s.cell k = true)
    (ho : s.object k = some n) (hn : s.live n = true)
    (hprev : ∀ q, s.prev k = some q → s.cell q = true)
    (hnext : ∀ q, s.next k = some q → s.cell q = true) :
    QObjectPrivate.removeWeakPointer s this h = some (dropCell s n h k) := by
  obtain ⟨hn₁, hn₂⟩ := Heap.live_iff.mp hn
  obtain ⟨hk₁, hk₂⟩ := Heap.cell_iff.mp hk
  unfold QObjectPrivate.removeWeakPointer dropCell
  cases hq : s.prev k with
  | none =>
    cases hr : s.next k with
    | none =>
      simp only [Option.bind_eq_bind, Heap.rdd_eq, Heap.rdc_eq, Heap.wrD_eq, Heap.wrWPrev_eq',
        Heap.wrWNext_eq', Heap.wrWeak_eq', Heap.wrObject_eq', Heap.freeSlot_eq',
        Option.some_bind, hh, hd, hk₁, hk₂, hn₁, hn₂, ho, hq, hr]
    | some r =>
      obtain ⟨hr₁, hr₂⟩ := Heap.cell_iff.mp (hnext r hr)
      simp only [Option.bind_eq_bind, Heap.rdd_eq, Heap.rdc_eq, Heap.wrD_eq, Heap.wrWPrev_eq',
        Heap.wrWNext_eq', Heap.wrWeak_eq', Heap.wrObject_eq', Heap.freeSlot_eq',
        Option.some_bind, hh, hd, hk₁, hk₂, hn₁, hn₂, ho, hq, hr, hr₁, hr₂]
  | some q =>
    obtain ⟨hq₁, hq₂⟩ := Heap.cell_iff.mp (hprev q hq)
    cases hr : s.next k with
    | none =>
      have e : upd s.next q none k = none := by
        rw [← hr]; exact upd_val_self _ _ _
      simp only [Option.bind_eq_bind, Heap.rdd_eq, Heap.rdc_eq, Heap.wrD_eq, Heap.wrWPrev_eq',
        Heap.wrWNext_eq', Heap.wrWeak_eq', Heap.wrObject_eq', Heap.freeSlot_eq',
        Option.some_bind, hh, hd, hk₁, hk₂, hn₁, hn₂, ho, hq, hr, hq₁, hq₂, e]
    | some r =>
      have e : upd s.next q (some r) k = some r := by
        rw [← hr]; exact upd_val_self _ _ _
      obtain ⟨hr₁, hr₂⟩ := Heap.cell_iff.mp (hnext r hr)
      simp only [Option.bind_eq_bind, Heap.rdd_eq, Heap.rdc_eq, Heap.wrD_eq, Heap.wrWPrev_eq',
        Heap.wrWNext_eq', Heap.wrWeak_eq', Heap.wrObject_eq', Heap.freeSlot_eq',
        Option.some_bind, hh, hd, hk₁, hk₂, hn₁, hn₂, ho, hq, hr, hq₁, hq₂, hr₁, hr₂, e]

theorem pushCell_cell {s : Heap} {n h x : Nat} (hx : s.cell x = true) :
    (pushCell s n h).cell x = true := by
  obtain ⟨h1, h2⟩ := Heap.cell_iff.mp hx
  refine Heap.cell_iff.mpr ⟨?_, ?_⟩
  · show x < s.nslots + 1
    omega
  · show upd s.slotFreed s.nslots false x = false
    rw [upd_ne _ _ (by omega)]; exact h2

theorem pushCell_cell_iff {s : Heap} {n h x : Nat} :
    (pushCell s n h).cell x = true ↔ (s.cell x = true ∨ x = s.nslots) := by
  constructor
  · intro hx
    obtain ⟨h1, h2⟩ := Heap.cell_iff.mp hx
    have h1' : x < s.nslots + 1 := h1
    have h2' : upd s.slotFreed s.nslots false x = false := h2
    by_cases hxk : x = s.nslots
    · exact Or.inr hxk
    · rw [upd_ne _ _ hxk] at h2'
      exact Or.inl (Heap.cell_iff.mpr ⟨by omega, h2'⟩)
  · rintro (hx | rfl)
    · exact pushCell_cell hx
    · refine Heap.cell_iff.mpr ⟨Nat.lt_succ_self _, ?_⟩
      show upd s.slotFreed s.nslots false s.nslots = false
      exact upd_same _ _ _

/-- The weak-slot lists after a new cell is registered with `n`. -/
theorem pushCell_chains {s : Heap} (hW : WeakInv s) {n h : Nat} (hn : s.live n = true)
    (m : Nat) (hm : s.live m = true) :
    WLinked (pushCell s n h) m (if m = n then s.nslots :: weakSlots s m else weakSlots s m) := by
  obtain ⟨hch, hnd⟩ := hW.chains m hm
  have hfresh : ∀ q, s.live q = true → s.nslots ∉ weakSlots s q := by
    intro q hq hx
    have := Heap.cell_lt ((hW.chains q hq).1.cell_of_mem _ hx).1
    omega
  by_cases hmn : m = n
  · subst hmn
    simp only [if_true]
    unfold WLinked
    have hhead : (pushCell s m h).weak_pointers m = some s.nslots := upd_same _ _ _
    rw [hhead]
    have hch' : Chain (fun k => s.cell k = true ∧ s.object k = some m)
        (upd s.prev s.nslots none) s.next none (s.weak_pointers m) (weakSlots s m) :=
      Chain.frame hch (fun _ _ hx => hx)
        (fun x hx => upd_ne _ _ (fun e => hfresh m hm (e ▸ hx))) (fun _ _ => rfl)
    refine Chain.push hch' hnd (hfresh m hm) ⟨pushCell_cell_iff.mpr (Or.inr rfl), upd_same _ _ _⟩
      (upd_same _ _ _) (upd_same _ _ _) ?_ ?_
    · intro x hx hok
      have hxk : x ≠ s.nslots := fun e => hfresh m hm (e ▸ hx)
      refine ⟨pushCell_cell hok.1, ?_⟩
      show upd s.object s.nslots (some m) x = some m
      rw [upd_ne _ _ hxk]; exact hok.2
    · intro x hx
      exact upd_ne _ _ (fun e => hfresh m hm (e ▸ hx))
  · simp only [hmn, if_false]
    unfold WLinked
    have hhead : (pushCell s n h).weak_pointers m = s.weak_pointers m := upd_ne _ _ hmn
    rw [hhead]
    refine Chain.frame hch ?_ ?_ ?_
    · intro x hx hok
      have hxk : x ≠ s.nslots := fun e => hfresh m hm (e ▸ hx)
      refine ⟨pushCell_cell hok.1, ?_⟩
      show upd s.object s.nslots (some n) x = some m
      rw [upd_ne _ _ hxk]; exact hok.2
    · intro x hx
      have hxk : x ≠ s.nslots := fun e => hfresh m hm (e ▸ hx)
      show pushPrev (upd s.prev s.nslots none) (s.weak_pointers n) s.nslots x = _
      rw [pushPrev_apply, upd_ne _ _ hxk]
      have : s.weak_pointers n ≠ some x := by
        intro e
        have h1 := Chain.cur_eq (hW.chains n hn).1
        rw [e] at h1
        have h2 := ((hW.chains n hn).1.cell_of_mem x (List.mem_of_mem_head? h1.symm)).2
        rw [(hch.cell_of_mem x hx).2] at h2
        exact hmn (Option.some.inj h2)
      simp [this]
    · intro x hx
      exact upd_ne _ _ (fun e => hfresh m hm (e ▸ hx))

theorem pushCell_weakSlots {s : Heap} (hW : WeakInv s) {n h : Nat} (hn : s.live n = true)
    (m : Nat) (hm : s.live m = true) :
    weakSlots (pushCell s n h) m =
      if m = n then s.nslots :: weakSlots s m else weakSlots s m := by
  refine weakSlots_eq_of_linked (pushCell_chains hW hn m hm) ?_
  by_cases hmn : m = n
  · simp only [hmn, if_true]
    refine List.nodup_cons.mpr ⟨?_, (hW.chains n hn).2⟩
    intro hx
    have := Heap.cell_lt ((hW.chains n hn).1.cell_of_mem _ hx).1
    omega
  · simp only [hmn, if_false]
    exact (hW.chains m hm).2

/-- Registering a new cell keeps the invariant of the registry. -/
theorem pushCell_inv {s : Heap} (hW : WeakInv s) {n h : Nat} (hn : s.live n = true) :
    WeakInv (pushCell s n h) := by
  constructor
  · intro m hm
    have hm' : s.live m = true := hm
    rw [pushCell_weakSlots hW hn m hm']
    refine ⟨pushCell_chains hW hn m hm', ?_⟩
    by_cases hmn : m = n
    · simp only [hmn, if_true]
      refine List.nodup_cons.mpr ⟨?_, (hW.chains n hn).2⟩
      intro hx
      have := Heap.cell_lt ((hW.chains n hn).1.cell_of_mem _ hx).1
      omega
    · simp only [hmn, if_false]
      exact (hW.chains m hm').2
  · intro k m hk ho
    have ho' : upd s.object s.nslots (some n) k = some m := ho
    rcases pushCell_cell_iff.mp hk with hk' | rfl
    · have hkn : k ≠ s.nslots := fun e => by
        have := Heap.cell_lt hk'; omega
      rw [upd_ne _ _ hkn] at ho'
      obtain ⟨hml, hkm⟩ := hW.member k m hk' ho'
      refine ⟨hml, ?_⟩
      rw [pushCell_weakSlots hW hn m hml]
      by_cases hmn : m = n
      · simp only [hmn, if_true]
        exact List.mem_cons_of_mem _ (hmn ▸ hkm)
      · simp only [hmn, if_false]
        exact hkm
    · rw [upd_same] at ho'
      cases ho'
      refine ⟨hn, ?_⟩
      rw [pushCell_weakSlots hW hn n hn]
      simp

/-- Registering a new cell for an empty handle keeps the handles consistent. -/
theorem pushCell_handles {s : Heap} (hH : HandlesOK s) {n h : Nat} (hh : h < s.nptrs)
    (hd : s.d h = none) : HandlesOK (pushCell s n h) := by
  obtain ⟨h1, h2, h3⟩ := hH
  have hdx : ∀ x k, (pushCell s n h).d x = some k →
      (x = h ∧ k = s.nslots) ∨ (x ≠ h ∧ s.d x = some k) := by
    intro x k hx
    have hx' : upd s.d h (some s.nslots) x = some k := hx
    by_cases hxh : x = h
    · subst hxh
      rw [upd_same] at hx'
      exact Or.inl ⟨rfl, (Option.some.inj hx').symm⟩
    · rw [upd_ne _ _ hxh] at hx'
      exact Or.inr ⟨hxh, hx'⟩
  refine ⟨?_, ?_, ?_⟩
  · intro x hx k hk
    rcases hdx x k hk with ⟨_, rfl⟩ | ⟨_, hk'⟩
    · exact pushCell_cell_iff.mpr (Or.inr rfl)
    · exact pushCell_cell (h1 x hx k hk')
  · intro x hx y hy k hk hk'
    rcases hdx x k hk with ⟨rfl, rfl⟩ | ⟨hxh, hkx⟩
    · rcases hdx y _ hk' with ⟨rfl, _⟩ | ⟨_, hky⟩
      · rfl
      · have := Heap.cell_lt (h1 y hy _ hky)
        omega
    · rcases hdx y k hk' with ⟨rfl, rfl⟩ | ⟨_, hky⟩
      · have := Heap.cell_lt (h1 x hx _ hkx)
        omega
      · exact h2 x hx y hy k hkx hky
  · intro k hk hkc
    rcases pushCell_cell_iff.mp hkc with hk' | rfl
    · obtain ⟨x, hx, hxk⟩ := h3 k (Heap.cell_lt hk') hk'
      refine ⟨x, hx, ?_⟩
      show upd s.d h (some s.nslots) x = some k
      have : x ≠ h := by
        intro e; subst e; rw [hd] at hxk; cases hxk
      rw [upd_ne _ _ this]
      exact hxk
    · exact ⟨h, hh, upd_same _ _ _⟩

/-! ## Releasing a cell -/

/-- In a list whose first back link is null, only the first cell has a null back link. -/
theorem Chain.prv_none_iff {ok : Nat → Prop} {prv nxt : Nat → Option Nat} {head : Option Nat}
    {l : List Nat} {c : Nat} (h : Chain ok prv nxt none head l) (hnd : l.Nodup) (hc : c ∈ l) :
    prv c = none ↔ head = some c := by
  obtain ⟨l₁, l₂, rfl⟩ := List.append_of_mem hc
  have h1 := Chain.prv_mid h
  have h2 := Chain.cur_eq h
  cases l₁ with
  | nil => simp at h1 h2; simp [h1, h2]
  | cons b t =>
    have hb : b ≠ c := by
      intro e
      subst e
      have := (List.nodup_cons.mp hnd).1
      simp at this
    have h3 : (b :: t).getLast? = some ((b :: t).getLast (by simp)) :=
      List.getLast?_eq_getLast _ _
    simp only [List.cons_append, List.head?_cons] at h2
    rw [if_neg (by simp), h3] at h1
    rw [h1, h2]
    simp [hb]

theorem dropCell_cell_iff {s : Heap} {n h k x : Nat} :
    (dropCell s n h k).cell x = true ↔ (s.cell x = true ∧ x ≠ k) := by
  rw [Heap.cell_iff, Heap.cell_iff]
  show (x < s.nslots ∧ upd s.slotFreed k true x = false) ↔ _
  by_cases hx : x = k
  · subst hx; simp
  · rw [upd_ne _ _ hx]; simp [hx]

/-- Cells that observe different objects are different. -/
theorem WeakInv.ne_of_mem {s : Heap} (hW : WeakInv s) {n m x y : Nat} (hn : s.live n = true)
    (hm : s.live m = true) (hmn : m ≠ n) (hx : x ∈ weakSlots s m) (hy : y ∈ weakSlots s n) :
    x ≠ y := by
  intro e
  subst e
  have h1 := ((hW.chains m hm).1.cell_of_mem x hx).2
  have h2 := ((hW.chains n hn).1.cell_of_mem x hy).2
  rw [h1] at h2
  exact hmn (Option.some.inj h2)

/-- The weak-slot lists after the cell `k`, which observes `n`, is released. -/
theorem dropCell_chains {s : Heap} (hW : WeakInv s) {n h k : Nat} (hk : s.cell k = true)
    (ho : s.object k = some n) (m : Nat) (hm : s.live m = true) :
    WLinked (dropCell s n h k) m ((weakSlots s m).erase k) := by
  obtain ⟨hn, hmem⟩ := hW.member k n hk ho
  obtain ⟨hch, hnd⟩ := hW.chains n hn
  obtain ⟨hchm, hndm⟩ := hW.chains m hm
  have hobj : ∀ x, x ≠ k → (dropCell s n h k).object x = s.object x :=
    fun x hx => upd_ne _ _ hx
  by_cases hmn : m = n
  · subst hmn
    have hu := Chain.unlink (fun x => (dropCell s m h k).cell x = true ∧
      (dropCell s m h k).object x = some m) hch hnd hmem
      (fun x _ hxk hok => ⟨dropCell_cell_iff.mpr ⟨hok.1, hxk⟩, by rw [hobj x hxk]; exact hok.2⟩)
    have hiff := Chain.prv_none_iff hch hnd hmem
    have hhead : (dropCell s m h k).weak_pointers m =
        if s.weak_pointers m = some k then s.next k else s.weak_pointers m := by
      show (match s.prev k with
        | some _ => s.weak_pointers
        | none => upd s.weak_pointers m (s.next k)) m = _
      cases hp : s.prev k with
      | none => rw [if_pos (hiff.mp hp)]; exact upd_same _ _ _
      | some q =>
        have : s.weak_pointers m ≠ some k := fun e => by
          rw [hiff.mpr e] at hp; cases hp
        rw [if_neg this]
    unfold WLinked
    rw [hhead]
    refine Chain.frame hu (fun _ _ hx => hx) ?_ ?_
    · intro x hx
      have hxk : x ≠ k := fun e => by
        subst e; exact (List.Nodup.mem_erase_iff hnd).mp hx |>.1 rfl
      rw [unlinkPrev_apply, if_neg hxk]
      show (match s.next k with
        | some q => upd s.prev q (s.prev k)
        | none => s.prev) x = _
      cases hq : s.next k with
      | none => simp
      | some q =>
        by_cases hxq : x = q
        · subst hxq; simp
        · have : ¬ q = x := fun e => hxq e.symm
          simp [upd_ne _ _ hxq, this]
    · intro x hx
      have hxk : x ≠ k := fun e => by
        subst e; exact (List.Nodup.mem_erase_iff hnd).mp hx |>.1 rfl
      rw [unlinkNext_apply, if_neg hxk]
      show (match s.prev k with
        | some q => upd s.next q (s.next k)
        | none => s.next) x = _
      cases hq : s.prev k with
      | none => simp
      | some q =>
        by_cases hxq : x = q
        · subst hxq; simp
        · have : ¬ q = x := fun e => hxq e.symm
          simp [upd_ne _ _ hxq, this]
  · have hkm : k ∉ weakSlots s m := fun hx => WeakInv.ne_of_mem hW hn hm hmn hx hmem rfl
    rw [List.erase_of_not_mem hkm]
    have hhead : (dropCell s n h k).weak_pointers m = s.weak_pointers m := by
      show (match s.prev k with
        | some _ => s.weak_pointers
        | none => upd s.weak_pointers n (s.next k)) m = _
      cases s.prev k with
      | none => exact upd_ne _ _ hmn
      | some q => rfl
    unfold WLinked
    rw [hhead]
    refine Chain.frame hchm ?_ ?_ ?_
    · intro x hx hok
      have hxk : x ≠ k := fun e => hkm (e ▸ hx)
      exact ⟨dropCell_cell_iff.mpr ⟨hok.1, hxk⟩, by rw [hobj x hxk]; exact hok.2⟩
    · intro x hx
      show (match s.next k with
        | some q => upd s.prev q (s.prev k)
        | none => s.prev) x = _
      cases hq : s.next k with
      | none => rfl
      | some q =>
        exact upd_ne _ _ (WeakInv.ne_of_mem hW hn hm hmn hx (Chain.nxt_mem hch hmem hq))
    · intro x hx
      show (match s.prev k with
        | some q => upd s.next q (s.next k)
        | none => s.next) x = _
      cases hq : s.prev k with
      | none => rfl
      | some q =>
        exact upd_ne _ _ (WeakInv.ne_of_mem hW hn hm hmn hx (Chain.prv_mem hch hmem hq))

theorem dropCell_weakSlots {s : Heap} (hW : WeakInv s) {n h k : Nat} (hk : s.cell k = true)
    (ho : s.object k = some n) (m : Nat) (hm : s.live m = true) :
    weakSlots (dropCell s n h k) m = (weakSlots s m).erase k :=
  weakSlots_eq_of_linked (dropCell_chains hW hk ho m hm)
    ((hW.chains m hm).2.erase k)

/-- Releasing a cell keeps the invariant of the registry. -/
theorem dropCell_inv {s : Heap} (hW : WeakInv s) {n h k : Nat} (hk : s.cell k = true)
    (ho : s.object k = some n) : WeakInv (dropCell s n h k) := by
  constructor
  · intro m hm
    have hm' : s.live m = true := hm
    rw [dropCell_weakSlots hW hk ho m hm']
    exact ⟨dropCell_chains hW hk ho m hm', (hW.chains m hm').2.erase k⟩
  · intro x m hx hox
    obtain ⟨hxc, hxk⟩ := dropCell_cell_iff.mp hx
    have hox' : upd s.object k none x = some m := hox
    rw [upd_ne _ _ hxk] at hox'
    obtain ⟨hml, hxm⟩ := hW.member x m hxc hox'
    refine ⟨hml, ?_⟩
    rw [dropCell_weakSlots hW hk ho m hml]
    exact (List.mem_erase_of_ne hxk).mpr hxm

/-- Releasing the cell of a handle keeps the handles consistent. -/
theorem HandlesOK.release {s s' : Heap} (hH : HandlesOK s) {h k : Nat} (hd : s.d h = some k)
    (hh : h < s.nptrs)
    (e₁ : s'.nptrs = s.nptrs) (e₂ : s'.nslots = s.nslots)
    (e₃ : s'.slotFreed = upd s.slotFreed k true) (e₄ : s'.d = upd s.d h none) :
    HandlesOK s' := by
  obtain ⟨h1, h2, h3⟩ := hH
  have hcell : ∀ x, s'.cell x = true ↔ (s.cell x = true ∧ x ≠ k) := by
    intro x
    rw [Heap.cell_iff, Heap.cell_iff, e₂, e₃]
    by_cases hx : x = k
    · subst hx; simp
    · rw [upd_ne _ _ hx]; simp [hx]
  have hdx : ∀ x j, s'.d x = some j → x ≠ h ∧ s.d x = some j := by
    intro x j hx
    rw [e₄] at hx
    by_cases hxh : x = h
    · subst hxh; rw [upd_same] at hx; cases hx
    · rw [upd_ne _ _ hxh] at hx; exact ⟨hxh, hx⟩
  refine ⟨?_, ?_, ?_⟩
  · intro x hx j hj
    rw [e₁] at hx
    obtain ⟨hxh, hj'⟩ := hdx x j hj
    refine (hcell j).mpr ⟨h1 x hx j hj', ?_⟩
    intro e
    subst e
    exact hxh (h2 x hx h hh j hj' hd)
  · intro x hx y hy j hj hj'
    rw [e₁] at hx hy
    exact h2 x hx y hy j (hdx x j hj).2 (hdx y j hj').2
  · intro j hj hjc
    rw [e₂] at hj
    obtain ⟨hjc', hjk⟩ := (hcell j).mp hjc
    obtain ⟨x, hx, hxj⟩ := h3 j hj hjc'
    refine ⟨x, e₁ ▸ hx, ?_⟩
    rw [e₄]
    have : x ≠ h := by
      intro e; subst e; rw [hd] at hxj; exact hjk (Option.some.inj hxj).symm
    rw [upd_ne _ _ this]
    exact hxj

/-- Releasing a cell that observes nothing keeps the invariant of the registry. -/
theorem freeCell_inv {s : Heap} (hW : WeakInv s) {h k : Nat} (ho : s.object k = none) :
    WeakInv (freeCell s h k) ∧ weakSlots (freeCell s h k) = weakSlots s := by
  have hw : weakSlots (freeCell s h k) = weakSlots s := weakSlots_congr rfl rfl rfl
  have hcell : ∀ x, (freeCell s h k).cell x = true ↔ (s.cell x = true ∧ x ≠ k) := by
    intro x
    rw [Heap.cell_iff, Heap.cell_iff]
    show (x < s.nslots ∧ upd s.slotFreed k true x = false) ↔ _
    by_cases hx : x = k
    · subst hx; simp
    · rw [upd_ne _ _ hx]; simp [hx]
  refine ⟨⟨?_, ?_⟩, hw⟩
  · intro m hm
    have hm' : s.live m = true := hm
    rw [hw]
    refine ⟨?_, (hW.chains m hm').2⟩
    refine Chain.frame (hW.chains m hm').1 ?_ (fun _ _ => rfl) (fun _ _ => rfl)
    intro x _ hok
    refine ⟨(hcell x).mpr ⟨hok.1, ?_⟩, hok.2⟩
    intro e
    subst e
    have := hok.2
    rw [ho] at this
    cases this
  · intro x m hx hox
    rw [hw]
    exact hW.member x m ((hcell x).mp hx).1 hox


/-! ## Handles -/

/-- A step that leaves the tree alone keeps a well-formed heap well-formed when it keeps the
registry and the handles consistent. -/
theorem WF.weakStep {s s' : Heap} (h : WF s) (e₁ : s'.nobjs = s.nobjs)
    (e₂ : s'.objFreed = s.objFreed) (e₃ : s'.parent = s.parent)
    (e₄ : s'.childrenHead = s.childrenHead) (e₅ : s'.nextSibling = s.nextSibling)
    (e₆ : s'.prevSibling = s.prevSibling) (hW : WeakInv s') (hH : HandlesOK s') : WF s' :=
  WF.of_inv (h.treeInv.congrTree e₁ e₂ e₃ e₄ e₅ e₆) hW
    (h.acyclic.ranked.mono e₃ (fun x hx => by rw [← Heap.live_congr e₁ e₂]; exact hx)) hH

/-- In a well-formed heap `get` returns what the cell of the handle observes. -/
theorem get_wf {s : Heap} {h : Nat} (hwf : WF s) (hh : h < s.nptrs) :
    QPointer.get s h = some ((s.d h).bind s.object) := by
  unfold QPointer.get
  rw [Heap.rdd_eq s h hh]
  simp only [Option.bind_eq_bind, Option.some_bind]
  cases hd : s.d h with
  | none => rfl
  | some k => exact Heap.rdc_cell _ (hwf.handles.1 h hh k hd)

/-- What a handle observes in a well-formed heap is live. -/
theorem observed_live {s : Heap} {h n : Nat} (hwf : WF s) (hh : h < s.nptrs)
    (ho : (s.d h).bind s.object = some n) : s.live n = true := by
  cases hd : s.d h with
  | none => rw [hd] at ho; cases ho
  | some k =>
    rw [hd] at ho
    exact (hwf.weakInv.member k n (hwf.handles.1 h hh k hd) ho).1

/-! ### `reset` -/

theorem QPointer.reset_eq {s : Heap} {h : Nat} (hwf : WF s) (hh : h < s.nptrs) :
    QPointer.reset s h = some (resetHeap s h) := by
  unfold QPointer.reset resetHeap
  rw [Heap.rdd_eq s h hh]
  simp only [Option.bind_eq_bind, Option.some_bind]
  cases hd : s.d h with
  | none => rfl
  | some k =>
    have hk := hwf.handles.1 h hh k hd
    simp only [Heap.rdc_cell _ hk, Option.some_bind]
    cases ho : s.object k with
    | none =>
      obtain ⟨hk₁, hk₂⟩ := Heap.cell_iff.mp hk
      simp only [Heap.freeSlot_eq', Heap.wrD_eq, hk₁, hk₂, hh, Option.some_bind, freeCell]
    | some n =>
      obtain ⟨hn, hmem⟩ := hwf.weakInv.member k n hk ho
      have hch := (hwf.weakInv.chains n hn).1
      simp only [Heap.rd_live _ hn, Option.some_bind]
      exact QObjectPrivate.removeWeakPointer_eq n hh hd hk ho hn
        (fun q hq => (hch.cell_of_mem q (Chain.prv_mem hch hmem hq)).1)
        (fun q hq => (hch.cell_of_mem q (Chain.nxt_mem hch hmem hq)).1)

theorem resetHeap_of_none {s : Heap} {h : Nat} (hd : s.d h = none) : resetHeap s h = s := by
  unfold resetHeap
  rw [hd]

theorem resetHeap_of_obj {s : Heap} {h k n : Nat} (hd : s.d h = some k)
    (ho : s.object k = some n) : resetHeap s h = dropCell s n h k := by
  unfold resetHeap
  simp only [hd, ho]

theorem resetHeap_of_null {s : Heap} {h k : Nat} (hd : s.d h = some k)
    (ho : s.object k = none) : resetHeap s h = freeCell s h k := by
  unfold resetHeap
  simp only [hd, ho]

theorem resetHeap_wf {s : Heap} {h : Nat} (hwf : WF s) (hh : h < s.nptrs) :
    WF (resetHeap s h) := by
  cases hd : s.d h with
  | none => rw [resetHeap_of_none hd]; exact hwf
  | some k =>
    have hk := hwf.handles.1 h hh k hd
    cases ho : s.object k with
    | none =>
      rw [resetHeap_of_null hd ho]
      exact hwf.weakStep rfl rfl rfl rfl rfl rfl (freeCell_inv hwf.weakInv ho).1
        (hwf.handles.release hd hh rfl rfl rfl rfl)
    | some n =>
      rw [resetHeap_of_obj hd ho]
      exact hwf.weakStep rfl rfl rfl rfl rfl rfl (dropCell_inv hwf.weakInv hk ho)
        (hwf.handles.release hd hh rfl rfl rfl rfl)

theorem resetHeap_cases (s : Heap) (h : Nat) :
    (s.d h = none ∧ resetHeap s h = s) ∨
    (∃ k, s.d h = some k ∧ s.object k = none ∧ resetHeap s h = freeCell s h k) ∨
    (∃ k n, s.d h = some k ∧ s.object k = some n ∧ resetHeap s h = dropCell s n h k) := by
  cases hd : s.d h with
  | none => exact Or.inl ⟨rfl, resetHeap_of_none hd⟩
  | some k =>
    cases ho : s.object k with
    | none => exact Or.inr (Or.inl ⟨k, rfl, ho, resetHeap_of_null hd ho⟩)
    | some n => exact Or.inr (Or.inr ⟨k, n, rfl, ho, resetHeap_of_obj hd ho⟩)

theorem resetHeap_nptrs (s : Heap) (h : Nat) : (resetHeap s h).nptrs = s.nptrs := by
  rcases resetHeap_cases s h with ⟨_, e⟩ | ⟨k, _, _, e⟩ | ⟨k, n, _, _, e⟩ <;> rw [e] <;> rfl

theorem resetHeap_nslots (s : Heap) (h : Nat) : (resetHeap s h).nslots = s.nslots := by
  rcases resetHeap_cases s h with ⟨_, e⟩ | ⟨k, _, _, e⟩ | ⟨k, n, _, _, e⟩ <;> rw [e] <;> rfl

theorem resetHeap_live (s : Heap) (h : Nat) : (resetHeap s h).live = s.live := by
  rcases resetHeap_cases s h with ⟨_, e⟩ | ⟨k, _, _, e⟩ | ⟨k, n, _, _, e⟩ <;> rw [e] <;> rfl

theorem resetHeap_d (s : Heap) (h : Nat) : (resetHeap s h).d = upd s.d h none := by
  rcases resetHeap_cases s h with ⟨hd, e⟩ | ⟨k, _, _, e⟩ | ⟨k, n, _, _, e⟩ <;> rw [e]
  · rw [← hd, upd_eq_self]
  · rfl
  · rfl

theorem resetHeap_cell (s : Heap) (h x : Nat) :
    (resetHeap s h).cell x = true ↔ (s.cell x = true ∧ s.d h ≠ some x) := by
  have key : ∀ (s' : Heap) (k : Nat), s.d h = some k → s'.nslots = s.nslots →
      s'.slotFreed = upd s.slotFreed k true →
      (s'.cell x = true ↔ (s.cell x = true ∧ s.d h ≠ some x)) := by
    intro s' k hd e₁ e₂
    rw [Heap.cell_iff, Heap.cell_iff, e₁, e₂, hd]
    by_cases hx : x = k
    · subst hx; simp
    · have : ¬ k = x := fun e => hx e.symm
      rw [upd_ne _ _ hx]; simp [this]
  rcases resetHeap_cases s h with ⟨hd, e⟩ | ⟨k, hd, _, e⟩ | ⟨k, n, hd, _, e⟩ <;> rw [e]
  · simp [hd]
  · exact key _ k hd rfl rfl
  · exact key _ k hd rfl rfl

theorem resetHeap_object (s : Heap) (h x : Nat) (hx : s.d h ≠ some x) :
    (resetHeap s h).object x = s.object x := by
  rcases resetHeap_cases s h with ⟨hd, e⟩ | ⟨k, hd, _, e⟩ | ⟨k, n, hd, _, e⟩ <;> rw [e]
  · rfl
  · exact upd_ne _ _ (fun e => hx (by rw [hd, e]))

/-- The weak-slot lists after `h.reset()`: the cell of `h` is gone, the other cells are in their
previous order. -/
theorem resetHeap_weakSlots {s : Heap} {h : Nat} (hwf : WF s) (hh : h < s.nptrs) (m : Nat)
    (hm : s.live m = true) :
    weakSlots (resetHeap s h) m = (weakSlots s m).filter (fun x => decide (s.d h ≠ some x)) := by
  have hnd := (hwf.weakInv.chains m hm).2
  have hfil : ∀ k, s.d h = some k →
      (weakSlots s m).filter (fun x => decide (s.d h ≠ some x)) = (weakSlots s m).erase k := by
    intro k hd
    rw [hnd.erase_eq_filter, hd]
    congr 1
    funext x
    by_cases hx : x = k
    · subst hx; simp
    · have : ¬ k = x := fun e => hx e.symm
      simp [hx, this]
  rcases resetHeap_cases s h with ⟨hd, e⟩ | ⟨k, hd, ho, e⟩ | ⟨k, n, hd, ho, e⟩ <;> rw [e]
  · simp [hd]
  · have hkm : k ∉ weakSlots s m := by
      intro hx
      have := ((hwf.weakInv.chains m hm).1.cell_of_mem k hx).2
      rw [ho] at this
      cases this
    rw [hfil k hd, List.erase_of_not_mem hkm]
    exact congrFun (freeCell_inv hwf.weakInv ho).2 m
  · rw [hfil k hd]
    exact dropCell_weakSlots hwf.weakInv (hwf.handles.1 h hh k hd) ho m hm

theorem resetHeap_mem {s : Heap} {h : Nat} (hwf : WF s) (hh : h < s.nptrs) (m : Nat)
    (hm : s.live m = true) (x : Nat) :
    x ∈ weakSlots (resetHeap s h) m ↔ (x ∈ weakSlots s m ∧ s.d h ≠ some x) := by
  rw [resetHeap_weakSlots hwf hh m hm]
  simp

theorem resetHeap_get_self {s : Heap} {h : Nat} (hh : h < s.nptrs) :
    QPointer.get (resetHeap s h) h = some none := by
  unfold QPointer.get
  rw [Heap.rdd_eq _ h (by rw [resetHeap_nptrs]; exact hh), resetHeap_d, upd_same]
  rfl

/-- Another handle observes after `h.reset()` what it observed before. -/
theorem resetHeap_get_other {s : Heap} {h h₂ : Nat} (hwf : WF s) (hh : h < s.nptrs)
    (hh₂ : h₂ < s.nptrs) (hne : h₂ ≠ h) :
    QPointer.get (resetHeap s h) h₂ = QPointer.get s h₂ := by
  rw [get_wf (resetHeap_wf hwf hh) (by rw [resetHeap_nptrs]; exact hh₂), get_wf hwf hh₂,
    resetHeap_d, upd_ne _ _ hne]
  cases hd : s.d h₂ with
  | none => rfl
  | some k =>
    have : s.d h ≠ some k := fun e => hne (hwf.handles.2.1 h₂ hh₂ h hh k hd e)
    simp only [Option.some_bind]
    rw [resetHeap_object s h k this]

/-! ### Registering a cell -/

theorem QObjectPrivate.addWeakPointer_wf {s : Heap} {n h : Nat} (hwf : WF s)
    (hn : s.live n = true) (hh : h < s.nptrs) (hd : s.d h = none) :
    QObjectPrivate.addWeakPointer s n h = some (pushCell s n h) := by
  have hch := (hwf.weakInv.chains n hn).1
  refine QObjectPrivate.addWeakPointer_eq hn hh hd ?_
  intro q hq
  have := Chain.cur_eq hch
  rw [hq] at this
  exact (hch.cell_of_mem q (List.mem_of_mem_head? this.symm)).1

theorem attach_wf {s : Heap} {r : Option Nat} {h : Nat} (hwf : WF s) (hh : h < s.nptrs)
    (hd : s.d h = none) (hr : ∀ n, r = some n → s.live n = true) : WF (attach s r h) := by
  cases r with
  | none => exact hwf
  | some n =>
    exact hwf.weakStep rfl rfl rfl rfl rfl rfl (pushCell_inv hwf.weakInv (hr n rfl))
      (pushCell_handles hwf.handles hh hd)

theorem attach_nptrs (s : Heap) (r : Option Nat) (h : Nat) :
    (attach s r h).nptrs = s.nptrs := by
  cases r <;> rfl

theorem attach_live (s : Heap) (r : Option Nat) (h : Nat) : (attach s r h).live = s.live := by
  cases r <;> rfl

theorem attach_d_self {s : Heap} {r : Option Nat} {h : Nat} (hd : s.d h = none) :
    (attach s r h).d h = r.map (fun _ => s.nslots) := by
  cases r with
  | none => exact hd
  | some n => exact upd_same _ _ _

theorem attach_d_other (s : Heap) (r : Option Nat) {h h₂ : Nat} (hne : h₂ ≠ h) :
    (attach s r h).d h₂ = s.d h₂ := by
  cases r with
  | none => rfl
  | some n => exact upd_ne _ _ hne

theorem attach_get_self {s : Heap} {r : Option Nat} {h : Nat} (hwf : WF s) (hh : h < s.nptrs)
    (hd : s.d h = none) (hr : ∀ n, r = some n → s.live n = true) :
    QPointer.get (attach s r h) h = some r := by
  rw [get_wf (attach_wf hwf hh hd hr) (by rw [attach_nptrs]; exact hh), attach_d_self hd]
  cases r with
  | none => rfl
  | some n =>
    show some (upd s.object s.nslots (some n) s.nslots) = _
    rw [upd_same]

theorem attach_get_other {s : Heap} {r : Option Nat} {h h₂ : Nat} (hwf : WF s)
    (hh : h < s.nptrs) (hd : s.d h = none) (hr : ∀ n, r = some n → s.live n = true)
    (hh₂ : h₂ < s.nptrs) (hne : h₂ ≠ h) :
    QPointer.get (attach s r h) h₂ = QPointer.get s h₂ := by
  rw [get_wf (attach_wf hwf hh hd hr) (by rw [attach_nptrs]; exact hh₂), get_wf hwf hh₂,
    attach_d_other s r hne]
  cases r with
  | none => rfl
  | some n =>
    cases hk : s.d h₂ with
    | none => rfl
    | some k =>
      have := Heap.cell_lt (hwf.handles.1 h₂ hh₂ k hk)
      show some (upd s.object s.nslots (some n) k) = _
      rw [upd_ne _ _ (by omega)]
      rfl

theorem attach_mem {s : Heap} {r : Option Nat} {h : Nat} (hwf : WF s)
    (hr : ∀ n, r = some n → s.live n = true) (m : Nat) (hm : s.live m = true) (x : Nat) :
    x ∈ weakSlots (attach s r h) m ↔ (x ∈ weakSlots s m ∨ (x = s.nslots ∧ r = some m)) := by
  cases r with
  | none => simp [attach]
  | some n =>
    show x ∈ weakSlots (pushCell s n h) m ↔ _
    rw [pushCell_weakSlots hwf.weakInv (hr n rfl) m hm]
    by_cases hmn : m = n
    · subst hmn
      simp only [if_true, List.mem_cons, and_true]
      tauto
    · have : ¬ n = m := fun e => hmn e.symm
      simp [hmn, this]

theorem attach_weakSlots {s : Heap} {n h : Nat} (hwf : WF s) (hn : s.live n = true) :
    weakSlots (attach s (some n) h) n = s.nslots :: weakSlots s n := by
  show weakSlots (pushCell s n h) n = _
  rw [pushCell_weakSlots hwf.weakInv hn n hn, if_pos rfl]

theorem attach_cell (s : Heap) (n h : Nat) :
    s.cell s.nslots = false ∧ (attach s (some n) h).cell s.nslots = true := by
  constructor
  · cases hc : s.cell s.nslots with
    | false => rfl
    | true => exact absurd (Heap.cell_lt hc) (Nat.lt_irrefl _)
  · exact pushCell_cell_iff.mpr (Or.inr rfl)

/-! ### Storage for a new handle -/

theorem newPtr_wf {s : Heap} (hwf : WF s) : WF s.newPtr.1 := by
  refine hwf.weakStep rfl rfl rfl rfl rfl rfl
    (hwf.weakInv.congrWeak rfl rfl rfl rfl rfl rfl rfl rfl) ?_
  obtain ⟨h1, h2, h3⟩ := hwf.handles
  have hdx : ∀ x j, s.newPtr.1.d x = some j → x ≠ s.nptrs ∧ s.d x = some j := by
    intro x j hx
    have hx' : upd s.d s.nptrs none x = some j := hx
    by_cases hxh : x = s.nptrs
    · subst hxh; rw [upd_same] at hx'; cases hx'
    · rw [upd_ne _ _ hxh] at hx'; exact ⟨hxh, hx'⟩
  refine ⟨?_, ?_, ?_⟩
  · intro x hx j hj
    have hx' : x < s.nptrs + 1 := hx
    obtain ⟨hxh, hj'⟩ := hdx x j hj
    exact h1 x (by omega) j hj'
  · intro x hx y hy j hj hj'
    have hx' : x < s.nptrs + 1 := hx
    have hy' : y < s.nptrs + 1 := hy
    obtain ⟨hxh, hjx⟩ := hdx x j hj
    obtain ⟨hyh, hjy⟩ := hdx y j hj'
    exact h2 x (by omega) y (by omega) j hjx hjy
  · intro j hj hjc
    obtain ⟨x, hx, hxj⟩ := h3 j hj hjc
    refine ⟨x, Nat.lt_succ_of_lt hx, ?_⟩
    show upd s.d s.nptrs none x = some j
    rw [upd_ne _ _ (by omega)]
    exact hxj

theorem newPtr_d_self (s : Heap) : s.newPtr.1.d s.nptrs = none := upd_same _ _ _

theorem newPtr_d_other (s : Heap) {h : Nat} (hh : h < s.nptrs) : s.newPtr.1.d h = s.d h :=
  upd_ne _ _ (by omega)

theorem newPtr_get_other {s : Heap} {h : Nat} (hwf : WF s) (hh : h < s.nptrs) :
    QPointer.get s.newPtr.1 h = QPointer.get s h := by
  rw [get_wf (newPtr_wf hwf) (Nat.lt_succ_of_lt hh), get_wf hwf hh, newPtr_d_other s hh]
  rfl

/-! ### The constructors and the assignments -/

theorem QPointer.ofRaw_eq {s : Heap} {r : Option Nat} (hwf : WF s)
    (hr : ∀ n, r = some n → s.live n = true) :
    QPointer.ofRaw s r = some (attach s.newPtr.1 r s.nptrs, s.nptrs) := by
  unfold QPointer.ofRaw
  cases r with
  | none => rfl
  | some n =>
    have hn : s.newPtr.1.live n = true := hr n rfl
    have e := QObjectPrivate.addWeakPointer_wf (newPtr_wf hwf) hn
      (Nat.lt_succ_self s.nptrs) (newPtr_d_self s)
    simp only [Option.bind_eq_bind, Heap.rd_live _ hn, Option.some_bind]
    rw [show s.newPtr = (s.newPtr.1, s.nptrs) from rfl]
    simp only [Heap.rd_live _ hn, Option.some_bind, e]
    rfl

theorem QPointer.copy_eq {s : Heap} {h : Nat} (hwf : WF s) (hh : h < s.nptrs) :
    QPointer.copy s h =
      some (attach s.newPtr.1 ((s.d h).bind s.object) s.nptrs, s.nptrs) := by
  unfold QPointer.copy
  rw [Heap.rdd_eq s h hh, show s.newPtr = (s.newPtr.1, s.nptrs) from rfl]
  simp only [Option.bind_eq_bind, Option.some_bind]
  cases hd : s.d h with
  | none => rfl
  | some k =>
    have hk : s.newPtr.1.cell k = true := hwf.handles.1 h hh k hd
    simp only [Heap.rdc_cell _ hk, Option.some_bind]
    have ho' : s.newPtr.1.object k = s.object k := rfl
    rw [ho']
    cases ho : s.object k with
    | none => rfl
    | some n =>
      have hn₀ : s.live n = true := observed_live hwf hh (by rw [hd]; exact ho)
      have hn : s.newPtr.1.live n = true := hn₀
      have e := QObjectPrivate.addWeakPointer_wf (newPtr_wf hwf) hn
        (Nat.lt_succ_self s.nptrs) (newPtr_d_self s)
      simp only [Heap.rd_live _ hn, Option.some_bind, e]
      rfl

theorem QPointer.assignRaw_eq {s : Heap} {h : Nat} {r : Option Nat} (hwf : WF s)
    (hh : h < s.nptrs) (hr : ∀ n, r = some n → s.live n = true) :
    QPointer.assignRaw s h r = some (attach (resetHeap s h) r h) := by
  unfold QPointer.assignRaw
  rw [QPointer.reset_eq hwf hh]
  simp only [Option.bind_eq_bind, Option.some_bind]
  cases r with
  | none => rfl
  | some n =>
    have hn : (resetHeap s h).live n = true := by
      rw [resetHeap_live]; exact hr n rfl
    have hd : (resetHeap s h).d h = none := by
      rw [resetHeap_d]; exact upd_same _ _ _
    have e := QObjectPrivate.addWeakPointer_wf (resetHeap_wf hwf hh) hn
      (by rw [resetHeap_nptrs]; exact hh) hd
    simp only [Heap.rd_live _ hn, Option.some_bind, e]
    rfl

theorem QPointer.assign_eq {s : Heap} {h₂ h : Nat} (hwf : WF s) (hh₂ : h₂ < s.nptrs)
    (hh : h < s.nptrs) (hne : h₂ ≠ h) :
    QPointer.assign s h₂ h =
      some (attach (resetHeap s h₂) ((s.d h).bind s.object) h₂) := by
  have hh' : h < (resetHeap s h₂).nptrs := by rw [resetHeap_nptrs]; exact hh
  have hd' : (resetHeap s h₂).d h = s.d h := by
    rw [resetHeap_d]; exact upd_ne _ _ (fun e => hne e.symm)
  unfold QPointer.assign
  rw [Heap.rdd_eq s h₂ hh₂, Heap.rdd_eq s h hh]
  simp only [Option.bind_eq_bind, Option.some_bind, if_neg hne, QPointer.reset_eq hwf hh₂,
    Heap.rdd_eq _ h hh', hd']
  cases hd : s.d h with
  | none => rfl
  | some k =>
    have hk₂ : s.d h₂ ≠ some k := fun e => hne (hwf.handles.2.1 h₂ hh₂ h hh k e hd)
    have hk : (resetHeap s h₂).cell k = true :=
      (resetHeap_cell s h₂ k).mpr ⟨hwf.handles.1 h hh k hd, hk₂⟩
    simp only [Heap.rdc_cell _ hk, Option.some_bind, resetHeap_object s h₂ k hk₂]
    cases ho : s.object k with
    | none => rfl
    | some n =>
      have hn : (resetHeap s h₂).live n = true := by
        rw [resetHeap_live]; exact observed_live hwf hh (by rw [hd]; exact ho)
      have hd₂ : (resetHeap s h₂).d h₂ = none := by
        rw [resetHeap_d]; exact upd_same _ _ _
      have e := QObjectPrivate.addWeakPointer_wf (resetHeap_wf hwf hh₂) hn
        (by rw [resetHeap_nptrs]; exact hh₂) hd₂
      simp only [Heap.rd_live _ hn, Option.some_bind, e]
      rfl


/-! ## Copies of handles -/

/-- The cells after a new one is registered for the handle `h`. -/
theorem attach_cell_iff (s : Heap) (r : Option Nat) (h x : Nat) :
    (attach s r h).cell x = true ↔ (s.cell x = true ∨ (x = s.nslots ∧ r ≠ none)) := by
  cases r with
  | none => simp [attach]
  | some n =>
    show (pushCell s n h).cell x = true ↔ _
    rw [pushCell_cell_iff]
    simp

/-- The new cell of a handle: it is a new allocation and no other handle holds it. -/
theorem attach_fresh {s : Heap} {n h : Nat} (hwf : WF s) (hh : h < s.nptrs)
    (hd : s.d h = none) (hn : s.live n = true) :
    (attach s (some n) h).d h = some s.nslots ∧ s.cell s.nslots = false ∧
    (attach s (some n) h).cell s.nslots = true ∧
    (∀ x, x < (attach s (some n) h).nptrs → (attach s (some n) h).d x = some s.nslots →
      x = h) := by
  have hr : ∀ m, some n = some m → s.live m = true := fun m e => by
    cases e; exact hn
  have hwf' := attach_wf hwf hh hd hr
  have hdh : (attach s (some n) h).d h = some s.nslots := by
    rw [attach_d_self hd]; rfl
  refine ⟨hdh, (attach_cell s n h).1, (attach_cell s n h).2, ?_⟩
  intro x hx hdx
  exact hwf'.handles.2.1 x hx h (by rw [attach_nptrs]; exact hh) _ hdx hdh

/-- What a handle observes, read from `get`. -/
theorem observed_of_get {s : Heap} {h : Nat} {r : Option Nat} (hwf : WF s) (hh : h < s.nptrs)
    (hget : QPointer.get s h = some r) : (s.d h).bind s.object = r := by
  rw [get_wf hwf hh] at hget
  exact Option.some.inj hget

theorem lt_of_get {s : Heap} {h n : Nat} (hget : QPointer.get s h = some (some n)) :
    h < s.nptrs :=
  (get_eq_some_iff.mp hget).1

/-- A handle that observes `n` keeps observing it when another handle is reset, through a cell
in the weak-slot list of `n`, and is null after `n` is deleted. -/
theorem observer_survives_reset {s : Heap} {h H n : Nat} (hwf : WF s) (hh : h < s.nptrs)
    (hH : H < s.nptrs) (hne : H ≠ h) (hget : QPointer.get s H = some (some n)) :
    ∃ s₂, QPointer.reset s h = some s₂ ∧ QPointer.dtor s h = some s₂ ∧ WF s₂ ∧
      QPointer.get s₂ H = some (some n) ∧ (∃ k, s₂.d H = some k ∧ k ∈ weakSlots s₂ n) ∧
      ∃ F s₃, (∀ f, F ≤ f → QObject.destroy f s₂ n = some s₃) ∧
        QPointer.get s₃ H = some none ∧ QPointer.isNull s₃ H = some true := by
  have hwf₂ := resetHeap_wf hwf hh
  have hget₂ : QPointer.get (resetHeap s h) H = some (some n) := by
    rw [resetHeap_get_other hwf hh hH hne]; exact hget
  obtain ⟨_, k, hd, hk, ho⟩ := get_eq_some_iff.mp hget₂
  obtain ⟨hn, hmem⟩ := hwf₂.weakInv.member k n hk ho
  obtain ⟨F, s₃, hrun, _, hsw, _⟩ := destroy_wf hwf₂ hn
  have hin : inSubtree (resetHeap s h) n n = true := (inSubtree_iff hwf₂ hn).mpr Desc.self
  obtain ⟨h1, h2⟩ := get_after_destroy hsw hget₂ hin
  exact ⟨resetHeap s h, QPointer.reset_eq hwf hh, QPointer.reset_eq hwf hh, hwf₂, hget₂,
    ⟨k, hd, hmem⟩, F, s₃, hrun, h1, h2⟩

/-- C7 (independence of copies).  In a well-formed heap let the handle `h` observe the object
`n`.  Both for the handle made from `h` by the copy constructor and for another handle `h₂`
after `h₂ = h`: the copy returns; then `h.reset()`, which is all the destructor of `h` runs,
returns and leaves a well-formed heap in which the copy still observes `n`, through a cell that
is in the weak-slot list of `n`; and deleting `n` after that returns and makes the copy null. -/
theorem copies_do_not_share_fate (s : Heap) (h h₂ n : Nat) (hwf : WF s) (hh₂ : h₂ < s.nptrs)
    (hne : h₂ ≠ h) (hget : QPointer.get s h = some (some n)) :
    (∃ s₁ s₂, QPointer.copy s h = some (s₁, s.nptrs) ∧
      QPointer.reset s₁ h = some s₂ ∧ QPointer.dtor s₁ h = some s₂ ∧ WF s₂ ∧
      QPointer.get s₂ s.nptrs = some (some n) ∧
      (∃ k, s₂.d s.nptrs = some k ∧ k ∈ weakSlots s₂ n) ∧
      ∃ F s₃, (∀ f, F ≤ f → QObject.destroy f s₂ n = some s₃) ∧
        QPointer.get s₃ s.nptrs = some none ∧ QPointer.isNull s₃ s.nptrs = some true) ∧
    (∃ s₁ s₂, QPointer.assign s h₂ h = some s₁ ∧
      QPointer.reset s₁ h = some s₂ ∧ QPointer.dtor s₁ h = some s₂ ∧ WF s₂ ∧
      QPointer.get s₂ h₂ = some (some n) ∧
      (∃ k, s₂.d h₂ = some k ∧ k ∈ weakSlots s₂ n) ∧
      ∃ F s₃, (∀ f, F ≤ f → QObject.destroy f s₂ n = some s₃) ∧
        QPointer.get s₃ h₂ = some none ∧ QPointer.isNull s₃ h₂ = some true) := by
  have hh := lt_of_get hget
  have hobs := observed_of_get hwf hh hget
  have hn : s.live n = true := observed_live hwf hh hobs
  have hr : ∀ (s₀ : Heap), s₀.live = s.live → ∀ m, some n = some m → s₀.live m = true :=
    fun s₀ e m em => by cases em; rw [e]; exact hn
  constructor
  · have hwf₀ := newPtr_wf hwf
    have hlt : s.nptrs < s.newPtr.1.nptrs := Nat.lt_succ_self _
    have hwf₁ := attach_wf hwf₀ hlt (newPtr_d_self s) (hr _ rfl)
    have hg₁ := attach_get_self hwf₀ hlt (newPtr_d_self s) (hr _ rfl)
    have hnp : (attach s.newPtr.1 (some n) s.nptrs).nptrs = s.nptrs + 1 := attach_nptrs _ _ _
    obtain ⟨s₂, h1, h2, h3, h4, h5, h6⟩ := observer_survives_reset hwf₁
      (show h < _ by rw [hnp]; omega) (show s.nptrs < _ by rw [hnp]; omega)
      (show s.nptrs ≠ h by omega) hg₁
    refine ⟨_, s₂, ?_, h1, h2, h3, h4, h5, h6⟩
    rw [QPointer.copy_eq hwf hh, hobs]
  · have hwf₀ := resetHeap_wf hwf hh₂
    have hlt : h₂ < (resetHeap s h₂).nptrs := by rw [resetHeap_nptrs]; exact hh₂
    have hd₀ : (resetHeap s h₂).d h₂ = none := by rw [resetHeap_d]; exact upd_same _ _ _
    have hwf₁ := attach_wf hwf₀ hlt hd₀ (hr _ (resetHeap_live s h₂))
    have hg₁ := attach_get_self hwf₀ hlt hd₀ (hr _ (resetHeap_live s h₂))
    have hnp : (attach (resetHeap s h₂) (some n) h₂).nptrs = s.nptrs := by
      rw [attach_nptrs, resetHeap_nptrs]
    obtain ⟨s₂, h1, h2, h3, h4, h5, h6⟩ := observer_survives_reset hwf₁
      (show h < _ by rw [hnp]; exact hh) (show h₂ < _ by rw [hnp]; exact hh₂) hne hg₁
    refine ⟨_, s₂, ?_, h1, h2, h3, h4, h5, h6⟩
    rw [QPointer.assign_eq hwf hh₂ hh hne, hobs]

theorem copies_do_not_share_fate_witness :
    WF demo ∧ 0 < demo.nptrs ∧ 0 ≠ 2 ∧ QPointer.get demo 2 = some (some 2) ∧
    (∃ s₁ s₂, QPointer.copy demo 2 = some (s₁, demo.nptrs) ∧
      QPointer.reset s₁ 2 = some s₂ ∧ QPointer.dtor s₁ 2 = some s₂ ∧ WF s₂ ∧
      QPointer.get s₂ demo.nptrs = some (some 2) ∧
      (∃ k, s₂.d demo.nptrs = some k ∧ k ∈ weakSlots s₂ 2) ∧
      ∃ F s₃, (∀ f, F ≤ f → QObject.destroy f s₂ 2 = some s₃) ∧
        QPointer.get s₃ demo.nptrs = some none ∧
        QPointer.isNull s₃ demo.nptrs = some true) ∧
    (∃ s₁ s₂, QPointer.assign demo 0 2 = some s₁ ∧
      QPointer.reset s₁ 2 = some s₂ ∧ QPointer.dtor s₁ 2 = some s₂ ∧ WF s₂ ∧
      QPointer.get s₂ 0 = some (some 2) ∧
      (∃ k, s₂.d 0 = some k ∧ k ∈ weakSlots s₂ 2) ∧
      ∃ F s₃, (∀ f, F ≤ f → QObject.destroy f s₂ 2 = some s₃) ∧
        QPointer.get s₃ 0 = some none ∧ QPointer.isNull s₃ 0 = some true) :=
  ⟨by decide, by decide, by decide, by decide,
    copies_do_not_share_fate demo 2 0 2 (by decide) (by decide) (by decide) (by decide)⟩

/-- C8 (copy semantics).  In a well-formed heap, both the copy constructor from the handle `h`
and `h₂ = h` for another handle `h₂` return and leave a well-formed heap in which the copy
observes what `h` observed and `h` observes what it did.  When `h` observes an object `n`, the
copy holds the newly allocated cell `s.nslots`, which `h` does not hold and no other handle
holds, and which is in the weak-slot list of `n`: that list is the new cell followed by the
previous list (without the cell that `h₂` held, for the assignment).  When `h` observes nothing,
being empty or observing a destroyed object, the copy holds no cell. -/
theorem copy_semantics (s : Heap) (h h₂ : Nat) (hwf : WF s) (hh : h < s.nptrs)
    (hh₂ : h₂ < s.nptrs) (hne : h₂ ≠ h) :
    (∃ s', QPointer.copy s h = some (s', s.nptrs) ∧ WF s' ∧
      QPointer.get s' s.nptrs = QPointer.get s h ∧ QPointer.get s' h = QPointer.get s h ∧
      (∀ n, QPointer.get s h = some (some n) →
        s'.d s.nptrs = some s.nslots ∧ s.cell s.nslots = false ∧ s'.cell s.nslots = true ∧
        s'.d h ≠ some s.nslots ∧
        (∀ x, x < s'.nptrs → s'.d x = some s.nslots → x = s.nptrs) ∧
        weakSlots s' n = s.nslots :: weakSlots s n) ∧
      (QPointer.get s h = some none → s'.d s.nptrs = none)) ∧
    (∃ s', QPointer.assign s h₂ h = some s' ∧ WF s' ∧
      QPointer.get s' h₂ = QPointer.get s h ∧ QPointer.get s' h = QPointer.get s h ∧
      (∀ n, QPointer.get s h = some (some n) →
        s'.d h₂ = some s.nslots ∧ s.cell s.nslots = false ∧ s'.cell s.nslots = true ∧
        s'.d h ≠ some s.nslots ∧
        (∀ x, x < s'.nptrs → s'.d x = some s.nslots → x = h₂) ∧
        weakSlots s' n =
          s.nslots :: (weakSlots s n).filter (fun x => decide (s.d h₂ ≠ some x))) ∧
      (QPointer.get s h = some none → s'.d h₂ = none)) := by
  have hgs := get_wf hwf hh
  have hr : ∀ (s₀ : Heap), s₀.live = s.live →
      ∀ m, (s.d h).bind s.object = some m → s₀.live m = true :=
    fun s₀ e m em => by rw [e]; exact observed_live hwf hh em
  constructor
  · have hwf₀ := newPtr_wf hwf
    have hlt : s.nptrs < s.newPtr.1.nptrs := Nat.lt_succ_self _
    have hd₀ := newPtr_d_self s
    have hwf₁ := attach_wf hwf₀ hlt hd₀ (hr _ rfl)
    refine ⟨_, QPointer.copy_eq hwf hh, hwf₁, ?_, ?_, ?_, ?_⟩
    · rw [attach_get_self hwf₀ hlt hd₀ (hr _ rfl), hgs]
    · rw [attach_get_other hwf₀ hlt hd₀ (hr _ rfl) (Nat.lt_succ_of_lt hh) (by omega),
        newPtr_get_other hwf hh]
    · intro n hget
      have hobs := observed_of_get hwf hh hget
      have hn : s.live n = true := observed_live hwf hh hobs
      rw [hobs]
      obtain ⟨h1, h2, h3, h4⟩ := attach_fresh hwf₀ hlt hd₀ hn
      refine ⟨h1, h2, h3, ?_, h4, attach_weakSlots hwf₀ hn⟩
      intro e
      have := h4 h (by rw [attach_nptrs]; exact Nat.lt_succ_of_lt hh) e
      omega
    · intro hget
      rw [observed_of_get hwf hh hget]
      exact hd₀
  · have hwf₀ := resetHeap_wf hwf hh₂
    have hlt : h₂ < (resetHeap s h₂).nptrs := by rw [resetHeap_nptrs]; exact hh₂
    have hd₀ : (resetHeap s h₂).d h₂ = none := by rw [resetHeap_d]; exact upd_same _ _ _
    have hl₀ := resetHeap_live s h₂
    have hwf₁ := attach_wf hwf₀ hlt hd₀ (hr _ hl₀)
    have hh' : h < (resetHeap s h₂).nptrs := by rw [resetHeap_nptrs]; exact hh
    have hne' : h ≠ h₂ := fun e => hne e.symm
    refine ⟨_, QPointer.assign_eq hwf hh₂ hh hne, hwf₁, ?_, ?_, ?_, ?_⟩
    · rw [attach_get_self hwf₀ hlt hd₀ (hr _ hl₀), hgs]
    · rw [attach_get_other hwf₀ hlt hd₀ (hr _ hl₀) hh' hne',
        resetHeap_get_other hwf hh₂ hh hne']
    · intro n hget
      have hobs := observed_of_get hwf hh hget
      have hn : s.live n = true := observed_live hwf hh hobs
      have hn₀ : (resetHeap s h₂).live n = true := by rw [hl₀]; exact hn
      rw [hobs]
      obtain ⟨h1, h2, h3, h4⟩ := attach_fresh hwf₀ hlt hd₀ hn₀
      rw [resetHeap_nslots] at h1 h3 h4
      refine ⟨h1, (attach_cell s n h).1, h3, ?_, h4, ?_⟩
      · intro e
        exact hne' (h4 h (by rw [attach_nptrs]; exact hh') e)
      · rw [attach_weakSlots hwf₀ hn₀, resetHeap_nslots, resetHeap_weakSlots hwf hh₂ n hn]
    · intro hget
      rw [observed_of_get hwf hh hget]
      exact hd₀

theorem copy_semantics_witness :
    WF demo ∧ 2 < demo.nptrs ∧ 0 < demo.nptrs ∧ 0 ≠ 2 ∧
    ((∃ s', QPointer.copy demo 2 = some (s', demo.nptrs) ∧ WF s' ∧
      QPointer.get s' demo.nptrs = QPointer.get demo 2 ∧
      QPointer.get s' 2 = QPointer.get demo 2 ∧
      (∀ n, QPointer.get demo 2 = some (some n) →
        s'.d demo.nptrs = some demo.nslots ∧ demo.cell demo.nslots = false ∧
        s'.cell demo.nslots = true ∧ s'.d 2 ≠ some demo.nslots ∧
        (∀ x, x < s'.nptrs → s'.d x = some demo.nslots → x = demo.nptrs) ∧
        weakSlots s' n = demo.nslots :: weakSlots demo n) ∧
      (QPointer.get demo 2 = some none → s'.d demo.nptrs = none)) ∧
    (∃ s', QPointer.assign demo 0 2 = some s' ∧ WF s' ∧
      QPointer.get s' 0 = QPointer.get demo 2 ∧ QPointer.get s' 2 = QPointer.get demo 2 ∧
      (∀ n, QPointer.get demo 2 = some (some n) →
        s'.d 0 = some demo.nslots ∧ demo.cell demo.nslots = false ∧
        s'.cell demo.nslots = true ∧ s'.d 2 ≠ some demo.nslots ∧
        (∀ x, x < s'.nptrs → s'.d x = some demo.nslots → x = 0) ∧
        weakSlots s' n =
          demo.nslots :: (weakSlots demo n).filter (fun x => decide (demo.d 0 ≠ some x))) ∧
      (QPointer.get demo 2 = some none → s'.d 0 = none))) :=
  ⟨by decide, by decide, by decide, by decide,
    copy_semantics demo 2 0 (by decide) (by decide) (by decide) (by decide)⟩

/-! ## Raw references -/

/-- C9 (construct and assign from a raw reference).  In a well-formed heap let `h` be a handle,
in any state, and `r` a raw reference that is null or names a live object.  Then `h = r` returns
and leaves a well-formed heap with `h.get() = r`; the cell that `h` held is released and is in no
weak-slot list; the weak-slot list of every object is the previous one without that cell, and for
the object `r` with the one new cell `s.nslots`, which `h` holds; `h` holds no cell when `r` is
null.  The constructor from `r` returns a new handle with `get() = r`. -/
theorem raw_assignment (s : Heap) (h : Nat) (r : Option Nat) (hwf : WF s) (hh : h < s.nptrs)
    (hr : ∀ n, r = some n → s.live n = true) :
    (∃ s', QPointer.assignRaw s h r = some s' ∧ WF s' ∧ QPointer.get s' h = some r ∧
      (∀ k, s.d h = some k → s'.cell k = false ∧ ∀ m, s.live m = true → k ∉ weakSlots s' m) ∧
      (∀ m, s.live m = true → ∀ x, x ∈ weakSlots s' m ↔
        ((x ∈ weakSlots s m ∧ s.d h ≠ some x) ∨ (x = s.nslots ∧ r = some m))) ∧
      (∀ n, r = some n → s'.d h = some s.nslots ∧ s.cell s.nslots = false ∧
        s'.cell s.nslots = true ∧
        weakSlots s' n =
          s.nslots :: (weakSlots s n).filter (fun x => decide (s.d h ≠ some x))) ∧
      (r = none → s'.d h = none)) ∧
    (∃ s', QPointer.ofRaw s r = some (s', s.nptrs) ∧ WF s' ∧
      QPointer.get s' s.nptrs = some r) := by
  constructor
  · have hwf₀ := resetHeap_wf hwf hh
    have hlt : h < (resetHeap s h).nptrs := by rw [resetHeap_nptrs]; exact hh
    have hd₀ : (resetHeap s h).d h = none := by rw [resetHeap_d]; exact upd_same _ _ _
    have hl₀ := resetHeap_live s h
    have hr₀ : ∀ n, r = some n → (resetHeap s h).live n = true :=
      fun n e => by rw [hl₀]; exact hr n e
    have hmem : ∀ m, s.live m = true → ∀ x, x ∈ weakSlots (attach (resetHeap s h) r h) m ↔
        ((x ∈ weakSlots s m ∧ s.d h ≠ some x) ∨ (x = s.nslots ∧ r = some m)) := by
      intro m hm x
      rw [attach_mem hwf₀ hr₀ m (by rw [hl₀]; exact hm), resetHeap_mem hwf hh m hm,
        resetHeap_nslots]
    refine ⟨_, QPointer.assignRaw_eq hwf hh hr, attach_wf hwf₀ hlt hd₀ hr₀,
      attach_get_self hwf₀ hlt hd₀ hr₀, ?_, hmem, ?_, ?_⟩
    · intro k hk
      have hkc := Heap.cell_lt (hwf.handles.1 h hh k hk)
      constructor
      · cases hc : (attach (resetHeap s h) r h).cell k with
        | false => rfl
        | true =>
          rcases (attach_cell_iff _ r h k).mp hc with hc' | ⟨hc', _⟩
          · exact absurd hk ((resetHeap_cell s h k).mp hc').2
          · rw [resetHeap_nslots] at hc'; omega
      · intro m hm hx
        rcases (hmem m hm k).mp hx with ⟨_, hx'⟩ | ⟨hx', _⟩
        · exact hx' hk
        · omega
    · intro n hn
      subst hn
      have hn₀ := hr₀ n rfl
      obtain ⟨h1, _, h3, _⟩ := attach_fresh hwf₀ hlt hd₀ hn₀
      rw [resetHeap_nslots] at h1 h3
      refine ⟨h1, (attach_cell s n h).1, h3, ?_⟩
      rw [attach_weakSlots hwf₀ hn₀, resetHeap_nslots, resetHeap_weakSlots hwf hh n (hr n rfl)]
    · intro e
      subst e
      exact hd₀
  · have hwf₀ := newPtr_wf hwf
    have hlt : s.nptrs < s.newPtr.1.nptrs := Nat.lt_succ_self _
    have hr₀ : ∀ n, r = some n → s.newPtr.1.live n = true := hr
    exact ⟨_, QPointer.ofRaw_eq hwf hr, attach_wf hwf₀ hlt (newPtr_d_self s) hr₀,
      attach_get_self hwf₀ hlt (newPtr_d_self s) hr₀⟩

theorem raw_assignment_witness :
    WF demo ∧ 0 < demo.nptrs ∧ (∀ n, some 4 = some n → demo.live n = true) ∧
    ((∃ s', QPointer.assignRaw demo 0 (some 4) = some s' ∧ WF s' ∧
      QPointer.get s' 0 = some (some 4) ∧
      (∀ k, demo.d 0 = some k →
        s'.cell k = false ∧ ∀ m, demo.live m = true → k ∉ weakSlots s' m) ∧
      (∀ m, demo.live m = true → ∀ x, x ∈ weakSlots s' m ↔
        ((x ∈ weakSlots demo m ∧ demo.d 0 ≠ some x) ∨ (x = demo.nslots ∧ some 4 = some m))) ∧
      (∀ n, some 4 = some n → s'.d 0 = some demo.nslots ∧ demo.cell demo.nslots = false ∧
        s'.cell demo.nslots = true ∧
        weakSlots s' n =
          demo.nslots :: (weakSlots demo n).filter (fun x => decide (demo.d 0 ≠ some x))) ∧
      (some 4 = none → s'.d 0 = none)) ∧
    (∃ s', QPointer.ofRaw demo (some 4) = some (s', demo.nptrs) ∧ WF s' ∧
      QPointer.get s' demo.nptrs = some (some 4))) :=
  ⟨by decide, by decide, fun n e => by cases e; decide,
    raw_assignment demo 0 (some 4) (by decide) (by decide) (fun n e => by cases e; decide)⟩

/-! ## Resetting an empty handle -/

theorem Heap.wrD_post {s s' : Heap} {h : Nat} {v : Option Nat} (hw : s.wrD h v = some s') :
    s'.d h = v ∧ h < s'.nptrs := by
  unfold Heap.wrD at hw
  by_cases hh : h < s.nptrs
  · rw [if_pos hh] at hw
    cases hw
    exact ⟨upd_same _ _ _, hh⟩
  · rw [if_neg hh] at hw
    cases hw

/-- When `removeWeakPointer` returns, the handle holds no cell. -/
theorem QObjectPrivate.removeWeakPointer_post {s s' : Heap} {n h : Nat}
    (hres : QObjectPrivate.removeWeakPointer s n h = some s') :
    s'.d h = none ∧ h < s'.nptrs := by
  unfold QObjectPrivate.removeWeakPointer at hres
  by_cases hh : h < s.nptrs
  · rw [Heap.rdd_eq s h hh] at hres
    simp only [Option.bind_eq_bind, Option.some_bind] at hres
    cases hd : s.d h with
    | none =>
      rw [hd] at hres
      cases hres
      exact ⟨hd, hh⟩
    | some k =>
      rw [hd] at hres
      simp only [Option.bind_eq_some] at hres
      obtain ⟨_, _, _, _, _, _, _, _, hw⟩ := hres
      exact Heap.wrD_post hw
  · simp [Heap.rdd, hh] at hres

/-- When `reset` returns, the handle holds no cell. -/
theorem QPointer.reset_post {s s' : Heap} {h : Nat} (hres : QPointer.reset s h = some s') :
    s'.d h = none ∧ h < s'.nptrs := by
  unfold QPointer.reset at hres
  by_cases hh : h < s.nptrs
  · rw [Heap.rdd_eq s h hh] at hres
    simp only [Option.bind_eq_bind, Option.some_bind] at hres
    cases hd : s.d h with
    | none =>
      rw [hd] at hres
      cases hres
      exact ⟨hd, hh⟩
    | some k =>
      rw [hd] at hres
      simp only [Option.bind_eq_some] at hres
      obtain ⟨o, _, hres⟩ := hres
      cases o with
      | none =>
        simp only [Option.bind_eq_some] at hres
        obtain ⟨_, _, hw⟩ := hres
        exact Heap.wrD_post hw
      | some n =>
        simp only [Option.bind_eq_some] at hres
        obtain ⟨_, _, hw⟩ := hres
        exact QObjectPrivate.removeWeakPointer_post hw
  · simp [Heap.rdd, hh] at hres

/-- The method `reset` on a handle without a cell returns the heap it was given. -/
theorem QPointer.reset_of_none {s : Heap} {h : Nat} (hh : h < s.nptrs) (hd : s.d h = none) :
    QPointer.reset s h = some s := by
  unfold QPointer.reset
  rw [Heap.rdd_eq s h hh, hd]
  rfl

/-- C10 (resetting an empty handle).  For a handle `h` that holds no cell, `h.reset()` and the
destructor of `h` return the heap they were given, in which `h` is empty.  Consequently, whenever
`h.reset()` returns, a second `h.reset()`, or the destructor, returns the same heap, so that two
resets in a row are one; and in a well-formed heap `h.reset()` does return. -/
theorem empty_reset_noop (s : Heap) (h : Nat) (hh : h < s.nptrs) :
    (s.d h = none → QPointer.reset s h = some s ∧ QPointer.dtor s h = some s ∧
      QPointer.get s h = some none) ∧
    (∀ s', QPointer.reset s h = some s' →
      QPointer.reset s' h = some s' ∧ QPointer.dtor s' h = some s') ∧
    ((QPointer.reset s h).bind (fun s' => QPointer.reset s' h) = QPointer.reset s h) ∧
    (WF s → ∃ s', QPointer.reset s h = some s' ∧ WF s') := by
  have key : ∀ s', QPointer.reset s h = some s' → QPointer.reset s' h = some s' := by
    intro s' hres
    obtain ⟨hd, hh'⟩ := QPointer.reset_post hres
    exact QPointer.reset_of_none hh' hd
  refine ⟨?_, fun s' hres => ⟨key s' hres, key s' hres⟩, ?_, ?_⟩
  · intro hd
    refine ⟨QPointer.reset_of_none hh hd, QPointer.reset_of_none hh hd, ?_⟩
    unfold QPointer.get
    rw [Heap.rdd_eq s h hh, hd]
    rfl
  · cases hres : QPointer.reset s h with
    | none => rfl
    | some s' => exact key s' hres
  · intro hwf
    exact ⟨_, QPointer.reset_eq hwf hh, resetHeap_wf hwf hh⟩

theorem empty_reset_noop_witness :
    4 < (QPointer.mk demo).1.nptrs ∧ (QPointer.mk demo).1.d 4 = none ∧
    ((QPointer.mk demo).1.d 4 = none →
      QPointer.reset (QPointer.mk demo).1 4 = some (QPointer.mk demo).1 ∧
      QPointer.dtor (QPointer.mk demo).1 4 = some (QPointer.mk demo).1 ∧
      QPointer.get (QPointer.mk demo).1 4 = some none) ∧
    (∀ s', QPointer.reset (QPointer.mk demo).1 4 = some s' →
      QPointer.reset s' 4 = some s' ∧ QPointer.dtor s' 4 = some s') ∧
    ((QPointer.reset (QPointer.mk demo).1 4).bind (fun s' => QPointer.reset s' 4) =
      QPointer.reset (QPointer.mk demo).1 4) ∧
    (WF (QPointer.mk demo).1 →
      ∃ s', QPointer.reset (QPointer.mk demo).1 4 = some s' ∧ WF s') :=
  ⟨by decide, by decide, empty_reset_noop (QPointer.mk demo).1 4 (by decide)⟩


/-! ## The cascade when the parent links may be cyclic -/

theorem liveOut_mono {s s' : Heap} {D : List Nat} (hn : s'.nobjs = s.nobjs)
    (hl : ∀ x, s'.live x = true → s.live x = true) :
    (liveOut s' D).card ≤ (liveOut s D).card := by
  apply Finset.card_le_card
  intro x hx
  simp only [liveOut, Finset.mem_filter, Finset.mem_range] at hx ⊢
  exact ⟨hn ▸ hx.1, hl x hx.2.1, hx.2.2⟩

theorem liveOut_cons {s : Heap} {D : List Nat} {n : Nat} (hn : s.live n = true)
    (hD : n ∉ D) : (liveOut s (n :: D)).card < (liveOut s D).card := by
  apply Finset.card_lt_card
  rw [Finset.ssubset_iff_of_subset]
  · refine ⟨n, ?_, ?_⟩
    · simp only [liveOut, Finset.mem_filter, Finset.mem_range]
      exact ⟨Heap.live_lt hn, hn, hD⟩
    · simp [liveOut]
  · intro x hx
    simp only [liveOut, Finset.mem_filter, Finset.mem_range, List.mem_cons, not_or] at hx ⊢
    exact ⟨hx.1, hx.2.1, hx.2.2.2⟩

theorem shrunk_refl (s : Heap) : Shrunk s s :=
  ⟨rfl, rfl, rfl, rfl, rfl, fun _ h => h, fun _ _ h => h⟩

theorem shrunk_comp {s s₁ s₂ : Heap} (h₁ : Shrunk s s₁) (h₂ : Shrunk s₁ s₂) : Shrunk s s₂ :=
  ⟨h₂.nobjs.trans h₁.nobjs, h₂.nslots.trans h₁.nslots, h₂.slotFreed.trans h₁.slotFreed,
    h₂.nptrs.trans h₁.nptrs, h₂.d.trans h₁.d, fun x h => h₁.live x (h₂.live x h),
    fun k x h => h₁.object k x (h₂.object k x h)⟩

theorem Shrunk.cellKept {s s' : Heap} (h : Shrunk s s') : s'.cell = s.cell :=
  Heap.cell_congr h.nslots h.slotFreed

/-- The loop of `cleanupChildren` keeps the invariants. -/
theorem loop_keeps {N : Nat} (IH : DestroyKeeps N) {n : Nat} {D : List Nat} :
    ∀ (l : List Nat) (s : Heap),
      TreeInv s (n :: D) → WeakInv s → s.live n = true →
      (liveOut s (n :: D)).card < N → children s n = l →
      ∃ F s', (∀ f, F ≤ f → QObject.cleanupLoop f s (s.childrenHead n) = some s') ∧
        TreeInv s' (n :: D) ∧ WeakInv s' ∧ Shrunk s s' ∧ children s' n = [] ∧
        (∀ q, s'.live q = true → q ≠ n → children s' q = children s q)
  | [], s, hT, hW, hn, _, hl => by
    have hhead : s.childrenHead n = none := by
      have := (hT.chains n hn).1
      rw [hl] at this
      exact this
    exact ⟨0, s, fun f _ => by rw [hhead, cleanupLoop_none], hT, hW, shrunk_refl s, hl,
      fun _ _ _ => rfl⟩
  | c :: t, s, hT, hW, hn, hN, hl => by
    obtain ⟨hch, hnd⟩ := hT.chains n hn
    rw [hl] at hch hnd
    obtain ⟨hhead, ⟨hc, hcp⟩, _, htail⟩ := hch
    have hcD : c ∉ n :: D := by
      intro e
      exact (hT.exempt c e).2 n hn (by rw [hl]; exact List.mem_cons_self _ _)
    -- the first child
    obtain ⟨F₁, s₁, hrun₁, hT₁, hW₁, hS₁, _, hkids₁⟩ := IH s (n :: D) c hN hT hW hc hcD
    have hn₁ : s₁.live n = true := (hT₁.exempt n (List.mem_cons_self _ _)).1
    have hl₁ : children s₁ n = t := by
      rw [hkids₁ n hn₁, hl]; simp
    -- the other children
    obtain ⟨F₂, s₂, hrun₂, hT₂, hW₂, hS₂, hkids₂, hfr₂⟩ :=
      loop_keeps IH t s₁ hT₁ hW₁ hn₁
        (lt_of_le_of_lt (liveOut_mono hS₁.nobjs hS₁.live) hN) hl₁
    have hnext : s.nextSibling c = s₁.childrenHead n := by
      have h1 := Chain.cur_eq htail
      have h2 := Chain.cur_eq (hT₁.chains n hn₁).1
      rw [hl₁] at h2
      rw [h1, h2]
    refine ⟨max F₁ F₂ + 1, s₂, ?_, hT₂, hW₂, shrunk_comp hS₁ hS₂, hkids₂, ?_⟩
    · intro f hf
      obtain ⟨f', rfl⟩ : ∃ f', f = f' + 1 := ⟨f - 1, by omega⟩
      rw [hhead, cleanupLoop_some f' s c hc, hrun₁ f' (by omega)]
      simp only [Option.some_bind]
      rw [hnext]
      exact hrun₂ f' (by omega)
    · intro q hq hqn
      have hq₁ : s₁.live q = true := hS₂.live q hq
      rw [hfr₂ q hq hqn, hkids₁ q hq₁, List.erase_of_not_mem]
      intro hm
      have := ((hT.chains q (hS₁.live q hq₁)).1.live_of_mem c hm).2
      rw [hcp] at this
      exact hqn (Option.some.inj this).symm

/-- The destructor keeps the invariants, whether the parent links are acyclic or not. -/
theorem destroy_keeps : ∀ N, DestroyKeeps N
  | 0 => by intro s D n h; omega
  | N + 1 => by
    intro s D n hN hT hW hn hnD
    have IH := destroy_keeps N
    obtain ⟨s₁, e₁, hT₁, hW₁, hA₁, hG₁, hp₁, hd₁, hk₁⟩ := detach_step hT hW hn hnD
    have hn₁ : s₁.live n = true := by rw [hA₁.liveEq]; exact hn
    obtain ⟨s₂, e₂, hT₂, hW₂, hA₂, hS₂, hd₂, ho₂, hobs₂⟩ := clear_step hT₁ hW₁ hn₁
    have hl₂ : s₂.live = s.live := by rw [hA₂.liveEq, hA₁.liveEq]
    have hn₂ : s₂.live n = true := by rw [hl₂]; exact hn
    have hno₂ : s₂.nobjs = s.nobjs := by rw [hA₂.nobjs, hA₁.nobjs]
    have hcard : (liveOut s₂ (n :: D)).card < N := by
      have h1 := liveOut_cons hn₂ hnD
      have h2 : (liveOut s₂ D).card ≤ (liveOut s D).card :=
        liveOut_mono hno₂ (fun x hx => by rw [← hl₂]; exact hx)
      omega
    obtain ⟨F, s₃, e₃, hT₃, hW₃, hS₃, hkids₃, hfr₃⟩ :=
      loop_keeps IH (children s₂ n) s₂ hT₂ hW₂ hn₂ hcard rfl
    have hn₃ : s₃.live n = true := (hT₃.exempt n (List.mem_cons_self _ _)).1
    obtain ⟨s', e', hT', hW', hl', hG', hp', hno', hns', hsf', hnp', hd', hdel', hch'⟩ :=
      free_step hT₃ hW₃ hn₃ hnD hkids₃ (by
        intro k hk ho
        have hk₂ : s₂.cell k = true := by rw [← hS₃.cellKept]; exact hk
        exact hobs₂ k (by rw [← hA₂.cellEq]; exact hk₂) (hS₃.object k n ho))
    have hS : Shrunk s s' := by
      refine ⟨?_, ?_, ?_, ?_, ?_, ?_, ?_⟩
      · rw [hno', hS₃.nobjs, hno₂]
      · rw [hns', hS₃.nslots, hA₂.nslots, hA₁.nslots]
      · rw [hsf', hS₃.slotFreed, hA₂.slotFreed, hA₁.slotFreed]
      · rw [hnp', hS₃.nptrs, hA₂.nptrs, hA₁.nptrs]
      · rw [hd', hS₃.d, hA₂.d, hA₁.d]
      · intro x hx
        have := hS₃.live x ((hl' x).mp hx).1
        rw [hl₂] at this
        exact this
      · intro k x hx
        rw [hG'.object] at hx
        have h2 := hS₃.object k x hx
        rw [ho₂ k] at h2
        split at h2
        · cases h2
        · rw [hG₁.object] at h2; exact h2
    refine ⟨max s.nslots F + 1, s', ?_, hT', hW', hS, ?_, ?_⟩
    · intro f hf
      obtain ⟨f', rfl⟩ : ∃ f', f = f' + 1 := ⟨f - 1, by omega⟩
      rw [destroy_succ f' s n hn, e₁]
      simp only [Option.some_bind, Heap.rd_live _ hn₁]
      rw [e₂ f' (by rw [hA₁.nslots]; omega)]
      simp only [Option.some_bind, Heap.rd_live _ hn₂]
      rw [e₃ f' (by omega)]
      simp only [Option.some_bind]
      exact e'
    · cases hx : s'.live n with
      | false => rfl
      | true => exact absurd rfl ((hl' n).mp hx).2
    · intro q hq
      obtain ⟨hq₃, hqn⟩ := (hl' q).mp hq
      have hq₂ : s.live q = true := by
        have := hS₃.live q hq₃
        rw [hl₂] at this; exact this
      rw [hch', hfr₃ q hq₃ hqn, children_congr hA₂.nobjs hS₂.childrenHead hS₂.nextSibling,
        hk₁ q hq₂]

/-! ## More fuel gives the same result -/

theorem QObject.invalidate_mono : ∀ (f : Nat) (s : Heap) (n : Nat) (w : Option Nat) (s' : Heap),
    QObject.invalidate f s n w = some s' → QObject.invalidate (f + 1) s n w = some s' := by
  intro f
  induction f with
  | zero =>
    intro s n w s' h
    cases w with
    | none => simpa [QObject.invalidate] using h
    | some c => simp [QObject.invalidate] at h
  | succ f ih =>
    intro s n w s' h
    cases w with
    | none => simpa [QObject.invalidate] using h
    | some c =>
      rw [QObject.invalidate] at h ⊢
      simp only [Option.bind_eq_bind, Option.bind_eq_some] at h ⊢
      obtain ⟨nx, h1, s1, h2, cp, h3, cn, h4, s2, h5, cn', h6, cp', h7, s3, h8, s4, h9, s5,
        h10, h11⟩ := h
      exact ⟨nx, h1, s1, h2, cp, h3, cn, h4, s2, h5, cn', h6, cp', h7, s3, h8, s4, h9, s5,
        h10, ih _ _ _ _ h11⟩

/-- A call of `delete` on an object that is not live is undefined. -/
theorem destroy_dead (f : Nat) {s : Heap} {n : Nat} (hn : s.live n = false) :
    QObject.destroy f s n = none := by
  cases f with
  | zero => rw [QObject.destroy]
  | succ f =>
    rw [QObject.destroy]
    have : ({ s with deleted := s.deleted ++ [n] } : Heap).live n = false := hn
    simp [Heap.rd, this]

theorem cleanupLoop_dead (f : Nat) {s : Heap} {c : Nat} (hc : s.live c = false) :
    QObject.cleanupLoop f s (some c) = none := by
  cases f with
  | zero => rw [QObject.cleanupLoop]
  | succ f =>
    rw [QObject.cleanupLoop]
    simp [Heap.rd, hc]

theorem destroy_live {f : Nat} {s s' : Heap} {n : Nat} (h : QObject.destroy f s n = some s') :
    s.live n = true := by
  cases hn : s.live n with
  | true => rfl
  | false => rw [destroy_dead f hn] at h; cases h

theorem fuel_mono : ∀ f : Nat,
    (∀ s n s', QObject.destroy f s n = some s' → QObject.destroy (f + 1) s n = some s') ∧
    (∀ s h s', QObject.cleanupLoop f s h = some s' →
      QObject.cleanupLoop (f + 1) s h = some s') := by
  intro f
  induction f with
  | zero =>
    constructor
    · intro s n s' h
      rw [QObject.destroy] at h
      cases h
    · intro s h s' hr
      cases h with
      | none => rw [cleanupLoop_none] at hr ⊢; exact hr
      | some c => rw [QObject.cleanupLoop] at hr; cases hr
  | succ f ih =>
    constructor
    · intro s n s' h
      have hn := destroy_live h
      rw [destroy_succ _ s n hn] at h ⊢
      simp only [Option.bind_eq_some] at h ⊢
      obtain ⟨s₁, h1, w, h2, s₂, h3, hd, h4, s₃, h5, t, h6, h7⟩ := h
      exact ⟨s₁, h1, w, h2, s₂, QObject.invalidate_mono _ _ _ _ _ h3, hd, h4, s₃,
        ih.2 _ _ _ h5, t, h6, h7⟩
    · intro s h s' hr
      cases h with
      | none => rw [cleanupLoop_none] at hr ⊢; exact hr
      | some c =>
        cases hc : s.live c with
        | false => rw [cleanupLoop_dead _ hc] at hr; cases hr
        | true =>
          rw [cleanupLoop_some _ s c hc] at hr ⊢
          simp only [Option.bind_eq_some] at hr ⊢
          obtain ⟨t, h1, h2⟩ := hr
          exact ⟨t, ih.1 _ _ _ h1, ih.2 _ _ _ h2⟩

theorem destroy_mono {f f' : Nat} {s s' : Heap} {n : Nat}
    (h : QObject.destroy f s n = some s') (hf : f ≤ f') : QObject.destroy f' s n = some s' := by
  induction hf with
  | refl => exact h
  | step _ ih => exact (fuel_mono _).1 _ _ _ ih

/-- Every call of `delete` that returns keeps the invariants. -/
theorem destroy_ret {f : Nat} {s s' : Heap} {n : Nat} (hT : TreeInv s []) (hW : WeakInv s)
    (h : QObject.destroy f s n = some s') :
    TreeInv s' [] ∧ WeakInv s' ∧ Shrunk s s' ∧ s'.live n = false ∧
      (∀ q, s'.live q = true → children s' q = (children s q).erase n) := by
  obtain ⟨F, s₀, hrun, h1, h2, h3, h4, h5⟩ :=
    destroy_keeps _ s [] n (Nat.lt_succ_self _) hT hW (destroy_live h) (by simp)
  have e₁ := destroy_mono h (le_max_left f F)
  have e₂ := hrun (max f F) (le_max_right f F)
  rw [e₁] at e₂
  cases e₂
  exact ⟨h1, h2, h3, h4, h5⟩

/-! ## `setParent` in general -/

/-- An exempt object that is a root with null sibling links need not be exempt. -/
theorem TreeInv.root_in {s : Heap} {D : List Nat} {c : Nat} (hT : TreeInv s (c :: D))
    (hp : s.parent c = none) : TreeInv s D := by
  constructor
  · exact hT.chains
  · intro x p hx hxD hxp
    have hxc : x ≠ c := by
      intro e; subst e; rw [hp] at hxp; cases hxp
    exact hT.member x p hx (by simp [hxc, hxD]) hxp
  · intro x hx
    exact hT.exempt x (List.mem_cons_of_mem _ hx)
  · exact hT.roots

/-- A root is in no children list, so it may be exempt. -/
theorem TreeInv.root_out {s : Heap} {D : List Nat} {c : Nat} (hT : TreeInv s D)
    (hc : s.live c = true) (hp : s.parent c = none) : TreeInv s (c :: D) := by
  constructor
  · exact hT.chains
  · intro x p hx hxD hxp
    exact hT.member x p hx (fun e => hxD (List.mem_cons_of_mem _ e)) hxp
  · intro x hx
    rcases List.mem_cons.mp hx with rfl | hxD
    · refine ⟨hc, ?_⟩
      intro q hq hm
      have := ((hT.chains q hq).1.live_of_mem x hm).2
      rw [hp] at this
      cases this
    · exact hT.exempt x hxD
  · exact hT.roots

theorem sameAlloc_refl (s : Heap) : SameAlloc s s := ⟨rfl, rfl, rfl, rfl, rfl, rfl⟩

theorem sameReg_refl (s : Heap) : SameReg s s := ⟨rfl, rfl, rfl, rfl⟩

/-- In a state with the tree invariant `setParent` returns for a live object and a new parent
that is null or live, and the tree invariant holds again. -/
theorem setParent_keeps {s : Heap} (hT : TreeInv s []) {c : Nat} {v : Option Nat}
    (hc : s.live c = true) (hv : ∀ p, v = some p → s.live p = true) :
    ∃ s', QObject.setParent s c v = some s' ∧ TreeInv s' [] ∧ SameAlloc s s' ∧ SameReg s s' ∧
      s'.deleted = s.deleted ∧ s'.parent = upd s.parent c v := by
  by_cases hpv : s.parent c = v
  · refine ⟨s, ?_, hT, sameAlloc_refl s, sameReg_refl s, rfl, ?_⟩
    · unfold QObject.setParent
      simp only [Option.bind_eq_bind, Heap.rd_live _ hc, Option.some_bind, hpv, if_true]
    · rw [← hpv, upd_eq_self]
  · cases hp : s.parent c with
    | some p₁ =>
      cases v with
      | some p₂ =>
        have hne : p₁ ≠ p₂ := fun e => hpv (by rw [hp, e])
        obtain ⟨s', h1, h2, h3, h4, h5, h6, _⟩ := setParent_spec hT hc hp (hv p₂ rfl) hne
        exact ⟨s', h1, h2, h4, h5, h6, h3⟩
      | none =>
        have hT₁ := unlinkChild_inv hT hc (by simp) hp
        have hprev₁ : (unlinkChild s p₁ c).prevSibling c = none := by
          show unlinkPrev s.nextSibling s.prevSibling c c = none
          rw [unlinkPrev_apply]; simp
        have hnext₁ : (unlinkChild s p₁ c).nextSibling c = none := by
          show unlinkNext s.nextSibling s.prevSibling c c = none
          rw [unlinkNext_apply]; simp
        have hT₂ := withParent_inv none hT₁ ⟨hprev₁, hnext₁⟩
        have hT₃ : TreeInv (withParent (unlinkChild s p₁ c) c none) [] :=
          hT₂.root_in (upd_same _ _ _)
        refine ⟨_, ?_, hT₃, ⟨rfl, rfl, rfl, rfl, rfl, rfl⟩, ⟨rfl, rfl, rfl, rfl⟩, rfl, rfl⟩
        unfold QObject.setParent
        simp only [Option.bind_eq_bind, Heap.rd_live _ hc, Option.some_bind, hp,
          reduceCtorEq, if_false, removeChild_ok hT hc (by simp) hp]
        have hc₁ : (unlinkChild s p₁ c).live c = true := hc
        rw [Heap.wrParent_eq _ hc₁]
        rfl
    | none =>
      cases v with
      | none => exact absurd hp hpv
      | some p₂ =>
        have hp₂ := hv p₂ rfl
        have hT₁ := hT.root_out hc hp
        have hlinks := hT.roots c hc hp
        have hT₂ := withParent_inv (some p₂) hT₁ hlinks
        have hcp₂ : (withParent s c (some p₂)).parent c = some p₂ := upd_same _ _ _
        have hT₃ := linkChild_inv hT₂ (by simp) hcp₂ hp₂ hlinks.1
        refine ⟨_, ?_, hT₃, ⟨rfl, rfl, rfl, rfl, rfl, rfl⟩, ⟨rfl, rfl, rfl, rfl⟩, rfl, rfl⟩
        unfold QObject.setParent
        simp only [Option.bind_eq_bind, Heap.rd_live _ hc, Option.some_bind, hp,
          reduceCtorEq, if_false, Heap.wrParent_eq _ hc]
        refine QObject.addChild_eq hp₂ hc hcp₂ ?_
        intro q hq
        have hq' : (withParent s c (some p₂)).childrenHead p₂ = some q := hq
        have h1 := Chain.cur_eq (hT₂.chains p₂ hp₂).1
        rw [hq'] at h1
        exact ((hT₂.chains p₂ hp₂).1.live_of_mem q (List.mem_of_mem_head? h1.symm)).1

theorem Heap.rd_ret {s : Heap} {f : Nat → Option Nat} {n : Nat} {v : Option Nat}
    (h : s.rd f n = some v) : s.live n = true ∧ v = f n := by
  unfold Heap.rd at h
  split at h
  · rename_i hl
    cases h
    exact ⟨hl, rfl⟩
  · cases h

/-- A call of `addChild` that returns had a live receiver. -/
theorem addChild_live {s s' : Heap} {p c : Nat} (h : QObject.addChild s p c = some s') :
    s.live p = true := by
  unfold QObject.addChild at h
  simp only [Option.bind_eq_bind, Option.bind_eq_some] at h
  obtain ⟨cp, _, h⟩ := h
  split at h
  · cases h
  · simp only [Option.bind_eq_some] at h
    obtain ⟨hd, e, _⟩ := h
    exact (Heap.rd_ret e).1

/-- A call of `setParent` that returns had a live receiver, and a live new parent unless it
returned at once. -/
theorem setParent_pre {s s' : Heap} {c : Nat} {v : Option Nat}
    (h : QObject.setParent s c v = some s') :
    s.live c = true ∧ (s.parent c = v ∨ ∀ p, v = some p → s.live p = true) := by
  unfold QObject.setParent at h
  simp only [Option.bind_eq_bind, Option.bind_eq_some] at h
  obtain ⟨p, hp, h⟩ := h
  obtain ⟨hc, rfl⟩ := Heap.rd_ret hp
  refine ⟨hc, ?_⟩
  split at h
  · rename_i hpv
    exact Or.inl hpv
  · right
    intro p₂ e
    subst e
    simp only [Option.bind_eq_some] at h
    obtain ⟨s₁, e₁, s₂, e₂, e₃⟩ := h
    have h₁ : SameParents s s₁ := by
      cases hq : s.parent c with
      | none => rw [hq] at e₁; cases e₁; exact SameParents.rfl' s
      | some q => rw [hq] at e₁; exact removeChild_same e₁
    have hc₁ : s₁.live c = true := by rw [h₁.live_eq]; exact hc
    rw [Heap.wrParent_eq _ hc₁] at e₂
    cases e₂
    have := addChild_live e₃
    have e : ({ s₁ with parent := upd s₁.parent c (some p₂) } : Heap).live = s₁.live := rfl
    rw [e, h₁.live_eq] at this
    exact this

/-- Every call of `setParent` that returns keeps the tree invariant and leaves the allocation
data, the handles and the weak-slot registry alone. -/
theorem setParent_ret {s s' : Heap} (hT : TreeInv s []) {c : Nat} {v : Option Nat}
    (h : QObject.setParent s c v = some s') :
    TreeInv s' [] ∧ SameAlloc s s' ∧ SameReg s s' ∧ s'.deleted = s.deleted ∧
      s'.parent = upd s.parent c v := by
  obtain ⟨hc, hv⟩ := setParent_pre h
  have hv' : ∀ p, v = some p → s.live p = true := by
    rcases hv with e | hv
    · intro p ep
      rw [ep] at e
      exact (hT.member c p hc (by simp) e).1
    · exact hv
  obtain ⟨s₀, e, h1, h2, h3, h4, h5⟩ := setParent_keeps hT hc hv'
  rw [h] at e
  cases e
  exact ⟨h1, h2, h3, h4, h5⟩

/-! ## A new object -/

theorem newObj_live (s : Heap) (x : Nat) :
    s.newObj.1.live x = true ↔ (s.live x = true ∨ x = s.nobjs) := by
  rw [Heap.live_iff, Heap.live_iff]
  show (x < s.nobjs + 1 ∧ upd s.objFreed s.nobjs false x = false) ↔ _
  by_cases hx : x = s.nobjs
  · subst hx; simp
  · rw [upd_ne _ _ hx]
    constructor
    · rintro ⟨h1, h2⟩
      exact Or.inl ⟨by omega, h2⟩
    · rintro (⟨h1, h2⟩ | h)
      · exact ⟨by omega, h2⟩
      · exact absurd h hx

theorem newObj_children {s : Heap} (hT : TreeInv s []) (p : Nat) (hp : s.newObj.1.live p = true) :
    Linked s.newObj.1 p (if p = s.nobjs then [] else children s p) := by
  by_cases hpn : p = s.nobjs
  · subst hpn
    simp only [if_true]
    show upd s.childrenHead s.nobjs none s.nobjs = none
    exact upd_same _ _ _
  · simp only [hpn, if_false]
    have hp' : s.live p = true := by
      rcases (newObj_live s p).mp hp with h | h
      · exact h
      · exact absurd h hpn
    obtain ⟨hch, _⟩ := hT.chains p hp'
    have hne : ∀ x ∈ children s p, x ≠ s.nobjs := by
      intro x hx e
      have := Heap.live_lt (hch.live_of_mem x hx).1
      omega
    unfold Linked
    have hhead : s.newObj.1.childrenHead p = s.childrenHead p := upd_ne _ _ hpn
    rw [hhead]
    refine Chain.frame hch ?_ ?_ ?_
    · intro x hx hok
      refine ⟨(newObj_live s x).mpr (Or.inl hok.1), ?_⟩
      show upd s.parent s.nobjs none x = some p
      rw [upd_ne _ _ (hne x hx)]
      exact hok.2
    · intro x hx
      exact upd_ne _ _ (hne x hx)
    · intro x hx
      exact upd_ne _ _ (hne x hx)

theorem newObj_children_eq {s : Heap} (hT : TreeInv s []) (p : Nat)
    (hp : s.newObj.1.live p = true) :
    children s.newObj.1 p = if p = s.nobjs then [] else children s p := by
  refine children_eq_of_linked (newObj_children hT p hp) ?_
  by_cases hpn : p = s.nobjs
  · simp [hpn]
  · simp only [hpn, if_false]
    have hp' : s.live p = true := by
      rcases (newObj_live s p).mp hp with h | h
      · exact h
      · exact absurd h hpn
    exact (hT.chains p hp').2

/-- Storage for a new object keeps the tree invariant: the new object is a root without
children. -/
theorem newObj_tree {s : Heap} (hT : TreeInv s []) : TreeInv s.newObj.1 [] := by
  constructor
  · intro p hp
    rw [newObj_children_eq hT p hp]
    refine ⟨newObj_children hT p hp, ?_⟩
    by_cases hpn : p = s.nobjs
    · simp [hpn]
    · simp only [hpn, if_false]
      have hp' : s.live p = true := by
        rcases (newObj_live s p).mp hp with h | h
        · exact h
        · exact absurd h hpn
      exact (hT.chains p hp').2
  · intro c p hc _ hcp
    have hcp' : upd s.parent s.nobjs none c = some p := hcp
    have hcn : c ≠ s.nobjs := by
      intro e; subst e; rw [upd_same] at hcp'; cases hcp'
    rw [upd_ne _ _ hcn] at hcp'
    have hc' : s.live c = true := by
      rcases (newObj_live s c).mp hc with h | h
      · exact h
      · exact absurd h hcn
    obtain ⟨hpl, hm⟩ := hT.member c p hc' (by simp) hcp'
    have hpl' := (newObj_live s p).mpr (Or.inl hpl)
    refine ⟨hpl', ?_⟩
    rw [newObj_children_eq hT p hpl']
    have : p ≠ s.nobjs := by
      have := Heap.live_lt hpl; omega
    simp only [this, if_false]
    exact hm
  · intro x hx; cases hx
  · intro c hc hcp
    by_cases hcn : c = s.nobjs
    · subst hcn
      exact ⟨upd_same _ _ _, upd_same _ _ _⟩
    · have hc' : s.live c = true := by
        rcases (newObj_live s c).mp hc with h | h
        · exact h
        · exact absurd h hcn
      have hcp' : upd s.parent s.nobjs none c = none := hcp
      rw [upd_ne _ _ hcn] at hcp'
      obtain ⟨h1, h2⟩ := hT.roots c hc' hcp'
      refine ⟨?_, ?_⟩
      · show upd s.prevSibling s.nobjs none c = none
        rw [upd_ne _ _ hcn]; exact h1
      · show upd s.nextSibling s.nobjs none c = none
        rw [upd_ne _ _ hcn]; exact h2

/-- Storage for a new object keeps the invariant of the registry: nothing observes the new
object. -/
theorem newObj_weak {s : Heap} (hW : WeakInv s) : WeakInv s.newObj.1 := by
  have hw : ∀ n, n ≠ s.nobjs → weakSlots s.newObj.1 n = weakSlots s n := by
    intro n hn
    show walk s.next s.nslots (upd s.weak_pointers s.nobjs none n) = _
    rw [upd_ne _ _ hn]
    rfl
  constructor
  · intro n hn
    by_cases hnn : n = s.nobjs
    · subst hnn
      have : weakSlots s.newObj.1 s.nobjs = [] := by
        show walk s.next s.nslots (upd s.weak_pointers s.nobjs none s.nobjs) = []
        rw [upd_same]
        cases s.nslots <;> rfl
      rw [this]
      refine ⟨?_, List.nodup_nil⟩
      show upd s.weak_pointers s.nobjs none s.nobjs = none
      exact upd_same _ _ _
    · have hn' : s.live n = true := by
        rcases (newObj_live s n).mp hn with h | h
        · exact h
        · exact absurd h hnn
      rw [hw n hnn]
      refine ⟨?_, (hW.chains n hn').2⟩
      unfold WLinked
      have hhead : s.newObj.1.weak_pointers n = s.weak_pointers n := upd_ne _ _ hnn
      rw [hhead]
      exact (hW.chains n hn').1
  · intro k n hk ho
    obtain ⟨hnl, hm⟩ := hW.member k n hk ho
    have hnn : n ≠ s.nobjs := by
      have := Heap.live_lt hnl; omega
    refine ⟨(newObj_live s n).mpr (Or.inl hnl), ?_⟩
    rw [hw n hnn]
    exact hm

theorem QObject.new_ret {s s' : Heap} {p : Option Nat} {n : Nat}
    (h : QObject.new s p = some (s', n)) :
    n = s.nobjs ∧ QObject.setParent s.newObj.1 s.nobjs p = some s' := by
  unfold QObject.new at h
  rw [show s.newObj = (s.newObj.1, s.nobjs) from rfl] at h
  simp only [Option.bind_eq_bind, Option.bind_eq_some] at h
  obtain ⟨t, e, h⟩ := h
  cases h
  exact ⟨rfl, e⟩

/-! ## The handle operations keep the invariants -/

/-- A step that leaves the tree alone keeps a consistent heap consistent when it keeps the
registry and the handles consistent. -/
theorem Consistent.regStep {s s' : Heap} (h : Consistent s) (e₁ : s'.nobjs = s.nobjs)
    (e₂ : s'.objFreed = s.objFreed) (e₃ : s'.parent = s.parent)
    (e₄ : s'.childrenHead = s.childrenHead) (e₅ : s'.nextSibling = s.nextSibling)
    (e₆ : s'.prevSibling = s.prevSibling) (hW : WeakInv s') (hH : HandlesOK s') :
    Consistent s' :=
  ⟨h.tree.congrTree e₁ e₂ e₃ e₄ e₅ e₆, hW, hH⟩

theorem WF.toConsistent {s : Heap} (h : WF s) : Consistent s :=
  ⟨h.treeInv, h.weakInv, h.handles⟩

theorem Heap.rdd_ret {s : Heap} {h : Nat} {v : Option Nat} (e : s.rdd h = some v) :
    h < s.nptrs ∧ v = s.d h := by
  unfold Heap.rdd at e
  split at e
  · rename_i hh
    cases e
    exact ⟨hh, rfl⟩
  · cases e

theorem Heap.rdc_ret {s : Heap} {f : Nat → Option Nat} {k : Nat} {v : Option Nat}
    (e : s.rdc f k = some v) : s.cell k = true ∧ v = f k := by
  unfold Heap.rdc at e
  split at e
  · rename_i hk
    cases e
    exact ⟨hk, rfl⟩
  · cases e

/-- In a consistent heap `reset` does what `resetHeap` says. -/
theorem QPointer.reset_cons {s : Heap} {h : Nat} (hC : Consistent s) (hh : h < s.nptrs) :
    QPointer.reset s h = some (resetHeap s h) ∧ Consistent (resetHeap s h) := by
  cases hd : s.d h with
  | none =>
    rw [resetHeap_of_none hd]
    exact ⟨QPointer.reset_of_none hh hd, hC⟩
  | some k =>
    have hk := hC.handles.1 h hh k hd
    have hrun : ∀ t, (do
        let o ← s.rdc s.object k
        match o with
        | some n => do
          let _ ← s.rd some n
          QObjectPrivate.removeWeakPointer s n h
        | none => do
          let s ← s.freeSlot k
          s.wrD h none) = some t → QPointer.reset s h = some t := by
      intro t e
      unfold QPointer.reset
      rw [Heap.rdd_eq s h hh, hd]
      exact e
    cases ho : s.object k with
    | none =>
      rw [resetHeap_of_null hd ho]
      refine ⟨hrun _ ?_, hC.regStep rfl rfl rfl rfl rfl rfl (freeCell_inv hC.weak ho).1
        (hC.handles.release hd hh rfl rfl rfl rfl)⟩
      obtain ⟨hk₁, hk₂⟩ := Heap.cell_iff.mp hk
      simp only [Option.bind_eq_bind, Heap.rdc_cell _ hk, Option.some_bind, ho,
        Heap.freeSlot_eq', Heap.wrD_eq, hk₁, hk₂, hh, freeCell]
    | some n =>
      rw [resetHeap_of_obj hd ho]
      obtain ⟨hn, hmem⟩ := hC.weak.member k n hk ho
      have hch := (hC.weak.chains n hn).1
      refine ⟨hrun _ ?_, hC.regStep rfl rfl rfl rfl rfl rfl (dropCell_inv hC.weak hk ho)
        (hC.handles.release hd hh rfl rfl rfl rfl)⟩
      simp only [Option.bind_eq_bind, Heap.rdc_cell _ hk, Option.some_bind, ho,
        Heap.rd_live _ hn]
      exact QObjectPrivate.removeWeakPointer_eq n hh hd hk ho hn
        (fun q hq => (hch.cell_of_mem q (Chain.prv_mem hch hmem hq)).1)
        (fun q hq => (hch.cell_of_mem q (Chain.nxt_mem hch hmem hq)).1)

theorem QPointer.reset_lt {s s' : Heap} {h : Nat} (e : QPointer.reset s h = some s') :
    h < s.nptrs := by
  unfold QPointer.reset at e
  simp only [Option.bind_eq_bind, Option.bind_eq_some] at e
  obtain ⟨_, e₁, _⟩ := e
  exact (Heap.rdd_ret e₁).1

/-- Every call of `reset` that returns keeps the invariants. -/
theorem QPointer.reset_ret {s s' : Heap} {h : Nat} (hC : Consistent s)
    (e : QPointer.reset s h = some s') : s' = resetHeap s h ∧ Consistent s' := by
  obtain ⟨e₀, hC'⟩ := QPointer.reset_cons hC (QPointer.reset_lt e)
  rw [e] at e₀
  cases e₀
  exact ⟨rfl, hC'⟩

/-- Every call of `addWeakPointer` on a handle without a cell that returns keeps the
invariants. -/
theorem QObjectPrivate.addWeakPointer_ret {s s' : Heap} {n h : Nat} (hC : Consistent s)
    (hn : s.live n = true) (hd : s.d h = none)
    (e : QObjectPrivate.addWeakPointer s n h = some s') :
    s' = pushCell s n h ∧ Consistent s' := by
  have hh : h < s.nptrs := by
    unfold QObjectPrivate.addWeakPointer at e
    simp only [Option.bind_eq_bind, Option.bind_eq_some] at e
    obtain ⟨_, e₁, _⟩ := e
    exact (Heap.rdd_ret e₁).1
  have hch := (hC.weak.chains n hn).1
  have e₀ := QObjectPrivate.addWeakPointer_eq hn hh hd (by
    intro q hq
    have := Chain.cur_eq hch
    rw [hq] at this
    exact (hch.cell_of_mem q (List.mem_of_mem_head? this.symm)).1)
  rw [e] at e₀
  cases e₀
  exact ⟨rfl, hC.regStep rfl rfl rfl rfl rfl rfl (pushCell_inv hC.weak hn)
    (pushCell_handles hC.handles hh hd)⟩

/-- Storage for a new handle keeps the invariants. -/
theorem newPtr_cons {s : Heap} (hC : Consistent s) : Consistent s.newPtr.1 := by
  refine hC.regStep rfl rfl rfl rfl rfl rfl
    (hC.weak.congrWeak rfl rfl rfl rfl rfl rfl rfl rfl) ?_
  obtain ⟨h1, h2, h3⟩ := hC.handles
  have hdx : ∀ x j, s.newPtr.1.d x = some j → x ≠ s.nptrs ∧ s.d x = some j := by
    intro x j hx
    have hx' : upd s.d s.nptrs none x = some j := hx
    by_cases hxh : x = s.nptrs
    · subst hxh; rw [upd_same] at hx'; cases hx'
    · rw [upd_ne _ _ hxh] at hx'; exact ⟨hxh, hx'⟩
  refine ⟨?_, ?_, ?_⟩
  · intro x hx j hj
    have hx' : x < s.nptrs + 1 := hx
    obtain ⟨hxh, hj'⟩ := hdx x j hj
    exact h1 x (by omega) j hj'
  · intro x hx y hy j hj hj'
    have hx' : x < s.nptrs + 1 := hx
    have hy' : y < s.nptrs + 1 := hy
    obtain ⟨hxh, hjx⟩ := hdx x j hj
    obtain ⟨hyh, hjy⟩ := hdx y j hj'
    exact h2 x (by omega) y (by omega) j hjx hjy
  · intro j hj hjc
    obtain ⟨x, hx, hxj⟩ := h3 j hj hjc
    refine ⟨x, Nat.lt_succ_of_lt hx, ?_⟩
    show upd s.d s.nptrs none x = some j
    rw [upd_ne _ _ (by omega)]
    exact hxj

/-- The statement `if (obj) obj->d_func()->addWeakPointer(&d)` on a handle without a cell, when
it returns, keeps the invariants. -/
theorem attach_ret {s s' : Heap} {r : Option Nat} {h : Nat} (hC : Consistent s)
    (hd : s.d h = none)
    (e : (match r with
      | some o => (s.rd some o).bind (fun _ => QObjectPrivate.addWeakPointer s o h)
      | none => some s) = some s') :
    s' = attach s r h ∧ Consistent s' ∧ ∀ n, r = some n → s.live n = true := by
  cases r with
  | none =>
    cases e
    exact ⟨rfl, hC, fun n hn => by cases hn⟩
  | some o =>
    simp only [Option.bind_eq_some] at e
    obtain ⟨_, e₁, e₂⟩ := e
    have ho := (Heap.rd_ret e₁).1
    obtain ⟨h1, h2⟩ := QObjectPrivate.addWeakPointer_ret hC ho hd e₂
    exact ⟨h1, h2, fun n hn => by cases hn; exact ho⟩

theorem QPointer.ofRaw_ret {s s' : Heap} {r : Option Nat} {h : Nat} (hC : Consistent s)
    (e : QPointer.ofRaw s r = some (s', h)) :
    h = s.nptrs ∧ s' = attach s.newPtr.1 r s.nptrs ∧ Consistent s' ∧
      ∀ n, r = some n → s.live n = true := by
  unfold QPointer.ofRaw at e
  rw [show s.newPtr = (s.newPtr.1, s.nptrs) from rfl] at e
  cases r with
  | none =>
    cases e
    exact ⟨rfl, rfl, newPtr_cons hC, fun n hn => by cases hn⟩
  | some o =>
    simp only [Option.bind_eq_bind, Option.bind_eq_some] at e
    obtain ⟨_, e₁, t, e₂, e₃⟩ := e
    cases e₃
    have ho := (Heap.rd_ret e₁).1
    obtain ⟨h1, h2⟩ := QObjectPrivate.addWeakPointer_ret (newPtr_cons hC) ho
      (newPtr_d_self s) e₂
    exact ⟨rfl, h1, h2, fun n hn => by cases hn; exact ho⟩

theorem QPointer.copy_ret {s s' : Heap} {o h : Nat} (hC : Consistent s)
    (e : QPointer.copy s o = some (s', h)) :
    o < s.nptrs ∧ h = s.nptrs ∧
      s' = attach s.newPtr.1 ((s.d o).bind s.object) s.nptrs ∧ Consistent s' := by
  unfold QPointer.copy at e
  rw [show s.newPtr = (s.newPtr.1, s.nptrs) from rfl] at e
  simp only [Option.bind_eq_bind, Option.bind_eq_some] at e
  obtain ⟨od, e₁, e⟩ := e
  obtain ⟨ho, rfl⟩ := Heap.rdd_ret e₁
  refine ⟨ho, ?_⟩
  cases hd : s.d o with
  | none =>
    rw [hd] at e
    cases e
    exact ⟨rfl, rfl, newPtr_cons hC⟩
  | some k =>
    rw [hd] at e
    simp only [Option.bind_eq_some] at e
    obtain ⟨ob, e₂, e⟩ := e
    obtain ⟨_, rfl⟩ := Heap.rdc_ret e₂
    have hob : s.newPtr.1.object k = s.object k := rfl
    rw [hob] at e
    simp only [Option.some_bind]
    cases hk : s.object k with
    | none =>
      rw [hk] at e
      cases e
      exact ⟨rfl, rfl, newPtr_cons hC⟩
    | some n =>
      rw [hk] at e
      simp only [Option.bind_eq_some] at e
      obtain ⟨_, e₃, t, e₄, e₅⟩ := e
      cases e₅
      obtain ⟨h1, h2⟩ := QObjectPrivate.addWeakPointer_ret (newPtr_cons hC)
        (Heap.rd_ret e₃).1 (newPtr_d_self s) e₄
      exact ⟨rfl, h1, h2⟩

theorem QPointer.assignRaw_ret {s s' : Heap} {h : Nat} {r : Option Nat} (hC : Consistent s)
    (e : QPointer.assignRaw s h r = some s') :
    h < s.nptrs ∧ s' = attach (resetHeap s h) r h ∧ Consistent s' ∧
      ∀ n, r = some n → s.live n = true := by
  unfold QPointer.assignRaw at e
  simp only [Option.bind_eq_bind, Option.bind_eq_some] at e
  obtain ⟨s₁, e₁, e⟩ := e
  have hh := QPointer.reset_lt e₁
  obtain ⟨rfl, hC₁⟩ := QPointer.reset_ret hC e₁
  have hd₁ : (resetHeap s h).d h = none := by rw [resetHeap_d]; exact upd_same _ _ _
  refine ⟨hh, ?_⟩
  cases r with
  | none =>
    cases e
    exact ⟨rfl, hC₁, fun n hn => by cases hn⟩
  | some o =>
    simp only [Option.bind_eq_some] at e
    obtain ⟨_, e₂, e₃⟩ := e
    have ho := (Heap.rd_ret e₂).1
    obtain ⟨h1, h2⟩ := QObjectPrivate.addWeakPointer_ret hC₁ ho hd₁ e₃
    refine ⟨h1, h2, fun n hn => ?_⟩
    cases hn
    rw [resetHeap_live] at ho
    exact ho

theorem QPointer.assign_ret {s s' : Heap} {h o : Nat} (hC : Consistent s)
    (e : QPointer.assign s h o = some s') :
    h < s.nptrs ∧ o < s.nptrs ∧
      s' = (if h = o then s else attach (resetHeap s h) ((s.d o).bind s.object) h) ∧
      Consistent s' := by
  unfold QPointer.assign at e
  simp only [Option.bind_eq_bind, Option.bind_eq_some] at e
  obtain ⟨_, e₁, _, e₂, e⟩ := e
  have hh := (Heap.rdd_ret e₁).1
  have ho := (Heap.rdd_ret e₂).1
  refine ⟨hh, ho, ?_⟩
  by_cases hne : h = o
  · rw [if_pos hne] at e ⊢
    cases e
    exact ⟨rfl, hC⟩
  · rw [if_neg hne] at e ⊢
    simp only [Option.bind_eq_some] at e
    obtain ⟨s₁, e₃, od, e₄, e⟩ := e
    obtain ⟨rfl, hC₁⟩ := QPointer.reset_ret hC e₃
    obtain ⟨_, rfl⟩ := Heap.rdd_ret e₄
    have hd₁ : (resetHeap s h).d h = none := by rw [resetHeap_d]; exact upd_same _ _ _
    have hdo : (resetHeap s h).d o = s.d o := by
      rw [resetHeap_d]; exact upd_ne _ _ (fun e => hne e.symm)
    rw [hdo] at e
    cases hd : s.d o with
    | none =>
      rw [hd] at e
      cases e
      exact ⟨rfl, hC₁⟩
    | some k =>
      rw [hd] at e
      simp only [Option.bind_eq_some] at e
      obtain ⟨ob, e₅, e⟩ := e
      obtain ⟨_, rfl⟩ := Heap.rdc_ret e₅
      have hk₂ : s.d h ≠ some k := fun e' => hne (hC.handles.2.1 h hh o ho k e' hd)
      rw [resetHeap_object s h k hk₂] at e
      simp only [Option.some_bind]
      cases hk : s.object k with
      | none =>
        rw [hk] at e
        cases e
        exact ⟨rfl, hC₁⟩
      | some n =>
        rw [hk] at e
        simp only [Option.bind_eq_some] at e
        obtain ⟨_, e₆, e₇⟩ := e
        obtain ⟨h1, h2⟩ := QObjectPrivate.addWeakPointer_ret hC₁ (Heap.rd_ret e₆).1 hd₁ e₇
        exact ⟨h1, h2⟩

/-! ## Reachable states -/

theorem empty_consistent : Consistent Heap.empty := by
  have hl : ∀ x, Heap.empty.live x = false := fun x => by simp [Heap.live, Heap.empty]
  have hc : ∀ x, Heap.empty.cell x = false := fun x => by simp [Heap.cell, Heap.empty]
  refine ⟨⟨?_, ?_, ?_, ?_⟩, ⟨?_, ?_⟩, ?_, ?_, ?_⟩
  · intro p hp; rw [hl] at hp; cases hp
  · intro c p hc; rw [hl] at hc; cases hc
  · intro x hx; cases hx
  · intro c hc; rw [hl] at hc; cases hc
  · intro n hn; rw [hl] at hn; cases hn
  · intro k n hk; rw [hc] at hk; cases hk
  · intro h hh; exact absurd hh (Nat.not_lt_zero _)
  · intro h hh; exact absurd hh (Nat.not_lt_zero _)
  · intro k hk; exact absurd hk (Nat.not_lt_zero _)

/-- Every reachable state satisfies the invariants of the tree, of the registry and of the
handles. -/
theorem Reach.consistent {s : Heap} (h : Reach s) : Consistent s := by
  induction h with
  | start => exact empty_consistent
  | create _ e ih =>
    obtain ⟨_, e'⟩ := QObject.new_ret e
    have hC₀ : Consistent _ := ⟨newObj_tree ih.tree, newObj_weak ih.weak, ih.handles⟩
    obtain ⟨hT, hA, hG, _, _⟩ := setParent_ret hC₀.tree e'
    exact ⟨hT, hC₀.weak.congrWeak hA.nobjs hA.objFreed hG.weak_pointers hA.nslots
      hA.slotFreed hG.object hG.next hG.prev,
      by
        obtain ⟨h1, h2, h3⟩ := hC₀.handles
        unfold HandlesOK
        rw [hA.nptrs, hA.d, hA.cellEq, hA.nslots]
        exact ⟨h1, h2, h3⟩⟩
  | reparent _ e ih =>
    obtain ⟨hT, hA, hG, _, _⟩ := setParent_ret ih.tree e
    exact ⟨hT, ih.weak.congrWeak hA.nobjs hA.objFreed hG.weak_pointers hA.nslots
      hA.slotFreed hG.object hG.next hG.prev,
      by
        obtain ⟨h1, h2, h3⟩ := ih.handles
        unfold HandlesOK
        rw [hA.nptrs, hA.d, hA.cellEq, hA.nslots]
        exact ⟨h1, h2, h3⟩⟩
  | destroyed _ e ih =>
    obtain ⟨hT, hW, hS, _, _⟩ := destroy_ret ih.tree ih.weak e
    exact ⟨hT, hW, by
      obtain ⟨h1, h2, h3⟩ := ih.handles
      unfold HandlesOK
      rw [hS.nptrs, hS.d, hS.cellKept, hS.nslots]
      exact ⟨h1, h2, h3⟩⟩
  | fresh _ ih => exact newPtr_cons ih
  | fromRaw _ e ih => exact (QPointer.ofRaw_ret ih e).2.2.1
  | copied _ e ih => exact (QPointer.copy_ret ih e).2.2.2
  | assigned _ e ih => exact (QPointer.assign_ret ih e).2.2.2
  | assignedRaw _ e ih => exact (QPointer.assignRaw_ret ih e).2.2.1
  | released _ e ih => exact (QPointer.reset_ret ih e).2
  | dropped _ e ih => exact (QPointer.reset_ret ih e).2


/-! ## Equality of handles -/

theorem get_of_d_some {s : Heap} {h k : Nat} {a : Option Nat}
    (ha : QPointer.get s h = some a) (hd : s.d h = some k) : a = s.object k := by
  unfold QPointer.get at ha
  simp only [Option.bind_eq_bind, Option.bind_eq_some] at ha
  obtain ⟨d, e₁, e₂⟩ := ha
  obtain ⟨_, rfl⟩ := Heap.rdd_ret e₁
  rw [hd] at e₂
  exact (Heap.rdc_ret e₂).2

theorem get_of_d_none {s : Heap} {h : Nat} {a : Option Nat}
    (ha : QPointer.get s h = some a) (hd : s.d h = none) : a = none := by
  unfold QPointer.get at ha
  simp only [Option.bind_eq_bind, Option.bind_eq_some] at ha
  obtain ⟨d, e₁, e₂⟩ := ha
  obtain ⟨_, rfl⟩ := Heap.rdd_ret e₁
  rw [hd] at e₂
  cases e₂
  rfl

/-- C11 (equality is pointer-wise on the observed object).  Let `get()` of the handles `h₁` and
`h₂` return `a` and `b`, and let `r` be a raw pointer.  Then `h₁ == h₂` is `a = b`, `h₁ == r` and
`r == h₁` are `a = r`, `h₁ == nullptr` and `nullptr == h₁` are `h₁.isNull()`, and every `!=` is
the negation of its `==`.  In particular two handles that hold different cells observing the same
object are equal, and a handle whose cell observes nothing any more is equal to `nullptr` and to
a handle without a cell. -/
theorem equality_is_pointerwise (s : Heap) (h₁ h₂ : Nat) (r a b : Option Nat)
    (ha : QPointer.get s h₁ = some a) (hb : QPointer.get s h₂ = some b) :
    operatorEq s h₁ h₂ = some (decide (a = b)) ∧
    operatorNe s h₁ h₂ = some (!decide (a = b)) ∧
    operatorEqRaw s h₁ r = some (decide (a = r)) ∧
    operatorNeRaw s h₁ r = some (!decide (a = r)) ∧
    operatorEqRawLeft s r h₁ = some (decide (a = r)) ∧
    operatorNeRawLeft s r h₁ = some (!decide (a = r)) ∧
    QPointer.isNull s h₁ = some (decide (a = none)) ∧
    operatorEqNull s h₁ = QPointer.isNull s h₁ ∧
    operatorEqNullLeft s h₁ = QPointer.isNull s h₁ ∧
    operatorNeNull s h₁ = some (!decide (a = none)) ∧
    operatorNeNullLeft s h₁ = some (!decide (a = none)) ∧
    (∀ k₁ k₂ n, s.d h₁ = some k₁ → s.d h₂ = some k₂ → k₁ ≠ k₂ →
      s.object k₁ = some n → s.object k₂ = some n → operatorEq s h₁ h₂ = some true) ∧
    (∀ k, s.d h₁ = some k → s.object k = none →
      operatorEqNull s h₁ = some true ∧
      (s.d h₂ = none → operatorEq s h₁ h₂ = some true)) := by
  have e₁ : operatorEq s h₁ h₂ = some (decide (a = b)) := by
    simp [operatorEq, comparesEqual, ha, hb]
  have e₂ : operatorEqNull s h₁ = some (decide (a = none)) := by
    simp [operatorEqNull, comparesEqualRaw, ha]
  refine ⟨e₁, ?_, ?_, ?_, ?_, ?_, ?_, ?_, ?_, ?_, ?_, ?_, ?_⟩
  · simp [operatorNe, comparesEqual, ha, hb]
  · simp [operatorEqRaw, comparesEqualRaw, ha]
  · simp [operatorNeRaw, comparesEqualRaw, ha]
  · simp [operatorEqRawLeft, comparesEqualRaw, ha]
  · simp [operatorNeRawLeft, comparesEqualRaw, ha]
  · simp [QPointer.isNull, ha]
  · simp [operatorEqNull, comparesEqualRaw, QPointer.isNull, ha]
  · simp [operatorEqNullLeft, comparesEqualRaw, QPointer.isNull, ha]
  · simp [operatorNeNull, comparesEqualRaw, ha]
  · simp [operatorNeNullLeft, comparesEqualRaw, ha]
  · intro k₁ k₂ n hd₁ hd₂ _ ho₁ ho₂
    have ea := get_of_d_some ha hd₁
    have eb := get_of_d_some hb hd₂
    rw [e₁, ea, eb, ho₁, ho₂]
    simp
  · intro k hd ho
    have ea := get_of_d_some ha hd
    rw [ho] at ea
    refine ⟨by rw [e₂, ea]; simp, ?_⟩
    intro hd₂
    have eb := get_of_d_none hb hd₂
    rw [e₁, ea, eb]
    simp

theorem equality_is_pointerwise_witness :
    QPointer.get demo 1 = some (some 2) ∧ QPointer.get demo 2 = some (some 2) ∧
    (operatorEq demo 1 2 = some (decide (some 2 = some 2)) ∧
    operatorNe demo 1 2 = some (!decide (some 2 = some 2)) ∧
    operatorEqRaw demo 1 (some 1) = some (decide (some 2 = some 1)) ∧
    operatorNeRaw demo 1 (some 1) = some (!decide (some 2 = some 1)) ∧
    operatorEqRawLeft demo (some 1) 1 = some (decide (some 2 = some 1)) ∧
    operatorNeRawLeft demo (some 1) 1 = some (!decide (some 2 = some 1)) ∧
    QPointer.isNull demo 1 = some (decide (some 2 = none)) ∧
    operatorEqNull demo 1 = QPointer.isNull demo 1 ∧
    operatorEqNullLeft demo 1 = QPointer.isNull demo 1 ∧
    operatorNeNull demo 1 = some (!decide (some 2 = none)) ∧
    operatorNeNullLeft demo 1 = some (!decide (some 2 = none)) ∧
    (∀ k₁ k₂ n, demo.d 1 = some k₁ → demo.d 2 = some k₂ → k₁ ≠ k₂ →
      demo.object k₁ = some n → demo.object k₂ = some n → operatorEq demo 1 2 = some true) ∧
    (∀ k, demo.d 1 = some k → demo.object k = none →
      operatorEqNull demo 1 = some true ∧
      (demo.d 2 = none → operatorEq demo 1 2 = some true))) :=
  ⟨by decide, by decide,
    equality_is_pointerwise demo 1 2 (some 1) (some 2) (some 2) (by decide) (by decide)⟩

/-! ## Reparenting and the weak cells -/

theorem sameAlloc_comp {s s₁ s₂ : Heap} (h₁ : SameAlloc s s₁) (h₂ : SameAlloc s₁ s₂) :
    SameAlloc s s₂ :=
  ⟨h₂.nobjs.trans h₁.nobjs, h₂.objFreed.trans h₁.objFreed, h₂.nslots.trans h₁.nslots,
    h₂.slotFreed.trans h₁.slotFreed, h₂.nptrs.trans h₁.nptrs, h₂.d.trans h₁.d⟩

theorem sameReg_comp {s s₁ s₂ : Heap} (h₁ : SameReg s s₁) (h₂ : SameReg s₁ s₂) :
    SameReg s s₂ :=
  ⟨h₂.weak_pointers.trans h₁.weak_pointers, h₂.object.trans h₁.object,
    h₂.next.trans h₁.next, h₂.prev.trans h₁.prev⟩

theorem wrHead_frame {s s' : Heap} {n : Nat} {v : Option Nat}
    (h : s.wrHead n v = some s') : SameAlloc s s' ∧ SameReg s s' := by
  unfold Heap.wrHead at h
  split at h
  · cases h; exact ⟨⟨rfl, rfl, rfl, rfl, rfl, rfl⟩, ⟨rfl, rfl, rfl, rfl⟩⟩
  · cases h

theorem wrNext_frame {s s' : Heap} {n : Nat} {v : Option Nat}
    (h : s.wrNext n v = some s') : SameAlloc s s' ∧ SameReg s s' := by
  unfold Heap.wrNext at h
  split at h
  · cases h; exact ⟨⟨rfl, rfl, rfl, rfl, rfl, rfl⟩, ⟨rfl, rfl, rfl, rfl⟩⟩
  · cases h

theorem wrPrev_frame {s s' : Heap} {n : Nat} {v : Option Nat}
    (h : s.wrPrev n v = some s') : SameAlloc s s' ∧ SameReg s s' := by
  unfold Heap.wrPrev at h
  split at h
  · cases h; exact ⟨⟨rfl, rfl, rfl, rfl, rfl, rfl⟩, ⟨rfl, rfl, rfl, rfl⟩⟩
  · cases h

theorem wrParent_frame {s s' : Heap} {n : Nat} {v : Option Nat}
    (h : s.wrParent n v = some s') : SameAlloc s s' ∧ SameReg s s' := by
  unfold Heap.wrParent at h
  split at h
  · cases h; exact ⟨⟨rfl, rfl, rfl, rfl, rfl, rfl⟩, ⟨rfl, rfl, rfl, rfl⟩⟩
  · cases h

theorem frame_comp {s s₁ s₂ : Heap} (h₁ : SameAlloc s s₁ ∧ SameReg s s₁)
    (h₂ : SameAlloc s₁ s₂ ∧ SameReg s₁ s₂) : SameAlloc s s₂ ∧ SameReg s s₂ :=
  ⟨sameAlloc_comp h₁.1 h₂.1, sameReg_comp h₁.2 h₂.2⟩

/-- A call of `removeChild` that returns leaves the weak cells and the handles alone, in every
state. -/
theorem removeChild_frame {s s' : Heap} {p c : Nat}
    (h : QObject.removeChild s p c = some s') : SameAlloc s s' ∧ SameReg s s' := by
  unfold QObject.removeChild at h
  simp only [Option.bind_eq_bind, Option.bind_eq_some] at h
  obtain ⟨hd, _, cn, _, s₁, e₁, cp, _, cn₂, _, s₂, e₂, cn₃, _, cp₃, _, s₃, e₃, s₄, e₄, e₅⟩ := h
  have h₁ : SameAlloc s s₁ ∧ SameReg s s₁ := by
    split at e₁
    · exact wrHead_frame e₁
    · cases e₁; exact ⟨sameAlloc_refl s, sameReg_refl s⟩
  have h₂ : SameAlloc s₁ s₂ ∧ SameReg s₁ s₂ := by
    cases cp with
    | none => cases e₂; exact ⟨sameAlloc_refl s₁, sameReg_refl s₁⟩
    | some q => exact wrNext_frame e₂
  have h₃ : SameAlloc s₂ s₃ ∧ SameReg s₂ s₃ := by
    cases cn₃ with
    | none => cases e₃; exact ⟨sameAlloc_refl _, sameReg_refl _⟩
    | some q => exact wrPrev_frame e₃
  exact frame_comp (frame_comp (frame_comp (frame_comp h₁ h₂) h₃) (wrNext_frame e₄))
    (wrPrev_frame e₅)

/-- A call of `addChild` that returns leaves the weak cells and the handles alone, in every
state. -/
theorem addChild_frame {s s' : Heap} {p c : Nat}
    (h : QObject.addChild s p c = some s') : SameAlloc s s' ∧ SameReg s s' := by
  unfold QObject.addChild at h
  simp only [Option.bind_eq_bind, Option.bind_eq_some] at h
  obtain ⟨cp, _, h⟩ := h
  split at h
  · cases h
  · simp only [Option.bind_eq_some] at h
    obtain ⟨hd, _, s₁, e₁, hd₂, _, s₂, e₂, e₃⟩ := h
    have h₂ : SameAlloc s₁ s₂ ∧ SameReg s₁ s₂ := by
      cases hd₂ with
      | none => cases e₂; exact ⟨sameAlloc_refl s₁, sameReg_refl s₁⟩
      | some q => exact wrPrev_frame e₂
    exact frame_comp (frame_comp (wrNext_frame e₁) h₂) (wrHead_frame e₃)

/-- A call of `setParent` that returns leaves the weak cells and the handles alone, in every
state. -/
theorem setParent_frame {s s' : Heap} {c : Nat} {v : Option Nat}
    (h : QObject.setParent s c v = some s') : SameAlloc s s' ∧ SameReg s s' := by
  unfold QObject.setParent at h
  simp only [Option.bind_eq_bind, Option.bind_eq_some] at h
  obtain ⟨p, _, h⟩ := h
  split at h
  · cases h
    exact ⟨sameAlloc_refl s, sameReg_refl s⟩
  · simp only [Option.bind_eq_some] at h
    obtain ⟨s₁, e₁, s₂, e₂, e₃⟩ := h
    have h₁ : SameAlloc s s₁ ∧ SameReg s s₁ := by
      cases p with
      | none => cases e₁; exact ⟨sameAlloc_refl s, sameReg_refl s⟩
      | some q => exact removeChild_frame e₁
    have h₃ : SameAlloc s₂ s' ∧ SameReg s₂ s' := by
      cases v with
      | none => cases e₃; exact ⟨sameAlloc_refl _, sameReg_refl _⟩
      | some q => exact addChild_frame e₃
    exact frame_comp (frame_comp h₁ (wrParent_frame e₂)) h₃

/-- C12 (reparenting never touches weak cells).  In every state, for every object `c` and every
new parent `v`, a call `c.setParent(v)` that returns leaves the fields `object`, `next` and
`prev` of every weak cell, the head `weak_pointers` of every object, the allocation of the cells
and the field `d` of every handle as they were; so every weak-slot list is the same and `get()`
of every handle returns what it returned before. -/
theorem setParent_leaves_weak_cells (s s' : Heap) (c : Nat) (v : Option Nat)
    (h : QObject.setParent s c v = some s') :
    s'.object = s.object ∧ s'.next = s.next ∧ s'.prev = s.prev ∧
    s'.weak_pointers = s.weak_pointers ∧ s'.nslots = s.nslots ∧
    s'.slotFreed = s.slotFreed ∧ s'.nptrs = s.nptrs ∧ s'.d = s.d ∧
    (∀ n, weakSlots s' n = weakSlots s n) ∧
    (∀ x, QPointer.get s' x = QPointer.get s x) ∧
    (∀ x, QPointer.isNull s' x = QPointer.isNull s x) := by
  obtain ⟨hA, hG⟩ := setParent_frame h
  have hget := get_congr hA hG.object
  refine ⟨hG.object, hG.next, hG.prev, hG.weak_pointers, hA.nslots, hA.slotFreed, hA.nptrs,
    hA.d, fun n => congrFun (weakSlots_congr hA.nslots hG.weak_pointers hG.next) n, hget, ?_⟩
  intro x
  unfold QPointer.isNull
  rw [hget x]

theorem setParent_leaves_weak_cells_witness :
    ∃ s', QObject.setParent demo 2 (some 4) = some s' ∧
    (s'.object = demo.object ∧ s'.next = demo.next ∧ s'.prev = demo.prev ∧
    s'.weak_pointers = demo.weak_pointers ∧ s'.nslots = demo.nslots ∧
    s'.slotFreed = demo.slotFreed ∧ s'.nptrs = demo.nptrs ∧ s'.d = demo.d ∧
    (∀ n, weakSlots s' n = weakSlots demo n) ∧
    (∀ x, QPointer.get s' x = QPointer.get demo x) ∧
    (∀ x, QPointer.isNull s' x = QPointer.isNull demo x)) := by
  have hwf : WF demo := by decide
  obtain ⟨s', e, _⟩ := setParent_keeps hwf.treeInv (show demo.live 2 = true by decide)
    (show ∀ p, some 4 = some p → demo.live p = true from fun p hp => by cases hp; decide)
  exact ⟨s', e, setParent_leaves_weak_cells demo s' 2 (some 4) e⟩


/-! ## The invariants in reachable states -/

/-- In a doubly linked list the forward link of a member leads to a member whose back link
leads back. -/
theorem Chain.nxt_prv {ok : Nat → Prop} {prv nxt : Nat → Option Nat} {prev head : Option Nat}
    {l : List Nat} {x y : Nat} (h : Chain ok prv nxt prev head l) (hx : x ∈ l)
    (hxy : nxt x = some y) : y ∈ l ∧ prv y = some x := by
  obtain ⟨l₁, l₂, rfl⟩ := List.append_of_mem hx
  have h1 := Chain.nxt_mid h
  rw [hxy] at h1
  cases l₂ with
  | nil => cases h1
  | cons z t =>
    simp only [List.head?_cons, Option.some.injEq] at h1
    subst h1
    refine ⟨by simp, ?_⟩
    have h' : Chain ok prv nxt prev head ((l₁ ++ [x]) ++ y :: t) := by
      simpa using h
    have h2 := Chain.prv_mid h'
    simpa using h2

/-- In a doubly linked list whose first back link is null, the back link of a member leads to
a member whose forward link leads back. -/
theorem Chain.prv_nxt {ok : Nat → Prop} {prv nxt : Nat → Option Nat} {head : Option Nat}
    {l : List Nat} {x y : Nat} (h : Chain ok prv nxt none head l) (hy : y ∈ l)
    (hyx : prv y = some x) : x ∈ l ∧ nxt x = some y := by
  obtain ⟨l₁, l₂, rfl⟩ := List.append_of_mem hy
  have h1 := Chain.prv_mid h
  rw [hyx] at h1
  by_cases hl : l₁ = []
  · simp [hl] at h1
  · simp only [hl, if_false] at h1
    obtain ⟨l₀, rfl⟩ : ∃ l₀, l₁ = l₀ ++ [x] := by
      rw [List.getLast?_eq_getLast _ hl] at h1
      have e : x = l₁.getLast hl := Option.some.inj h1
      exact ⟨l₁.dropLast, by rw [e]; exact (List.dropLast_append_getLast hl).symm⟩
    refine ⟨by simp, ?_⟩
    have h' : Chain ok prv nxt none head (l₀ ++ x :: (y :: l₂)) := by
      simpa using h
    have h2 := Chain.nxt_mid h'
    simpa using h2

theorem pair_reach : Reach pair :=
  Reach.create (Reach.create Reach.start
    (rfl : QObject.new Heap.empty none = some (Heap.empty.newObj.1, 0)))
    (rfl : QObject.new Heap.empty.newObj.1 (some 0) = some (pair, 1))

theorem pair_wf : WF pair := by decide

theorem watched_reach : Reach watched :=
  Reach.fromRaw pair_reach
    (QPointer.ofRaw_eq pair_wf (fun n hn => by cases hn; decide))

/-- C13 (invariant I1, exclusive ownership).  In every state reached from the empty memory by
`new QObject(parent)`, `setParent` and `delete` (and by the operations of `QPointer`), for live
objects `c` and `p`: `c.parent()` is `p` exactly when `c` is in the children list of `p`, the
`nextSibling` chain from `childrenHead`; a parent of a live object is live; no list has a
repetition; no object is in two lists; every list is a well linked doubly linked list, that is,
the head has a null `prevSibling`, and `x.nextSibling` is `y` exactly when `y.prevSibling` is
`x`, for members of a list. -/
theorem tree_invariant_reachable (s : Heap) (h : Reach s) :
    (∀ c p, s.live c = true → s.live p = true →
      (QObject.parentFn s c = some (some p) ↔ c ∈ children s p)) ∧
    (∀ c p, s.live c = true → s.parent c = some p → s.live p = true) ∧
    (∀ p, s.live p = true → (children s p).Nodup) ∧
    (∀ c p, s.live p = true → c ∈ children s p → (children s p).count c = 1) ∧
    (∀ c p q, s.live p = true → s.live q = true →
      c ∈ children s p → c ∈ children s q → p = q) ∧
    (∀ p, s.live p = true → Linked s p (children s p)) ∧
    (∀ p c, s.live p = true → s.childrenHead p = some c →
      s.prevSibling c = none ∧ (children s p).head? = some c) ∧
    (∀ p x y, s.live p = true → x ∈ children s p → s.nextSibling x = some y →
      y ∈ children s p ∧ s.prevSibling y = some x) ∧
    (∀ p x y, s.live p = true → y ∈ children s p → s.prevSibling y = some x →
      x ∈ children s p ∧ s.nextSibling x = some y) := by
  have hT := h.consistent.tree
  refine ⟨?_, ?_, ?_, ?_, ?_, ?_, ?_, ?_, ?_⟩
  · intro c p hc hp
    unfold QObject.parentFn
    rw [Heap.rd_live _ hc]
    constructor
    · intro e
      exact (hT.member c p hc (by simp) (Option.some.inj e)).2
    · intro hm
      rw [((hT.chains p hp).1.live_of_mem c hm).2]
  · intro c p hc hcp
    exact (hT.member c p hc (by simp) hcp).1
  · intro p hp
    exact (hT.chains p hp).2
  · intro c p hp hm
    exact List.count_eq_one_of_mem (hT.chains p hp).2 hm
  · intro c p q hp hq hcp hcq
    have h1 := ((hT.chains p hp).1.live_of_mem c hcp).2
    have h2 := ((hT.chains q hq).1.live_of_mem c hcq).2
    rw [h1] at h2
    exact Option.some.inj h2
  · intro p hp
    exact (hT.chains p hp).1
  · intro p c hp hpc
    have hch := (hT.chains p hp).1
    have h1 := Chain.cur_eq hch
    rw [hpc] at h1
    refine ⟨?_, h1.symm⟩
    have hm : c ∈ children s p := List.mem_of_mem_head? h1.symm
    exact (Chain.prv_none_iff hch (hT.chains p hp).2 hm).mpr hpc
  · intro p x y hp hx hxy
    exact Chain.nxt_prv (hT.chains p hp).1 hx hxy
  · intro p x y hp hy hyx
    exact Chain.prv_nxt (hT.chains p hp).1 hy hyx

theorem tree_invariant_reachable_witness :
    Reach pair ∧ pair.live 0 = true ∧ pair.live 1 = true ∧ children pair 0 = [1] ∧
    ((∀ c p, pair.live c = true → pair.live p = true →
      (QObject.parentFn pair c = some (some p) ↔ c ∈ children pair p)) ∧
    (∀ c p, pair.live c = true → pair.parent c = some p → pair.live p = true) ∧
    (∀ p, pair.live p = true → (children pair p).Nodup) ∧
    (∀ c p, pair.live p = true → c ∈ children pair p → (children pair p).count c = 1) ∧
    (∀ c p q, pair.live p = true → pair.live q = true →
      c ∈ children pair p → c ∈ children pair q → p = q) ∧
    (∀ p, pair.live p = true → Linked pair p (children pair p)) ∧
    (∀ p c, pair.live p = true → pair.childrenHead p = some c →
      pair.prevSibling c = none ∧ (children pair p).head? = some c) ∧
    (∀ p x y, pair.live p = true → x ∈ children pair p → pair.nextSibling x = some y →
      y ∈ children pair p ∧ pair.prevSibling y = some x) ∧
    (∀ p x y, pair.live p = true → y ∈ children pair p → pair.prevSibling y = some x →
      x ∈ children pair p ∧ pair.nextSibling x = some y)) :=
  ⟨pair_reach, by decide, by decide, by decide, tree_invariant_reachable pair pair_reach⟩

/-- C14 (invariant I2).  In every state reached from the empty memory by `new QObject(parent)`,
`delete`, `setParent` and the operations of `QPointer`, for every live object `n`: the
weak-slot list of `n`, the `next` chain from `weak_pointers`, holds exactly the cells that a
handle holds and whose `object` is `n`; it has no repetition and is a well linked doubly linked
list, whose head has a null `prev` and in which `x.next` is `y` exactly when `y.prev` is `x`;
and an allocated cell whose `object` is null is in no list. -/
theorem weak_lists_invariant_reachable (s : Heap) (h : Reach s) :
    (∀ n k, s.live n = true →
      (k ∈ weakSlots s n ↔ ∃ x, x < s.nptrs ∧ s.d x = some k ∧ s.object k = some n)) ∧
    (∀ n, s.live n = true → (weakSlots s n).Nodup) ∧
    (∀ n k, s.live n = true → k ∈ weakSlots s n → (weakSlots s n).count k = 1) ∧
    (∀ n, s.live n = true → WLinked s n (weakSlots s n)) ∧
    (∀ n k, s.live n = true → s.weak_pointers n = some k →
      s.prev k = none ∧ (weakSlots s n).head? = some k) ∧
    (∀ n x y, s.live n = true → x ∈ weakSlots s n → s.next x = some y →
      y ∈ weakSlots s n ∧ s.prev y = some x) ∧
    (∀ n x y, s.live n = true → y ∈ weakSlots s n → s.prev y = some x →
      x ∈ weakSlots s n ∧ s.next x = some y) ∧
    (∀ k, s.cell k = true → s.object k = none →
      ∀ n, s.live n = true → k ∉ weakSlots s n) ∧
    (∀ x k, x < s.nptrs → s.d x = some k → s.cell k = true) := by
  have hW := h.consistent.weak
  have hH := h.consistent.handles
  refine ⟨?_, ?_, ?_, ?_, ?_, ?_, ?_, ?_, ?_⟩
  · intro n k hn
    constructor
    · intro hm
      obtain ⟨hk, ho⟩ := (hW.chains n hn).1.cell_of_mem k hm
      obtain ⟨x, hx, hd⟩ := hH.2.2 k (Heap.cell_lt hk) hk
      exact ⟨x, hx, hd, ho⟩
    · rintro ⟨x, hx, hd, ho⟩
      exact (hW.member k n (hH.1 x hx k hd) ho).2
  · intro n hn
    exact (hW.chains n hn).2
  · intro n k hn hm
    exact List.count_eq_one_of_mem (hW.chains n hn).2 hm
  · intro n hn
    exact (hW.chains n hn).1
  · intro n k hn hnk
    have hch := (hW.chains n hn).1
    have h1 := Chain.cur_eq hch
    rw [hnk] at h1
    refine ⟨?_, h1.symm⟩
    have hm : k ∈ weakSlots s n := List.mem_of_mem_head? h1.symm
    exact (Chain.prv_none_iff hch (hW.chains n hn).2 hm).mpr hnk
  · intro n x y hn hx hxy
    exact Chain.nxt_prv (hW.chains n hn).1 hx hxy
  · intro n x y hn hy hyx
    exact Chain.prv_nxt (hW.chains n hn).1 hy hyx
  · intro k _ ho n hn hm
    have := ((hW.chains n hn).1.cell_of_mem k hm).2
    rw [ho] at this
    cases this
  · intro x k hx hd
    exact hH.1 x hx k hd

theorem weak_lists_invariant_reachable_witness :
    Reach watched ∧ watched.live 1 = true ∧ weakSlots watched 1 = [0] ∧
    ((∀ n k, watched.live n = true →
      (k ∈ weakSlots watched n ↔
        ∃ x, x < watched.nptrs ∧ watched.d x = some k ∧ watched.object k = some n)) ∧
    (∀ n, watched.live n = true → (weakSlots watched n).Nodup) ∧
    (∀ n k, watched.live n = true → k ∈ weakSlots watched n →
      (weakSlots watched n).count k = 1) ∧
    (∀ n, watched.live n = true → WLinked watched n (weakSlots watched n)) ∧
    (∀ n k, watched.live n = true → watched.weak_pointers n = some k →
      watched.prev k = none ∧ (weakSlots watched n).head? = some k) ∧
    (∀ n x y, watched.live n = true → x ∈ weakSlots watched n → watched.next x = some y →
      y ∈ weakSlots watched n ∧ watched.prev y = some x) ∧
    (∀ n x y, watched.live n = true → y ∈ weakSlots watched n → watched.prev y = some x →
      x ∈ weakSlots watched n ∧ watched.next x = some y) ∧
    (∀ k, watched.cell k = true → watched.object k = none →
      ∀ n, watched.live n = true → k ∉ weakSlots watched n) ∧
    (∀ x k, x < watched.nptrs → watched.d x = some k → watched.cell k = true)) :=
  ⟨watched_reach, by decide, by decide,
    weak_lists_invariant_reachable watched watched_reach⟩

/-- C15 (no dangling observation).  In every state reached from the empty memory by
`new QObject(parent)`, `delete`, `setParent` and the operations of `QPointer`, the cell of a
handle never has its `object` set to an object that is not live; so for every handle `get()`
returns, and returns null or a live object. -/
theorem no_dangling_observation (s : Heap) (h : Reach s) :
    (∀ x k n, x < s.nptrs → s.d x = some k → s.object k = some n → s.live n = true) ∧
    (∀ x, x < s.nptrs →
      ∃ r, QPointer.get s x = some r ∧ ∀ n, r = some n → s.live n = true) := by
  have hW := h.consistent.weak
  have hH := h.consistent.handles
  have key : ∀ x k n, x < s.nptrs → s.d x = some k → s.object k = some n →
      s.live n = true :=
    fun x k n hx hd ho => (hW.member k n (hH.1 x hx k hd) ho).1
  refine ⟨key, ?_⟩
  intro x hx
  cases hd : s.d x with
  | none =>
    refine ⟨none, ?_, fun n hn => by cases hn⟩
    unfold QPointer.get
    rw [Heap.rdd_eq s x hx, hd]
    rfl
  | some k =>
    refine ⟨s.object k, ?_, fun n hn => key x k n hx hd hn⟩
    unfold QPointer.get
    rw [Heap.rdd_eq s x hx, hd]
    exact Heap.rdc_cell _ (hH.1 x hx k hd)

theorem no_dangling_observation_witness :
    Reach watched ∧ QPointer.get watched 0 = some (some 1) ∧
    ((∀ x k n, x < watched.nptrs → watched.d x = some k → watched.object k = some n →
      watched.live n = true) ∧
    (∀ x, x < watched.nptrs →
      ∃ r, QPointer.get watched x = some r ∧ ∀ n, r = some n → watched.live n = true)) :=
  ⟨watched_reach, by decide, no_dangling_observation watched watched_reach⟩


/-! ## Detaching a child that is not there -/

/-- The method `removeChild` changes nothing for an object that is not the head of the list and
has null sibling links. -/
theorem unlinkChild_self {s : Heap} {p c : Nat} (hhead : s.childrenHead p ≠ some c)
    (hprev : s.prevSibling c = none) (hnext : s.nextSibling c = none) :
    unlinkChild s p c = s := by
  have e₁ : unlinkNext s.nextSibling s.prevSibling c = s.nextSibling := by
    funext x
    rw [unlinkNext_apply, hprev]
    by_cases hx : x = c
    · subst hx; simp [hnext]
    · simp [hx]
  have e₂ : unlinkPrev s.nextSibling s.prevSibling c = s.prevSibling := by
    funext x
    rw [unlinkPrev_apply, hnext]
    by_cases hx : x = c
    · subst hx; simp [hprev]
    · simp [hx]
  unfold unlinkChild
  rw [if_neg hhead, e₁, e₂]

/-- C16, amended (detaching an absent child).  In every state, for live objects `p` and `c`
where `c` is not in the children list of `p` and both sibling links of `c` are null (a root, or
the only child of another object), `p.removeChild(c)` returns the heap unchanged. -/
theorem detach_absent_noop (s : Heap) (p c : Nat)
    (hp : s.live p = true) (hc : s.live c = true) (hout : c ∉ children s p)
    (hprev : s.prevSibling c = none) (hnext : s.nextSibling c = none) :
    QObject.removeChild s p c = some s := by
  have hhead : s.childrenHead p ≠ some c := by
    intro e
    apply hout
    unfold children
    rw [e]
    obtain ⟨k, hk⟩ : ∃ k, s.nobjs = k + 1 := ⟨s.nobjs - 1, by
      have := Heap.live_lt hc; omega⟩
    rw [hk]
    exact List.mem_cons_self _ _
  have e := QObject.removeChild_unlink hp hc (fun q hq => by rw [hprev] at hq; cases hq)
    (fun q hq => by rw [hnext] at hq; cases hq)
  rw [e, unlinkChild_self hhead hprev hnext]

theorem detach_absent_noop_witness :
    demo.live 4 = true ∧ demo.live 0 = true ∧ 0 ∉ children demo 4 ∧
    demo.prevSibling 0 = none ∧ demo.nextSibling 0 = none ∧
    QObject.removeChild demo 4 0 = some demo :=
  ⟨by decide, by decide, by decide, by decide, by decide,
    detach_absent_noop demo 4 0 (by decide) (by decide) (by decide) (by decide) (by decide)⟩

/-- C16 as stated fails for a child of another object that has siblings.  In the sample heap the
object `3` is the first child of `1`, before its sibling `2`, and is not a child of `4`.  The
call `4.removeChild(3)` returns a heap in which the links between `3` and `2` are cut, so the
children list of `1` is `[3]` although the parent of `2` is still `1`. -/
theorem detach_absent_counterexample :
    WF demo ∧ demo.live 4 = true ∧ demo.live 3 = true ∧ 3 ∉ children demo 4 ∧
    demo.parent 3 = some 1 ∧ children demo 1 = [3, 2] ∧
    ∃ s', QObject.removeChild demo 4 3 = some s' ∧ s' ≠ demo ∧
      s'.nextSibling 3 = none ∧ demo.nextSibling 3 = some 2 ∧
      s'.prevSibling 2 = none ∧ demo.prevSibling 2 = some 3 ∧
      children s' 1 = [3] ∧ s'.parent 2 = some 1 := by
  refine ⟨by decide, by decide, by decide, by decide, by decide, by decide,
    unlinkChild demo 4 3, ?_, ?_, by decide, by decide, by decide, by decide, by decide,
    by decide⟩
  · exact QObject.removeChild_unlink (by decide) (by decide)
      (fun q hq => by
        have : demo.prevSibling 3 = none := by decide
        rw [this] at hq; cases hq)
      (fun q hq => by
        have : demo.nextSibling 3 = some 2 := by decide
        rw [this] at hq; cases hq; decide)
  · intro e
    have h1 : (unlinkChild demo 4 3).nextSibling 3 = none := by decide
    rw [e] at h1
    exact absurd h1 (by decide)

/-! ## Creation -/

/-- What `setParent` does to a root that gets a live parent. -/
theorem setParent_root {s : Heap} (hT : TreeInv s []) {c p : Nat} (hc : s.live c = true)
    (hcp : s.parent c = none) (hp : s.live p = true) :
    QObject.setParent s c (some p) = some (linkChild (withParent s c (some p)) p c) ∧
    TreeInv (linkChild (withParent s c (some p)) p c) [] ∧
    ∀ q, s.live q = true →
      children (linkChild (withParent s c (some p)) p c) q =
        if q = p then c :: children s q else children s q := by
  have hT₁ := hT.root_out hc hcp
  have hlinks := hT.roots c hc hcp
  have hT₂ := withParent_inv (some p) hT₁ hlinks
  have hcp₂ : (withParent s c (some p)).parent c = some p := upd_same _ _ _
  have hT₃ := linkChild_inv hT₂ (by simp) hcp₂ hp hlinks.1
  have hk := linkChild_children hT₂ hcp₂ hp hlinks.1
  refine ⟨?_, hT₃, ?_⟩
  · unfold QObject.setParent
    simp only [Option.bind_eq_bind, Heap.rd_live _ hc, Option.some_bind, hcp,
      reduceCtorEq, if_false, Heap.wrParent_eq _ hc]
    refine QObject.addChild_eq hp hc hcp₂ ?_
    intro q hq
    have hq' : (withParent s c (some p)).childrenHead p = some q := hq
    have h1 := Chain.cur_eq (hT₂.chains p hp).1
    rw [hq'] at h1
    exact ((hT₂.chains p hp).1.live_of_mem q (List.mem_of_mem_head? h1.symm)).1
  · intro q hq
    rw [hk q hq]
    have : children (withParent s c (some p)) = children s := children_congr rfl rfl rfl
    rw [this]

/-- The expression `new QObject(p)` for a live `p`: the new object becomes the head of the
children list of `p`. -/
theorem new_child_spec {s : Heap} (hT : TreeInv s []) {p : Nat} (hp : s.live p = true) :
    ∃ s', QObject.new s (some p) = some (s', s.nobjs) ∧ TreeInv s' [] ∧
      s'.live s.nobjs = true ∧ s'.live p = true ∧
      QObject.parentFn s' s.nobjs = some (some p) ∧
      children s' p = s.nobjs :: children s p ∧
      (children s' p).head? = some s.nobjs ∧ s'.childrenHead p = some s.nobjs ∧
      ∀ q, s.live q = true → q ≠ p → children s' q = children s q := by
  have hT₀ := newObj_tree hT
  have hn₀ : s.newObj.1.live s.nobjs = true := (newObj_live s _).mpr (Or.inr rfl)
  have hp₀ : s.newObj.1.live p = true := (newObj_live s _).mpr (Or.inl hp)
  have hpn : p ≠ s.nobjs := by
    have := Heap.live_lt hp; omega
  obtain ⟨e, hT', hk⟩ := setParent_root hT₀ hn₀ (show s.newObj.1.parent s.nobjs = none from
    upd_same _ _ _) hp₀
  have hkp : children (linkChild (withParent s.newObj.1 s.nobjs (some p)) p s.nobjs) p =
      s.nobjs :: children s p := by
    rw [hk p hp₀, if_pos rfl, newObj_children_eq hT p hp₀, if_neg hpn]
  refine ⟨_, ?_, hT', hn₀, hp₀, ?_, hkp, by rw [hkp]; rfl, upd_same _ _ _, ?_⟩
  · unfold QObject.new
    rw [show s.newObj = (s.newObj.1, s.nobjs) from rfl]
    simp only [Option.bind_eq_bind, e, Option.some_bind]
  · unfold QObject.parentFn
    have hl : (linkChild (withParent s.newObj.1 s.nobjs (some p)) p s.nobjs).live s.nobjs
        = true := hn₀
    rw [Heap.rd_live _ hl]
    show some (upd s.newObj.1.parent s.nobjs (some p) s.nobjs) = _
    rw [upd_same]
  · intro q hq hqp
    have hq₀ : s.newObj.1.live q = true := (newObj_live s _).mpr (Or.inl hq)
    have hqn : q ≠ s.nobjs := by
      have := Heap.live_lt hq; omega
    rw [hk q hq₀, if_neg hqp, newObj_children_eq hT q hq₀, if_neg hqn]

/-- The expression `new QObject()`: the new object is a root in no children list. -/
theorem new_root_spec {s : Heap} (hT : TreeInv s []) :
    QObject.new s none = some (s.newObj.1, s.nobjs) ∧ TreeInv s.newObj.1 [] ∧
      s.newObj.1.live s.nobjs = true ∧
      QObject.parentFn s.newObj.1 s.nobjs = some none ∧
      (∀ q, s.newObj.1.live q = true → s.nobjs ∉ children s.newObj.1 q) ∧
      ∀ q, s.live q = true → children s.newObj.1 q = children s q := by
  have hn₀ : s.newObj.1.live s.nobjs = true := (newObj_live s _).mpr (Or.inr rfl)
  have hpar : s.newObj.1.parent s.nobjs = none := upd_same _ _ _
  refine ⟨?_, newObj_tree hT, hn₀, ?_, ?_, ?_⟩
  · unfold QObject.new
    rw [show s.newObj = (s.newObj.1, s.nobjs) from rfl]
    unfold QObject.setParent
    simp only [Option.bind_eq_bind, Heap.rd_live _ hn₀, Option.some_bind, hpar, if_true]
  · unfold QObject.parentFn
    rw [Heap.rd_live _ hn₀, hpar]
  · intro q hq hm
    have := (((newObj_tree hT).chains q hq).1.live_of_mem _ hm).2
    rw [hpar] at this
    cases this
  · intro q hq
    have hq₀ : s.newObj.1.live q = true := (newObj_live s _).mpr (Or.inl hq)
    have hqn : q ≠ s.nobjs := by
      have := Heap.live_lt hq; omega
    rw [newObj_children_eq hT q hq₀, if_neg hqn]

/-- C17, amended (creation with a parent).  In a state with the tree invariant, for every live
object `p`, `new QObject(p)` returns a new live object whose `parent()` is `p` and which is the
first element of the traversal from `childrenHead` of `p`: the children list of `p` is the new
object followed by the previous children in their previous order; the other lists are
unchanged.  And `new QObject()` returns a root, with `parent()` null, that is in no children
list. -/
theorem creation_with_parent (s : Heap) (p : Nat) (hT : TreeInv s [])
    (hp : s.live p = true) :
    (∃ s', QObject.new s (some p) = some (s', s.nobjs) ∧ TreeInv s' [] ∧
      s'.live s.nobjs = true ∧ s'.live p = true ∧
      QObject.parentFn s' s.nobjs = some (some p) ∧
      children s' p = s.nobjs :: children s p ∧
      (children s' p).head? = some s.nobjs ∧ s'.childrenHead p = some s.nobjs ∧
      ∀ q, s.live q = true → q ≠ p → children s' q = children s q) ∧
    (∃ s', QObject.new s none = some (s', s.nobjs) ∧ TreeInv s' [] ∧
      s'.live s.nobjs = true ∧ QObject.parentFn s' s.nobjs = some none ∧
      (∀ q, s'.live q = true → s.nobjs ∉ children s' q) ∧
      ∀ q, s.live q = true → children s' q = children s q) :=
  ⟨new_child_spec hT hp, ⟨_, new_root_spec hT⟩⟩

theorem creation_with_parent_witness :
    demo.live 0 = true ∧
    ((∃ s', QObject.new demo (some 0) = some (s', demo.nobjs) ∧ TreeInv s' [] ∧
      s'.live demo.nobjs = true ∧ s'.live 0 = true ∧
      QObject.parentFn s' demo.nobjs = some (some 0) ∧
      children s' 0 = demo.nobjs :: children demo 0 ∧
      (children s' 0).head? = some demo.nobjs ∧ s'.childrenHead 0 = some demo.nobjs ∧
      ∀ q, demo.live q = true → q ≠ 0 → children s' q = children demo q) ∧
    (∃ s', QObject.new demo none = some (s', demo.nobjs) ∧ TreeInv s' [] ∧
      s'.live demo.nobjs = true ∧ QObject.parentFn s' demo.nobjs = some none ∧
      (∀ q, s'.live q = true → demo.nobjs ∉ children s' q) ∧
      ∀ q, demo.live q = true → children s' q = children demo q)) :=
  ⟨by decide, creation_with_parent demo 0 (WF.treeInv (by decide)) (by decide)⟩

/-- C17 as stated fails: the new object is the first, not the last, element of the traversal.
In the sample heap the children list of `0` is `[4, 1]`; after `new QObject(0)` returned the
object `5`, the list is `[5, 4, 1]` and not `[4, 1, 5]`. -/
theorem creation_with_parent_counterexample :
    WF demo ∧ demo.live 0 = true ∧ children demo 0 = [4, 1] ∧
    ∃ s', QObject.new demo (some 0) = some (s', 5) ∧ children s' 0 = [5, 4, 1] ∧
      children s' 0 ≠ children demo 0 ++ [5] ∧ (children s' 0).getLast? ≠ some 5 := by
  have hwf : WF demo := by decide
  obtain ⟨s', e, _, _, _, _, hk, _⟩ := new_child_spec hwf.treeInv (show demo.live 0 = true by decide)
  have hk' : children s' 0 = [5, 4, 1] := by
    rw [hk]; decide
  refine ⟨hwf, by decide, by decide, s', e, hk', ?_, ?_⟩
  · rw [hk']; decide
  · rw [hk']; decide

/-! ## The attach primitive -/

/-- What `addChild` does for a child that names the receiver as parent and is in no children
list. -/
theorem addChild_spec {s : Heap} {p c : Nat} (hT : TreeInv s [c])
    (hcp : s.parent c = some p) (hp : s.live p = true) (hprev : s.prevSibling c = none) :
    QObject.addChild s p c = some (linkChild s p c) ∧ TreeInv (linkChild s p c) [] ∧
      children (linkChild s p c) p = c :: children s p ∧
      ∀ q, s.live q = true → q ≠ p → children (linkChild s p c) q = children s q := by
  have hc : s.live c = true := (hT.exempt c (List.mem_cons_self _ _)).1
  have hk := linkChild_children hT hcp hp hprev
  refine ⟨?_, linkChild_inv hT (by simp) hcp hp hprev, by rw [hk p hp, if_pos rfl], ?_⟩
  · refine QObject.addChild_eq hp hc hcp ?_
    intro q hq
    have h1 := Chain.cur_eq (hT.chains p hp).1
    rw [hq] at h1
    exact ((hT.chains p hp).1.live_of_mem q (List.mem_of_mem_head? h1.symm)).1
  · intro q hq hqp
    rw [hk q hq, if_neg hqp]

/-- C18, amended (the preconditions of the attach primitive).  Let the tree invariant hold with
`c` exempt: `c` is live and in no children list, and I1 holds for all other objects.  When the
parent reference of `c` is the live object `p`, the condition of the `Q_ASSERT`, and
`prevSibling` of `c` is null, the call `p.addChild(c)` returns a state in which the tree
invariant holds for all objects; the children list of `p` is `c` followed by the previous list,
a well linked list without repetition that contains `c` once, and the other lists are
unchanged. -/
theorem addChild_on_unlinked_child (s : Heap) (p c : Nat) (hT : TreeInv s [c])
    (hcp : s.parent c = some p) (hp : s.live p = true) (hprev : s.prevSibling c = none) :
    ∃ s', QObject.addChild s p c = some s' ∧ TreeInv s' [] ∧
      children s' p = c :: children s p ∧
      Linked s' p (children s' p) ∧ (children s' p).Nodup ∧ (children s' p).count c = 1 ∧
      ∀ q, s.live q = true → q ≠ p → children s' q = children s q := by
  obtain ⟨e, hT', hk, hfr⟩ := addChild_spec hT hcp hp hprev
  have hp' : (linkChild s p c).live p = true := hp
  obtain ⟨h1, h2⟩ := hT'.chains p hp'
  refine ⟨_, e, hT', hk, h1, h2, ?_, hfr⟩
  exact List.count_eq_one_of_mem h2 (by rw [hk]; exact List.mem_cons_self _ _)

theorem addChild_on_unlinked_child_witness :
    TreeInv (withParent demo 0 (some 4)) [0] ∧
    (withParent demo 0 (some 4)).parent 0 = some 4 ∧
    (withParent demo 0 (some 4)).live 4 = true ∧
    (withParent demo 0 (some 4)).prevSibling 0 = none ∧
    ∃ s', QObject.addChild (withParent demo 0 (some 4)) 4 0 = some s' ∧ TreeInv s' [] ∧
      children s' 4 = 0 :: children (withParent demo 0 (some 4)) 4 ∧
      Linked s' 4 (children s' 4) ∧ (children s' 4).Nodup ∧ (children s' 4).count 0 = 1 ∧
      ∀ q, (withParent demo 0 (some 4)).live q = true → q ≠ 4 →
        children s' q = children (withParent demo 0 (some 4)) q :=
  have hT : TreeInv (withParent demo 0 (some 4)) [0] :=
    withParent_inv (some 4)
      (TreeInv.root_out (WF.treeInv (by decide)) (by decide) (by decide))
      ⟨by decide, by decide⟩
  ⟨hT, by decide, by decide, by decide,
    addChild_on_unlinked_child (withParent demo 0 (some 4)) 4 0 hT (by decide) (by decide)
      (by decide)⟩

/-- C18 as stated fails: when I1 holds and the parent reference of `c` is `p`, the object `c`
is already in the children list of `p`.  In the sample heap the object `4` is the head of the
list of `0`; the call `0.addChild(4)` passes the `Q_ASSERT` and returns a heap in which
`nextSibling` of `4` is `4` itself, so the traversal from `childrenHead` of `0` never ends and
meets `4` more than once. -/
theorem addChild_counterexample :
    WF demo ∧ demo.live 0 = true ∧ demo.live 4 = true ∧ demo.parent 4 = some 0 ∧
    ∃ s', QObject.addChild demo 0 4 = some s' ∧ s'.nextSibling 4 = some 4 ∧
      s'.childrenHead 0 = some 4 ∧ ¬ (children s' 0).Nodup ∧
      (children s' 0).count 4 ≠ 1 ∧ ¬ Linked s' 0 (children s' 0) ∧
      (∀ l, 4 ∈ l → l.Nodup → ¬ Linked s' 0 l) := by
  refine ⟨by decide, by decide, by decide, by decide, linkChild demo 0 4, ?_,
    by decide, by decide, by decide, by decide, by decide, ?_⟩
  · refine QObject.addChild_eq (by decide) (by decide) (by decide) ?_
    intro q hq
    have : demo.childrenHead 0 = some 4 := by decide
    rw [this] at hq
    cases hq
    decide
  · intro l hm hnd hl
    have h1 := Chain.nxt_mem hl hm (show (linkChild demo 0 4).nextSibling 4 = some 4 by decide)
    obtain ⟨l₁, l₂, rfl⟩ := List.append_of_mem hm
    have h2 := Chain.nxt_mid hl
    rw [show (linkChild demo 0 4).nextSibling 4 = some 4 by decide] at h2
    have h3 : 4 ∈ l₂ := List.mem_of_mem_head? h2.symm
    have := (List.nodup_append.mp hnd).2.1
    exact (List.nodup_cons.mp this).1 h3

/-! ## Releasing a live handle -/

/-- C19 (release of a live handle).  In a well-formed heap let the handle `h` observe the object
`n`, through its cell `k`, which is somewhere in the weak-slot list of `n`: the list is
`l₁ ++ k :: l₂`.  Then `h.reset()` returns a well-formed heap in which the list of `n` is
`l₁ ++ l₂`, whose cells are allocated and observe `n`; the list of every other object is
unchanged; every other handle holds what it held and its `get()` is unchanged; and `h` holds no
cell, `h.get()` is null, and the cell `k` is released. -/
theorem reset_releases_own_cell (s : Heap) (h n : Nat) (hwf : WF s)
    (hget : QPointer.get s h = some (some n)) :
    ∃ s' k l₁ l₂, s.d h = some k ∧ weakSlots s n = l₁ ++ k :: l₂ ∧
      QPointer.reset s h = some s' ∧ WF s' ∧
      weakSlots s' n = l₁ ++ l₂ ∧ k ∉ weakSlots s' n ∧
      (∀ x ∈ weakSlots s' n, s'.cell x = true ∧ s'.object x = some n) ∧
      (∀ m, s.live m = true → m ≠ n → weakSlots s' m = weakSlots s m) ∧
      (∀ x, x < s.nptrs → x ≠ h →
        s'.d x = s.d x ∧ QPointer.get s' x = QPointer.get s x) ∧
      s'.d h = none ∧ QPointer.get s' h = some none ∧ QPointer.isNull s' h = some true ∧
      s'.cell k = false := by
  obtain ⟨hh, k, hd, hk, ho⟩ := get_eq_some_iff.mp hget
  obtain ⟨hn, hmem⟩ := hwf.weakInv.member k n hk ho
  obtain ⟨l₁, l₂, hl⟩ := List.append_of_mem hmem
  have hnd := (hwf.weakInv.chains n hn).2
  have hwf' := resetHeap_wf hwf hh
  have hn' : (resetHeap s h).live n = true := by rw [resetHeap_live]; exact hn
  have hk₁ : k ∉ l₁ := by
    intro hx
    rw [hl] at hnd
    exact (List.nodup_append.mp hnd).2.2 hx (List.mem_cons_self _ _)
  have hk₂ : k ∉ l₂ := by
    rw [hl] at hnd
    exact (List.nodup_cons.mp (List.nodup_append.mp hnd).2.1).1
  have hws : weakSlots (resetHeap s h) n = l₁ ++ l₂ := by
    rw [resetHeap_of_obj hd ho, dropCell_weakSlots hwf.weakInv hk ho n hn, hl,
      List.erase_append_right _ hk₁]
    simp
  have hgs := resetHeap_get_self (s := s) hh
  refine ⟨resetHeap s h, k, l₁, l₂, hd, hl, QPointer.reset_eq hwf hh, hwf', hws, ?_, ?_, ?_,
    ?_, ?_, hgs, ?_, ?_⟩
  · rw [hws]
    simp [hk₁, hk₂]
  · intro x hx
    exact (hwf'.weakInv.chains n hn').1.cell_of_mem x hx
  · intro m hm hmn
    rw [resetHeap_of_obj hd ho, dropCell_weakSlots hwf.weakInv hk ho m hm,
      List.erase_of_not_mem]
    intro hx
    exact WeakInv.ne_of_mem hwf.weakInv hn hm hmn hx hmem rfl
  · intro x hx hxh
    refine ⟨?_, resetHeap_get_other hwf hh hx hxh⟩
    rw [resetHeap_d]
    exact upd_ne _ _ hxh
  · rw [resetHeap_d]
    exact upd_same _ _ _
  · rw [isNull_of_get hgs]
    rfl
  · cases hc : (resetHeap s h).cell k with
    | false => rfl
    | true => exact absurd hd ((resetHeap_cell s h k).mp hc).2

theorem reset_releases_own_cell_witness :
    WF demo ∧ QPointer.get demo 2 = some (some 2) ∧ weakSlots demo 2 = [3, 2, 1] ∧
    ∃ s' k l₁ l₂, demo.d 2 = some k ∧ weakSlots demo 2 = l₁ ++ k :: l₂ ∧
      QPointer.reset demo 2 = some s' ∧ WF s' ∧
      weakSlots s' 2 = l₁ ++ l₂ ∧ k ∉ weakSlots s' 2 ∧
      (∀ x ∈ weakSlots s' 2, s'.cell x = true ∧ s'.object x = some 2) ∧
      (∀ m, demo.live m = true → m ≠ 2 → weakSlots s' m = weakSlots demo m) ∧
      (∀ x, x < demo.nptrs → x ≠ 2 →
        s'.d x = demo.d x ∧ QPointer.get s' x = QPointer.get demo x) ∧
      s'.d 2 = none ∧ QPointer.get s' 2 = some none ∧ QPointer.isNull s' 2 = some true ∧
      s'.cell k = false :=
  ⟨by decide, by decide, by decide,
    reset_releases_own_cell demo 2 2 (by decide) (by decide)⟩

/-! ## Termination -/

/-- The loop that clears the weak cells needs one round for each cell of the list. -/
theorem QObject.invalidate_short {n : Nat} : ∀ (l : List Nat) (s : Heap),
    s.live n = true → WLinked s n l → l.Nodup →
    ∀ f, f < l.length → QObject.invalidate f s n (s.weak_pointers n) = none
  | [], _, _, _, _, f, hf => by simp at hf
  | k :: t, s, hn, hl, hnd, f, hf => by
    obtain ⟨hw, ⟨hk, hko⟩, hkp, ht⟩ := hl
    have hndt : t.Nodup := (List.nodup_cons.mp hnd).2
    cases f with
    | zero => rw [hw]; rfl
    | succ f' =>
      have hnx : ∀ q, s.next k = some q → s.cell q = true := by
        intro q hq
        have := Chain.cur_eq ht
        rw [hq] at this
        exact (Chain.ok_of_mem ht q (List.mem_of_mem_head? this.symm)).1
      rw [hw, QObject.invalidate_step f' hn hk hkp hnx]
      have hu : unlinkNext s.next s.prev k = upd s.next k none := by
        unfold unlinkNext; rw [hkp]
      let s₁ : Heap := { s with
          object := upd s.object k none
          weak_pointers := upd s.weak_pointers n (s.next k)
          next := upd s.next k none
          prev := unlinkPrev s.next s.prev k }
      have hl₁ : WLinked s₁ n t := by
        have hfull : Chain (fun k => s.cell k = true ∧ s.object k = some n) s.prev s.next
            none (some k) (k :: t) := ⟨rfl, ⟨hk, hko⟩, hkp, ht⟩
        have := Chain.unlink (fun x => s₁.cell x = true ∧ s₁.object x = some n)
          hfull hnd (List.mem_cons_self _ _) (by
            intro x _ hxk h
            refine ⟨h.1, ?_⟩
            show upd s.object k none x = some n
            rw [upd_ne _ _ hxk]; exact h.2)
        simp only [if_true, List.erase_cons_head] at this
        unfold WLinked
        have hw₁ : s₁.weak_pointers n = s.next k := upd_same _ _ _
        rw [hw₁]
        show Chain _ (unlinkPrev s.next s.prev k) (upd s.next k none) none _ t
        rw [← hu]
        exact this
      have hih := QObject.invalidate_short t s₁ hn hl₁ hndt f' (by simpa using hf)
      have hw₁ : s₁.weak_pointers n = s.next k := upd_same _ _ _
      rw [hw₁] at hih
      exact hih

/-- C20 (destruction terminates).  Let I1 hold (every children list is well linked without
repetition, every live object with a parent is in the list of that parent, roots have null
sibling links) and let the weak-slot lists be well linked; the parent links need not even be
acyclic.  Then for every live object `n`, `delete n` returns for every large enough fuel, with
`n` released and the invariants kept, and more fuel never changes the result.  The loop that
clears the weak cells of `n` returns exactly when the fuel is at least the length of the
weak-slot list of `n`, one round for each cell, and it clears each cell of the list. -/
theorem destruction_terminates (s : Heap) (n : Nat) (hc : ChildrenOK s) (hp : ParentOK s)
    (hr : RootsOK s) (hw : WeakOK s) (ho : ObservedOK s) (hn : s.live n = true) :
    (∃ F s', (∀ f, F ≤ f → QObject.destroy f s n = some s') ∧ s'.live n = false ∧
      TreeInv s' [] ∧ WeakInv s') ∧
    (∀ f f' s', QObject.destroy f s n = some s' → f ≤ f' →
      QObject.destroy f' s n = some s') ∧
    (∀ f, QObject.invalidate f s n (s.weak_pointers n) =
      if (weakSlots s n).length ≤ f then some (clearCells s n (weakSlots s n)) else none) ∧
    (∀ k ∈ weakSlots s n, (clearCells s n (weakSlots s n)).object k = none) := by
  have hT : TreeInv s [] := by
    constructor
    · intro p hpl; exact hc p (Heap.live_lt hpl) hpl
    · intro c p hcl _ hcp; exact hp c (Heap.live_lt hcl) hcl p hcp
    · intro x hx; cases hx
    · intro c hcl hcp; exact hr c (Heap.live_lt hcl) hcl hcp
  have hW : WeakInv s := by
    constructor
    · intro m hm; exact hw m (Heap.live_lt hm) hm
    · intro k m hk hko; exact ho k (Heap.cell_lt hk) hk m hko
  refine ⟨?_, ?_, ?_, ?_⟩
  · obtain ⟨F, s', hrun, h1, h2, _, h4, _⟩ :=
      destroy_keeps _ s [] n (Nat.lt_succ_self _) hT hW hn (by simp)
    exact ⟨F, s', hrun, h4, h1, h2⟩
  · intro f f' s' e hf
    exact destroy_mono e hf
  · intro f
    obtain ⟨hch, hnd⟩ := hW.chains n hn
    by_cases hf : (weakSlots s n).length ≤ f
    · rw [if_pos hf]
      exact QObject.invalidate_eq _ s hn hch hnd f hf
    · rw [if_neg hf]
      exact QObject.invalidate_short _ s hn hch hnd f (by omega)
  · intro k hk
    show (if k ∈ weakSlots s n then none else s.object k) = none
    rw [if_pos hk]

theorem destruction_terminates_witness :
    ChildrenOK demo ∧ ParentOK demo ∧ RootsOK demo ∧ WeakOK demo ∧ ObservedOK demo ∧
    demo.live 1 = true ∧
    ((∃ F s', (∀ f, F ≤ f → QObject.destroy f demo 1 = some s') ∧ s'.live 1 = false ∧
      TreeInv s' [] ∧ WeakInv s') ∧
    (∀ f f' s', QObject.destroy f demo 1 = some s' → f ≤ f' →
      QObject.destroy f' demo 1 = some s') ∧
    (∀ f, QObject.invalidate f demo 1 (demo.weak_pointers 1) =
      if (weakSlots demo 1).length ≤ f then some (clearCells demo 1 (weakSlots demo 1))
        else none) ∧
    (∀ k ∈ weakSlots demo 1, (clearCells demo 1 (weakSlots demo 1)).object k = none)) :=
  ⟨by decide, by decide, by decide, by decide, by decide, by decide,
    destruction_terminates demo 1 (by decide) (by decide) (by decide) (by decide) (by decide)
      (by decide)⟩
